import Mathlib

/-!
Verification development for the json_handler C library.

The C sources (json.h, json.c, json_parser.c, json_validate.c, json_format.c,
json_file.c) are shallowly embedded below.  C strings are lists of byte
values (Nat, 0 to 255); the NUL terminator is represented by the end of the
list, and reading at the end of the list yields byte 0, matching a read of
the terminator.  C doubles are idealized as exact values: an inductive JNum
with a finite rational constructor plus NaN and the two infinities.  malloc
and realloc are modeled as always succeeding.  Error records keep the code,
line and column of the C JsonError; the human-readable message and context
snippet are not modeled (no claim mentions them).
-/

namespace JsonSpec

/-- Byte of a C string (0 to 255). -/
abbrev Byte := Nat

/-- Reading the current character of a C string: at the end of the buffer the
NUL terminator (byte 0) is read. -/
def peek (l : List Byte) : Byte := l.headD 0

/-- Convenience: bytes of an ASCII Lean string literal (test inputs only). -/
def strBytes (s : String) : List Byte := s.toList.map Char.toNat

/-- Model of isdigit from ctype.h. -/
def isDigitByte (c : Byte) : Bool := 48 ≤ c && c ≤ 57

/-- Model of isspace from ctype.h (space, tab, newline, vtab, formfeed, cr). -/
def isSpaceByte (c : Byte) : Bool :=
  c = 32 || c = 9 || c = 10 || c = 11 || c = 12 || c = 13

/-- Model of isxdigit from ctype.h, used by validate_string. -/
def isHexByte (c : Byte) : Bool :=
  (48 ≤ c && c ≤ 57) || (97 ≤ c && c ≤ 102) || (65 ≤ c && c ≤ 70)

/-- json_parser.c:18 hex_char_to_int. -/
def hex_char_to_int (c : Byte) : Int :=
  if 48 ≤ c ∧ c ≤ 57 then (c : Int) - 48
  else if 97 ≤ c ∧ c ≤ 102 then (c : Int) - 97 + 10
  else if 65 ≤ c ∧ c ≤ 70 then (c : Int) - 65 + 10
  else -1

/-- JSON value types (json.h:12 JsonType) with their payloads attached, plus
the idealized number domain. -/
inductive JNum where
  | fin : ℚ → JNum
  | nan : JNum
  | inf : JNum
  | neginf : JNum
deriving DecidableEq, Repr

/-- Main JSON value structure (json.h:96 JsonValue).  Objects are the linked
list of JsonKeyValue pairs in stored order (head first); arrays are the items
in index order. -/
inductive JsonValue where
  | jnull : JsonValue
  | jbool : Bool → JsonValue
  | jnumber : JNum → JsonValue
  | jstring : List Byte → JsonValue
  | jarray : List JsonValue → JsonValue
  | jobject : List (List Byte × JsonValue) → JsonValue
deriving Repr

/-- Error codes (json.h:22 JsonErrorCode). -/
inductive JsonErrorCode where
  | none
  | unexpectedChar
  | invalidNumber
  | unterminatedString
  | invalidStringChar
  | invalidEscapeSequence
  | invalidUnicode
  | expectedKey
  | expectedColon
  | expectedCommaOrBracket
  | expectedCommaOrBrace
  | invalidValue
  | memoryAllocation
  | maximumNestingReached
  | formatError
  | formatBufferOverflow
  | formatMemoryAllocation
  | formatInvalidConfig
  | formatFileWrite
  | formatNullInput
  | invalidNumberNaN
  | invalidNumberInfinity
  | fileRead
  | fileWrite
deriving DecidableEq, Repr

/-- Error record (json.h:74 JsonError); message and context are not modeled. -/
structure JsonError where
  code : JsonErrorCode
  line : Nat
  column : Nat
deriving DecidableEq, Repr

/-- json.h:9 JSON_MAX_NESTING_DEPTH. -/
def JSON_MAX_NESTING_DEPTH : Nat := 32

/-- Result of a fueled recursive-descent routine.  The parser state
(json_parser.c:7 ParserState, mirrored by json_validate.c:19 ValidatorState)
is passed as separate arguments: remaining input, line, column and nesting
level; input_start and input_length only feed the context snippet, which is
not modeled.  Success carries the produced data and the four state fields
after it; failure carries the first error; nofuel marks fuel exhaustion,
never reached from the public entry points, which supply fuel larger than
any possible recursion. -/
inductive PResult (α : Type) where
  | ok : α → List Byte → Nat → Nat → Nat → PResult α
  | fail : JsonError → PResult α
  | nofuel : PResult α
deriving Repr

/-- Helper shared by json_parser.c:99 and json_validate.c:104 skip_whitespace
(the two C copies are identical): consume isspace bytes tracking line and
column. -/
def skipWhitespace : List Byte → Nat → Nat → List Byte × Nat × Nat
  | [], line, col => ([], line, col)
  | c :: rest, line, col =>
    if isSpaceByte c then
      if c = 10 then skipWhitespace rest (line + 1) 1
      else skipWhitespace rest line (col + 1)
    else (c :: rest, line, col)

/-- json_parser.c:119 parse_unicode_escape: read four hex digits at the
current position without consuming them.  Errors report the current
line and column (the state is not advanced by this function). -/
def parse_unicode_escape (input : List Byte) (line col : Nat) :
    Except JsonError Nat :=
  let c0 := peek input
  let c1 := peek (input.drop 1)
  let c2 := peek (input.drop 2)
  let c3 := peek (input.drop 3)
  if hex_char_to_int c0 = -1 then .error ⟨.invalidUnicode, line, col⟩
  else if hex_char_to_int c1 = -1 then .error ⟨.invalidUnicode, line, col⟩
  else if hex_char_to_int c2 = -1 then .error ⟨.invalidUnicode, line, col⟩
  else if hex_char_to_int c3 = -1 then .error ⟨.invalidUnicode, line, col⟩
  else .ok ((((hex_char_to_int c0).toNat * 16 + (hex_char_to_int c1).toNat) * 16
      + (hex_char_to_int c2).toNat) * 16 + (hex_char_to_int c3).toNat)

/-- json_parser.c:138 unicode_to_utf8.  The C bitwise ors are additions here
because the operands never overlap (the high bits are fixed tags and the low
bits are below the tag). -/
def unicode_to_utf8 (cp : Nat) : List Byte :=
  if cp ≤ 0x7F then [cp]
  else if cp ≤ 0x7FF then [0xC0 + cp / 64, 0x80 + cp % 64]
  else if cp ≤ 0xFFFF then
    [0xE0 + cp / 4096, 0x80 + cp / 64 % 64, 0x80 + cp % 64]
  else if cp ≤ 0x10FFFF then
    [0xF0 + cp / 262144, 0x80 + cp / 4096 % 64, 0x80 + cp / 64 % 64,
      0x80 + cp % 64]
  else []

/-- json_parser.c:162 process_escape_sequence.  The input starts at the
character right after the backslash.  Returns the produced UTF-8 bytes, the
number of input bytes consumed and the new column.  Note that in the plain
(non-surrogate) unicode branch the C code never advances past the four hex
digits it read (json_parser.c:176-227): only the u itself is consumed, so
the hex digits are afterwards re-read as literal characters by the caller.
The surrogate-pair branch does advance past both escapes. -/
def process_escape_sequence (input : List Byte) (line col : Nat) :
    Except JsonError (List Byte × Nat × Nat) :=
  if peek input = 34 then .ok ([34], 1, col + 1)
  else if peek input = 92 then .ok ([92], 1, col + 1)
  else if peek input = 47 then .ok ([47], 1, col + 1)
  else if peek input = 98 then .ok ([8], 1, col + 1)
  else if peek input = 102 then .ok ([12], 1, col + 1)
  else if peek input = 110 then .ok ([10], 1, col + 1)
  else if peek input = 114 then .ok ([13], 1, col + 1)
  else if peek input = 116 then .ok ([9], 1, col + 1)
  else if peek input = 117 then
    match parse_unicode_escape (input.drop 1) line (col + 1) with
    | .error e => .error e
    | .ok cp =>
      if 0xD800 ≤ cp ∧ cp ≤ 0xDBFF then
        -- high surrogate: skip the four hex digits, demand a second escape
        if peek ((input.drop 1).drop 4) = 92 ∧
            peek (((input.drop 1).drop 4).drop 1) = 117 then
          match parse_unicode_escape (((input.drop 1).drop 4).drop 2) line
              (col + 1 + 4 + 2) with
          | .error e => .error e
          | .ok low =>
            if low < 0xDC00 ∨ 0xDFFF < low then
              .error ⟨.invalidUnicode, line, col + 1 + 4 + 2⟩
            else
              -- 0x10000 + ((cp - 0xD800) << 10 | (low - 0xDC00)); the or is
              -- an addition because low - 0xDC00 < 1024
              match unicode_to_utf8 (0x10000 + ((cp - 0xD800) * 1024 +
                  (low - 0xDC00))) with
              | [] => .error ⟨.invalidUnicode, line, col + 1 + 4 + 2 + 4⟩
              | bs => .ok (bs, 11, col + 1 + 4 + 2 + 4)
        else .error ⟨.invalidUnicode, line, col + 1 + 4⟩
      else if 0xDC00 ≤ cp ∧ cp ≤ 0xDFFF then
        .error ⟨.invalidUnicode, line, col + 1⟩
      else
        match unicode_to_utf8 cp with
        | [] => .error ⟨.invalidUnicode, line, col + 1⟩
        | bs => .ok (bs, 1, col + 1)
  else .error ⟨.invalidEscapeSequence, line, col + 1⟩

/-- First pass of json_parser.c:239 parse_string (lines 246-275): scan for the
closing quote, rejecting raw control characters.  The state is not advanced,
so any error is reported at the position just after the opening quote; only
the error code is returned here.  The byte-count upper bound the C code also
computes only sizes a malloc that is modeled as always succeeding.  The
unicode case skips the four bytes after the u; reaching the end of the
buffer inside that skip leaves the scan at the terminator, hence the
unterminated-string error of the short branches. -/
def stringFirstPass : List Byte → Option JsonErrorCode
  | [] => some .unterminatedString
  | c :: rest =>
    if c = 34 then Option.none
    else if c = 92 then
      match rest with
      | [] => some .unterminatedString
      | e :: rest' =>
        if e = 117 then
          match rest' with
          | _ :: _ :: _ :: _ :: r => stringFirstPass r
          | _ => some .unterminatedString
        else stringFirstPass rest'
    else if c < 32 then some .invalidStringChar
    else stringFirstPass rest

/-- Second pass of parse_string (json_parser.c:286-301): decode the string
content up to the closing quote.  The loop consumes at least one byte per
iteration, so the fuel (one more than the byte count, supplied by
parse_string) never runs out; the empty-input and zero-fuel cases mirror the
buffer overrun the C code would commit there and are unreachable after a
successful first pass. -/
def stringSecondPass : Nat → List Byte → Nat → Nat → List Byte →
    Except JsonError (List Byte × List Byte × Nat)
  | 0, _, line, col, _ => .error ⟨.unterminatedString, line, col⟩
  | _ + 1, [], line, col, _ => .error ⟨.unterminatedString, line, col⟩
  | fuel + 1, c :: rest, line, col, acc =>
    if c = 34 then .ok (acc, rest, col + 1)
    else if c = 92 then
      match process_escape_sequence rest line (col + 1) with
      | .error e => .error e
      | .ok (bs, consumed, col') =>
        stringSecondPass fuel (rest.drop consumed) line col' (acc ++ bs)
    else stringSecondPass fuel rest line (col + 1) (acc ++ [c])

/-- json_parser.c:239 parse_string: returns the decoded bytes (the caller
wraps them into a string value or an object key), the rest of the input and
the new column. -/
def parse_string (input : List Byte) (line col : Nat) :
    Except JsonError (List Byte × List Byte × Nat) :=
  if peek input ≠ 34 then .error ⟨.unexpectedChar, line, col⟩
  else
    let body := input.drop 1
    match stringFirstPass body with
    | some code => .error ⟨code, line, col + 1⟩
    | Option.none => stringSecondPass (body.length + 1) body line (col + 1) []

/-- Longest digit prefix (the C while isdigit loops). -/
def digitSpan (l : List Byte) : List Byte × List Byte := l.span isDigitByte

/-- Shared number grammar walk: json_parser.c:320 parse_number and
json_validate.c:185 validate_number run character-identical scans, differing
only in that the parser additionally converts the token (see atofQ below).
Returns the matched token, the rest of the input and the new column. -/
def numberSpan (input : List Byte) (line col : Nat) :
    Except JsonError (List Byte × List Byte × Nat) :=
  -- optional minus sign
  let s0 := if peek input = 45 then 1 else 0
  let i1 := input.drop s0
  let c1 := col + s0
  if peek input = 45 ∧ ¬ isDigitByte (peek i1) then
    .error ⟨.invalidNumber, line, c1⟩
  else if peek i1 = 48 ∧ isDigitByte (peek (i1.drop 1)) then
    -- the 0 was consumed before the leading-zero check fired
    .error ⟨.invalidNumber, line, c1 + 1⟩
  else if ¬ isDigitByte (peek i1) then
    .error ⟨.invalidNumber, line, c1⟩
  else
    -- integer digits (a lone 0 is covered: its span stops at the next
    -- non-digit, which the leading-zero check above has ensured)
    let (ds, i2) := digitSpan i1
    let c2 := c1 + ds.length
    -- fractional part
    if peek i2 = 46 ∧ ¬ isDigitByte (peek (i2.drop 1)) then
      .error ⟨.invalidNumber, line, c2 + 1⟩
    else
      let (fs, i3) := if peek i2 = 46 then digitSpan (i2.drop 1) else ([], i2)
      let fracLen := if peek i2 = 46 then fs.length + 1 else 0
      let c3 := c2 + fracLen
      -- exponent
      if peek i3 = 101 ∨ peek i3 = 69 then
        let sLen := if peek (i3.drop 1) = 43 ∨ peek (i3.drop 1) = 45 then 1 else 0
        let i4 := i3.drop (1 + sLen)
        let c4 := c3 + 1 + sLen
        if ¬ isDigitByte (peek i4) then .error ⟨.invalidNumber, line, c4⟩
        else
          let (es, i5) := digitSpan i4
          let token := input.take (input.length - i5.length)
          .ok (token, i5, c4 + es.length)
      else
        let token := input.take (input.length - i3.length)
        .ok (token, i3, c3)

/-- Digit bytes read most-significant first. -/
def digitsToNat (ds : List Byte) : Nat :=
  ds.foldl (fun a c => 10 * a + (c - 48)) 0

/-- Exact-rational model of the atof call in json_parser.c:398 on a
grammar-valid token: the integer and fraction digits form one integer
mantissa, scaled by ten to the exponent minus the fraction length.  Real
atof rounds to the nearest double and can overflow to infinity on huge
exponents; this model is exact, so the NaN and infinity post-checks of
json_parser.c:402-412 can never fire here and are omitted as dead code. -/
def atofQ (token : List Byte) : ℚ :=
  let (neg, t) := if peek token = 45 then (true, token.drop 1) else (false, token)
  let (ds, t1) := digitSpan t
  let (fs, t2) := if peek t1 = 46 then digitSpan (t1.drop 1) else ([], t1)
  let e : Int :=
    if peek t2 = 101 ∨ peek t2 = 69 then
      let (esign, t3) :=
        if peek (t2.drop 1) = 45 then ((-1 : Int), t2.drop 2)
        else if peek (t2.drop 1) = 43 then ((1 : Int), t2.drop 2)
        else ((1 : Int), t2.drop 1)
      esign * (digitsToNat (digitSpan t3).1 : Int)
    else 0
  let mant : Int := (if neg then -1 else 1) * (digitsToNat (ds ++ fs) : Int)
  let scale : Int := e - fs.length
  if 0 ≤ scale then mkRat (mant * (10 : Int) ^ scale.toNat) 1
  else mkRat mant ((10 : Nat) ^ (-scale).toNat)

/-- json_parser.c:320 parse_number: returns the number value, the rest of
the input and the new column. -/
def parse_number (input : List Byte) (line col : Nat) :
    Except JsonError (JsonValue × List Byte × Nat) :=
  match numberSpan input line col with
  | .error e => .error e
  | .ok (token, rest, col') => .ok (.jnumber (.fin (atofQ token)), rest, col')

/-- Scan step of json.c:343 json_object_set: walk the pair list and replace
the value at the first matching key, or report that the key is absent. -/
def objectScanReplace : List (List Byte × JsonValue) → List Byte → JsonValue →
    Option (List (List Byte × JsonValue))
  | [], _, _ => Option.none
  | (k', v') :: rest, k, v =>
    if k' = k then some ((k', v) :: rest)
    else (objectScanReplace rest k v).map ((k', v') :: ·)

/-- json.c:343 json_object_set on the pair list: upsert with in-place
replacement, or insertion of a new pair at the head of the list. -/
def objectSetPairs (ps : List (List Byte × JsonValue)) (k : List Byte)
    (v : JsonValue) : List (List Byte × JsonValue) :=
  match objectScanReplace ps k v with
  | some ps' => ps'
  | Option.none => (k, v) :: ps

mutual

/-- json_parser.c:630 parse_value.  Fuel only bounds the recursion (every
public entry point supplies more fuel than any run can use). -/
def parse_value : Nat → List Byte → Nat → Nat → Nat → PResult JsonValue
  | 0, _, _, _, _ => .nofuel
  | fuel + 1, input0, line0, col0, nest =>
    match skipWhitespace input0 line0 col0 with
    | (input, line, col) =>
      let h := peek input
      if h = 110 then
        -- null
        if input.take 4 = [110, 117, 108, 108] then
          .ok .jnull (input.drop 4) line (col + 4) nest
        else .fail ⟨.invalidValue, line, col⟩
      else if h = 116 then
        -- true
        if input.take 4 = [116, 114, 117, 101] then
          .ok (.jbool true) (input.drop 4) line (col + 4) nest
        else .fail ⟨.invalidValue, line, col⟩
      else if h = 102 then
        -- false
        if input.take 5 = [102, 97, 108, 115, 101] then
          .ok (.jbool false) (input.drop 5) line (col + 5) nest
        else .fail ⟨.invalidValue, line, col⟩
      else if h = 34 then
        match parse_string input line col with
        | .error e => .fail e
        | .ok (bs, rest, col') => .ok (.jstring bs) rest line col' nest
      else if h = 91 then parse_array fuel input line col nest
      else if h = 123 then parse_object fuel input line col nest
      else if h = 45 ∨ isDigitByte h then
        match parse_number input line col with
        | .error e => .fail e
        | .ok (v, rest, col') => .ok v rest line col' nest
      else if h = 0 then .fail ⟨.unexpectedChar, line, col⟩
      else .fail ⟨.invalidValue, line, col⟩
termination_by structural fuel _i _l _c _n => fuel

/-- json_parser.c:424 parse_array (entry and empty-array handling). -/
def parse_array : Nat → List Byte → Nat → Nat → Nat → PResult JsonValue
  | 0, _, _, _, _ => .nofuel
  | fuel + 1, input, line, col, nest =>
    if peek input ≠ 91 then .fail ⟨.unexpectedChar, line, col⟩
    else if JSON_MAX_NESTING_DEPTH ≤ nest then
      .fail ⟨.maximumNestingReached, line, col⟩
    else
      match skipWhitespace (input.drop 1) line (col + 1) with
      | (input1, line1, col1) =>
        if peek input1 = 93 then
          .ok (.jarray []) (input1.drop 1) line1 (col1 + 1) nest
        else parse_array_items fuel input1 line1 col1 (nest + 1) []
termination_by structural fuel _i _l _c _n => fuel

/-- Element loop of parse_array (json_parser.c:457-507).  The accumulator is
the items appended so far (json_array_append, modeled as always
succeeding).  The closing-bracket exits decrement the nesting level. -/
def parse_array_items : Nat → List Byte → Nat → Nat → Nat → List JsonValue →
    PResult JsonValue
  | 0, _, _, _, _, _ => .nofuel
  | fuel + 1, input, line, col, nest, acc =>
    match parse_value fuel input line col nest with
    | .nofuel => .nofuel
    | .fail e => .fail e
    | .ok v input1 line1 col1 nest1 =>
      match skipWhitespace input1 line1 col1 with
      | (input2, line2, col2) =>
        if peek input2 = 93 then
          .ok (.jarray (acc ++ [v])) (input2.drop 1) line2 (col2 + 1) (nest1 - 1)
        else if peek input2 ≠ 44 then
          .fail ⟨.expectedCommaOrBracket, line2, col2⟩
        else
          match skipWhitespace (input2.drop 1) line2 (col2 + 1) with
          | (input3, line3, col3) =>
            if peek input3 = 93 then
              -- trailing comma
              .fail ⟨.unexpectedChar, line3, col3⟩
            else parse_array_items fuel input3 line3 col3 nest1 (acc ++ [v])
termination_by structural fuel _i _l _c _n _a => fuel

/-- json_parser.c:512 parse_object (entry and empty-object handling).  Note
that unlike parse_array, the success exits of parse_object never decrement
the nesting level (json_parser.c:538-541 and 602-605). -/
def parse_object : Nat → List Byte → Nat → Nat → Nat → PResult JsonValue
  | 0, _, _, _, _ => .nofuel
  | fuel + 1, input, line, col, nest =>
    if peek input ≠ 123 then .fail ⟨.unexpectedChar, line, col⟩
    else if JSON_MAX_NESTING_DEPTH ≤ nest then
      .fail ⟨.maximumNestingReached, line, col⟩
    else
      match skipWhitespace (input.drop 1) line (col + 1) with
      | (input1, line1, col1) =>
        if peek input1 = 125 then
          .ok (.jobject []) (input1.drop 1) line1 (col1 + 1) (nest + 1)
        else parse_object_items fuel input1 line1 col1 (nest + 1) []
termination_by structural fuel _i _l _c _n => fuel

/-- Member loop of parse_object (json_parser.c:545-626).  The accumulator is
the stored pair list built through json_object_set; the success exits keep
the incremented nesting level (the source never decrements it). -/
def parse_object_items : Nat → List Byte → Nat → Nat → Nat →
    List (List Byte × JsonValue) → PResult JsonValue
  | 0, _, _, _, _, _ => .nofuel
  | fuel + 1, input, line, col, nest, acc =>
    -- redundant loop-top skip_whitespace kept from json_parser.c:547
    match skipWhitespace input line col with
    | (input0, line0, col0) =>
      match parse_string input0 line0 col0 with
      | .error e => .fail e
      | .ok (key, input1, col1) =>
        match skipWhitespace input1 line0 col1 with
        | (input2, line2, col2) =>
          if peek input2 ≠ 58 then .fail ⟨.expectedColon, line2, col2⟩
          else
            match skipWhitespace (input2.drop 1) line2 (col2 + 1) with
            | (input3, line3, col3) =>
              match parse_value fuel input3 line3 col3 nest with
              | .nofuel => .nofuel
              | .fail e => .fail e
              | .ok v input4 line4 col4 nest4 =>
                match skipWhitespace input4 line4 col4 with
                | (input5, line5, col5) =>
                  if peek input5 = 125 then
                    .ok (.jobject (objectSetPairs acc key v)) (input5.drop 1)
                      line5 (col5 + 1) nest4
                  else if peek input5 ≠ 44 then
                    .fail ⟨.expectedCommaOrBrace, line5, col5⟩
                  else
                    match skipWhitespace (input5.drop 1) line5 (col5 + 1) with
                    | (input6, line6, col6) =>
                      if peek input6 = 125 then
                        -- trailing comma
                        .fail ⟨.unexpectedChar, line6, col6⟩
                      else parse_object_items fuel input6 line6 col6 nest4
                        (objectSetPairs acc key v)
termination_by structural fuel _i _l _c _n _a => fuel

end

/-- Ample fuel for a full parse or validation of the given input: every
recursive call strictly decreases the fuel, and between any two entries of
parse_value at least one input byte is consumed, with at most a constant
number of intermediate calls. -/
def parseFuel (input : List Byte) : Nat := 4 * input.length + 8

/-- json_parser.c:722 json_parse_string for a non-NULL input string.  The
nofuel outcome is unreachable (parseFuel exceeds any possible recursion) and
is mapped to a sentinel error with code none, which no real run produces. -/
def json_parse_string (input : List Byte) : Except JsonError JsonValue :=
  match parse_value (parseFuel input) input 1 1 0 with
  | .nofuel => .error ⟨.none, 0, 0⟩
  | .fail e => .error e
  | .ok v rest line col _ =>
    match skipWhitespace rest line col with
    | (rest1, line1, col1) =>
      if peek rest1 ≠ 0 then .error ⟨.unexpectedChar, line1, col1⟩
      else .ok v

/-- String loop of json_validate.c:117 validate_string, after the opening
quote has been consumed.  Returns the rest of the input after the closing
quote and the new column.  The loop consumes at least one byte per
iteration, so the fuel (one more than the byte count, supplied by
validate_string) never runs out; the zero-fuel case is unreachable. -/
def validateStringLoop : Nat → List Byte → Nat → Nat →
    Except JsonError (List Byte × Nat)
  | 0, _, line, col => .error ⟨.unterminatedString, line, col⟩
  | _ + 1, [], line, col => .error ⟨.unterminatedString, line, col⟩
  | fuel + 1, c :: rest, line, col =>
    if c = 34 then .ok (rest, col + 1)
    else if c < 32 then .error ⟨.invalidStringChar, line, col⟩
    else if c = 92 then
      let e := peek rest
      if e = 34 ∨ e = 92 ∨ e = 47 ∨ e = 98 ∨ e = 102 ∨ e = 110 ∨ e = 114 ∨ e = 116 then
        validateStringLoop fuel (rest.drop 1) line (col + 2)
      else if e = 117 then
        -- four hex digits, checked one at a time
        if ¬ isHexByte (peek (rest.drop 1)) then .error ⟨.invalidUnicode, line, col + 2⟩
        else if ¬ isHexByte (peek (rest.drop 2)) then .error ⟨.invalidUnicode, line, col + 3⟩
        else if ¬ isHexByte (peek (rest.drop 3)) then .error ⟨.invalidUnicode, line, col + 4⟩
        else if ¬ isHexByte (peek (rest.drop 4)) then .error ⟨.invalidUnicode, line, col + 5⟩
        else validateStringLoop fuel (rest.drop 5) line (col + 6)
      else .error ⟨.invalidEscapeSequence, line, col + 1⟩
    else validateStringLoop fuel rest line (col + 1)

/-- json_validate.c:117 validate_string: returns the rest of the input and
the new column. -/
def validate_string (input : List Byte) (line col : Nat) :
    Except JsonError (List Byte × Nat) :=
  if peek input ≠ 34 then .error ⟨.unexpectedChar, line, col⟩
  else
    let body := input.drop 1
    validateStringLoop (body.length + 1) body line (col + 1)

/-- json_validate.c:185 validate_number (the scan shared with the parser):
returns the rest of the input and the new column. -/
def validate_number (input : List Byte) (line col : Nat) :
    Except JsonError (List Byte × Nat) :=
  match numberSpan input line col with
  | .error e => .error e
  | .ok (_, rest, col') => .ok (rest, col')

mutual

/-- json_validate.c:385 validate_value. -/
def validate_value : Nat → List Byte → Nat → Nat → Nat → PResult Unit
  | 0, _, _, _, _ => .nofuel
  | fuel + 1, input0, line0, col0, nest =>
    match skipWhitespace input0 line0 col0 with
    | (input, line, col) =>
      let h := peek input
      if h = 110 then
        if input.take 4 = [110, 117, 108, 108] then
          .ok () (input.drop 4) line (col + 4) nest
        else .fail ⟨.invalidValue, line, col⟩
      else if h = 116 then
        if input.take 4 = [116, 114, 117, 101] then
          .ok () (input.drop 4) line (col + 4) nest
        else .fail ⟨.invalidValue, line, col⟩
      else if h = 102 then
        if input.take 5 = [102, 97, 108, 115, 101] then
          .ok () (input.drop 5) line (col + 5) nest
        else .fail ⟨.invalidValue, line, col⟩
      else if h = 34 then
        match validate_string input line col with
        | .error e => .fail e
        | .ok (rest, col') => .ok () rest line col' nest
      else if h = 91 then validate_array fuel input line col nest
      else if h = 123 then validate_object fuel input line col nest
      else if h = 45 ∨ isDigitByte h then
        match validate_number input line col with
        | .error e => .fail e
        | .ok (rest, col') => .ok () rest line col' nest
      else if h = 0 then .fail ⟨.unexpectedChar, line, col⟩
      else .fail ⟨.invalidValue, line, col⟩
termination_by structural fuel _i _l _c _n => fuel

/-- json_validate.c:249 validate_array. -/
def validate_array : Nat → List Byte → Nat → Nat → Nat → PResult Unit
  | 0, _, _, _, _ => .nofuel
  | fuel + 1, input, line, col, nest =>
    if peek input ≠ 91 then .fail ⟨.unexpectedChar, line, col⟩
    else if JSON_MAX_NESTING_DEPTH ≤ nest then
      .fail ⟨.maximumNestingReached, line, col⟩
    else
      match skipWhitespace (input.drop 1) line (col + 1) with
      | (input1, line1, col1) =>
        if peek input1 = 93 then
          .ok () (input1.drop 1) line1 (col1 + 1) nest
        else validate_array_items fuel input1 line1 col1 (nest + 1)
termination_by structural fuel _i _l _c _n => fuel

/-- Element loop of validate_array (json_validate.c:275-303). -/
def validate_array_items : Nat → List Byte → Nat → Nat → Nat → PResult Unit
  | 0, _, _, _, _ => .nofuel
  | fuel + 1, input, line, col, nest =>
    match validate_value fuel input line col nest with
    | .nofuel => .nofuel
    | .fail e => .fail e
    | .ok _ input1 line1 col1 nest1 =>
      match skipWhitespace input1 line1 col1 with
      | (input2, line2, col2) =>
        if peek input2 = 93 then
          .ok () (input2.drop 1) line2 (col2 + 1) (nest1 - 1)
        else if peek input2 ≠ 44 then
          .fail ⟨.expectedCommaOrBracket, line2, col2⟩
        else
          match skipWhitespace (input2.drop 1) line2 (col2 + 1) with
          | (input3, line3, col3) =>
            if peek input3 = 93 then
              .fail ⟨.unexpectedChar, line3, col3⟩
            else validate_array_items fuel input3 line3 col3 nest1
termination_by structural fuel _i _l _c _n => fuel

/-- json_validate.c:307 validate_object (nesting is restored on both success
exits, unlike the parser). -/
def validate_object : Nat → List Byte → Nat → Nat → Nat → PResult Unit
  | 0, _, _, _, _ => .nofuel
  | fuel + 1, input, line, col, nest =>
    if peek input ≠ 123 then .fail ⟨.unexpectedChar, line, col⟩
    else if JSON_MAX_NESTING_DEPTH ≤ nest then
      .fail ⟨.maximumNestingReached, line, col⟩
    else
      match skipWhitespace (input.drop 1) line (col + 1) with
      | (input1, line1, col1) =>
        if peek input1 = 125 then
          .ok () (input1.drop 1) line1 (col1 + 1) nest
        else validate_object_items fuel input1 line1 col1 (nest + 1)
termination_by structural fuel _i _l _c _n => fuel

/-- Member loop of validate_object (json_validate.c:333-381). -/
def validate_object_items : Nat → List Byte → Nat → Nat → Nat → PResult Unit
  | 0, _, _, _, _ => .nofuel
  | fuel + 1, input, line, col, nest =>
    match validate_string input line col with
    | .error e => .fail e
    | .ok (input1, col1) =>
      match skipWhitespace input1 line col1 with
      | (input2, line2, col2) =>
        if peek input2 ≠ 58 then .fail ⟨.expectedColon, line2, col2⟩
        else
          match skipWhitespace (input2.drop 1) line2 (col2 + 1) with
          | (input3, line3, col3) =>
            match validate_value fuel input3 line3 col3 nest with
            | .nofuel => .nofuel
            | .fail e => .fail e
            | .ok _ input4 line4 col4 nest4 =>
              match skipWhitespace input4 line4 col4 with
              | (input5, line5, col5) =>
                if peek input5 = 125 then
                  .ok () (input5.drop 1) line5 (col5 + 1) (nest4 - 1)
                else if peek input5 ≠ 44 then
                  .fail ⟨.expectedCommaOrBrace, line5, col5⟩
                else
                  match skipWhitespace (input5.drop 1) line5 (col5 + 1) with
                  | (input6, line6, col6) =>
                    if peek input6 = 125 then
                      .fail ⟨.unexpectedChar, line6, col6⟩
                    else validate_object_items fuel input6 line6 col6 nest4
termination_by structural fuel _i _l _c _n => fuel

end

/-- json_validate.c:463 json_validate_string for a non-NULL input string. -/
def json_validate_string (input : List Byte) : Bool :=
  match validate_value (parseFuel input) input 1 1 0 with
  | .ok _ rest line col _ =>
    match skipWhitespace rest line col with
    | (rest1, _, _) => peek rest1 = 0
  | _ => false

/-- Number notation selector (json.h:49 JsonNumberFormat). -/
inductive JsonNumberFormat where
  | decimal
  | scientific
  | auto
deriving DecidableEq, Repr

/-- Formatter configuration (json.h:55 JsonFormatConfig).  The two C string
pointers may be NULL, modeled by Option; the C int flags are booleans here
(they are only tested for truthiness); the numeric fields are Int because
json_format_string checks them for negativity. -/
structure JsonFormatConfig where
  indent_string : Option (List Byte)
  line_end : Option (List Byte)
  spaces_after_colon : Int
  spaces_after_comma : Int
  max_inline_length : Int
  number_format : JsonNumberFormat
  precision : Int
  inline_simple_arrays : Bool
  sort_object_keys : Bool
deriving Repr

/-- json_format.c:18 JSON_FORMAT_DEFAULT. -/
def JSON_FORMAT_DEFAULT : JsonFormatConfig :=
  { indent_string := some [32, 32], line_end := some [10],
    spaces_after_colon := 1, spaces_after_comma := 1, max_inline_length := 80,
    number_format := .auto, precision := 6, inline_simple_arrays := true,
    sort_object_keys := false }

/-- json_format.c:30 JSON_FORMAT_COMPACT. -/
def JSON_FORMAT_COMPACT : JsonFormatConfig :=
  { indent_string := some [], line_end := some [],
    spaces_after_colon := 0, spaces_after_comma := 0, max_inline_length := 0,
    number_format := .auto, precision := 6, inline_simple_arrays := true,
    sort_object_keys := false }

/-- json_format.c:42 JSON_FORMAT_PRETTY. -/
def JSON_FORMAT_PRETTY : JsonFormatConfig :=
  { indent_string := some [32, 32, 32, 32], line_end := some [10],
    spaces_after_colon := 1, spaces_after_comma := 1, max_inline_length := 60,
    number_format := .auto, precision := 6, inline_simple_arrays := true,
    sort_object_keys := true }

/-- json_format.c:65 should_skip_value: non-null number holding NaN. -/
def should_skip_value : JsonValue → Bool
  | .jnumber .nan => true
  | _ => false

/-- Decimal digits of a natural number, most significant first, with a fuel
bound on the digit count (n itself always suffices). -/
def natDigitsAux : Nat → Nat → List Byte
  | 0, _ => []
  | fuel + 1, n =>
    if n < 10 then [n + 48] else natDigitsAux fuel (n / 10) ++ [n % 10 + 48]

/-- Decimal digits of a natural number, most significant first. -/
def natDigits (n : Nat) : List Byte := natDigitsAux (n + 1) n

/-- Left-pad a digit string with zeros to the given width. -/
def padZeros (ds : List Byte) (n : Nat) : List Byte :=
  List.replicate (n - ds.length) 48 ++ ds

/-- Magnitude of a rational (model of fabs). -/
def qAbs (q : ℚ) : ℚ := if q < 0 then -q else q

/-- Ten to an integer power as an exact rational. -/
def qPow10 (d : Int) : ℚ :=
  if 0 ≤ d then mkRat ((10 : Int) ^ d.toNat) 1 else mkRat 1 ((10 : Nat) ^ (-d).toNat)

/-- Floor of a rational, spelled out on the reduced fraction. -/
def qFloor (q : ℚ) : Int := Int.fdiv q.num (q.den : Int)

/-- Round to the nearest integer, ties to even: the rounding printf applies
when shortening a decimal expansion, idealized to exact rationals. -/
def roundHalfEven (q : ℚ) : Int :=
  let f := qFloor q
  let r := q - mkRat f 1
  if r < mkRat 1 2 then f
  else if mkRat 1 2 < r then f + 1
  else if f % 2 = 0 then f else f + 1

/-- Model of snprintf with a %.*f conversion on an exact rational. -/
def formatFixed (q : ℚ) (prec : Nat) : List Byte :=
  let n := (roundHalfEven (qAbs q * mkRat ((10 : Int) ^ prec) 1)).toNat
  let ipart := n / 10 ^ prec
  let fpart := n % 10 ^ prec
  (if q < 0 then [45] else []) ++ natDigits ipart ++
    (if prec = 0 then [] else [46] ++ padZeros (natDigits fpart) prec)

/-- Floor of the base-10 logarithm of a positive rational (the decimal
exponent snprintf uses for a %e conversion). -/
def qLog10 (a : ℚ) : Int :=
  let dp := (natDigits a.num.toNat).length
  let dq := (natDigits a.den).length
  let d : Int := (dp : Int) - (dq : Int)
  if a < qPow10 d then d - 1 else d

/-- Model of snprintf with a %.*e conversion on an exact rational. -/
def formatSci (q : ℚ) (prec : Nat) : List Byte :=
  if q = 0 then
    [48] ++ (if prec = 0 then [] else [46] ++ List.replicate prec 48) ++ [101, 43, 48, 48]
  else
    let a := qAbs q
    let e := qLog10 a
    let m0 := roundHalfEven (a * qPow10 ((prec : Int) - e))
    let carry : Bool := m0 = 10 ^ (prec + 1)
    let m := if carry then (10 : Int) ^ prec else m0
    let e := if carry then e + 1 else e
    let ds := natDigits m.toNat
    (if q < 0 then [45] else []) ++ ds.take 1 ++
      (if prec = 0 then [] else [46] ++ padZeros (ds.drop 1) prec) ++
      [101] ++ (if e < 0 then [45] else [43]) ++ padZeros (natDigits e.natAbs) 2

/-- json_format.c:146 string_builder_append_number.  A failure that sets no
error code (the snprintf result not fitting the 32-byte buffer,
json_format.c:189-190) is reported with the sentinel code none, exactly as
the C leaves the error slot untouched; json_format_string later turns it
into the generic format error. -/
def string_builder_append_number (cfg : JsonFormatConfig) (n : JNum) :
    Except JsonError (List Byte) :=
  match n with
  | .nan => .error ⟨.invalidNumberNaN, 0, 0⟩
  | .inf => .error ⟨.invalidNumberInfinity, 0, 0⟩
  | .neginf => .error ⟨.invalidNumberInfinity, 0, 0⟩
  | .fin q =>
    let prec := cfg.precision.toNat
    let buf :=
      match cfg.number_format with
      | .decimal => formatFixed q prec
      | .scientific => formatSci q prec
      | .auto =>
        if qAbs q < mkRat 1 10000 ∨ mkRat 100000 1 < qAbs q then formatSci q prec
        else formatFixed q prec
    if 32 ≤ buf.length then .error ⟨.none, 0, 0⟩
    else .ok buf

/-- Per-character escaping of json_format.c:206
string_builder_append_escaped_string. -/
def escapeChar (c : Byte) : List Byte :=
  if c = 34 then [92, 34]
  else if c = 92 then [92, 92]
  else if c = 8 then [92, 98]
  else if c = 12 then [92, 102]
  else if c = 10 then [92, 110]
  else if c = 13 then [92, 114]
  else if c = 9 then [92, 116]
  else if c < 32 then
    -- snprintf \u%04x: c < 32 so the first two hex digits are zero
    [92, 117, 48, 48, (if c / 16 = 1 then 49 else 48),
      (let d := c % 16; if d < 10 then d + 48 else d - 10 + 97)]
  else [c]

/-- json_format.c:206 string_builder_append_escaped_string. -/
def string_builder_append_escaped_string (s : List Byte) : List Byte :=
  [34] ++ (s.map escapeChar).flatten ++ [34]

/-- Indentation produced by json_format.c:195 string_builder_append_indent. -/
def indentBytes (cfg : JsonFormatConfig) (lvl : Nat) : List Byte :=
  (List.replicate lvl (cfg.indent_string.getD [])).flatten

/-- Bytes of the configured spaces after a colon or comma. -/
def spacesBytes (n : Int) : List Byte := List.replicate n.toNat 32

/-- Model of strcmp-based not-greater test on byte strings (the list end is
the NUL terminator, smaller than every real byte). -/
def byteLexLe : List Byte → List Byte → Bool
  | [], _ => true
  | _ :: _, [] => false
  | a :: as, b :: bs => if a < b then true else if b < a then false else byteLexLe as bs

/-- Insert a pair into a key-sorted list (byte-wise strcmp order). -/
def insertPairSorted {α : Type} (p : List Byte × α) :
    List (List Byte × α) → List (List Byte × α)
  | [] => [p]
  | q :: qs => if byteLexLe p.1 q.1 then p :: q :: qs else q :: insertPairSorted p qs

/-- Model of the qsort call of json_format.c:397 with compare_keys: a sort of
the collected pairs by byte-wise key order.  qsort promises only a sorted
permutation; insertion sort realizes one. -/
def sortPairsByKey {α : Type} : List (List Byte × α) → List (List Byte × α)
  | [] => []
  | p :: ps => insertPairSorted p (sortPairsByKey ps)

mutual

/-- Size measure of a value, used to compute ample formatter fuel. -/
def vsize : JsonValue → Nat
  | .jnull => 1
  | .jbool _ => 1
  | .jnumber _ => 1
  | .jstring _ => 1
  | .jarray xs => 1 + lsize xs
  | .jobject ps => 1 + psize ps

/-- Total size of an item list. -/
def lsize : List JsonValue → Nat
  | [] => 0
  | x :: rest => vsize x + lsize rest

/-- Total size of a pair list (keys are flat and do not count). -/
def psize : List (List Byte × JsonValue) → Nat
  | [] => 0
  | (_, v) :: rest => vsize v + psize rest

end

theorem vsize_pos (v : JsonValue) : 0 < vsize v := by
  cases v <;> simp [vsize]

/-- Result of a fueled formatter routine: the produced bytes, the first
error, or fuel exhaustion (unreachable from json_format_string, which
supplies more fuel than any run can use). -/
inductive FResult where
  | ok : List Byte → FResult
  | fail : JsonError → FResult
  | nofuel : FResult
deriving DecidableEq, Repr

/-- Fuel-exhaustion test on a rendered pair. -/
def fresIsNofuel : FResult → Bool
  | .nofuel => true
  | _ => false

/-- First failure among rendered pairs, in list order. -/
def firstFail : List (List Byte × FResult) → Option JsonError
  | [] => Option.none
  | (_, .fail e) :: _ => some e
  | _ :: rest => firstFail rest

/-- Final layout of the rendered members of an object, every entry being a
successfully rendered pair (json_format.c:401-419): indentation, escaped
key, colon, configured spaces, value bytes, and a comma plus line end
between entries. -/
def joinPairs (cfg : JsonFormatConfig) (lvl : Nat) :
    List (List Byte × FResult) → List Byte
  | [] => []
  | (k, r) :: rest =>
    let bs := match r with | .ok b => b | _ => []
    indentBytes cfg lvl ++ string_builder_append_escaped_string k ++
      [58] ++ spacesBytes cfg.spaces_after_colon ++ bs ++
      (if rest.isEmpty then [] else [44] ++ cfg.line_end.getD []) ++
      joinPairs cfg lvl rest

mutual

/-- json_format.c:431 format_value (fueled; every public entry point supplies
more fuel than any run can use). -/
def format_value : Nat → JsonFormatConfig → Nat → JsonValue → FResult
  | 0, _, _, _ => .nofuel
  | fuel + 1, cfg, lvl, v =>
    match v with
    | .jnull => .ok [110, 117, 108, 108]
    | .jbool b => .ok (if b then [116, 114, 117, 101] else [102, 97, 108, 115, 101])
    | .jnumber n =>
      match string_builder_append_number cfg n with
      | .error e => .fail e
      | .ok bs => .ok bs
    | .jstring s => .ok (string_builder_append_escaped_string s)
    | .jarray xs => format_array fuel cfg lvl xs
    | .jobject ps => format_object fuel cfg lvl ps
termination_by structural fuel _cfg _lvl _v => fuel

/-- json_format.c:260 format_array.  valid_count counts the non-NaN items and
is only computed when the inline flag is set (so with the flag clear it
stays zero and the item loop never emits a comma, faithful to the C). -/
def format_array : Nat → JsonFormatConfig → Nat → List JsonValue → FResult
  | 0, _, _, _ => .nofuel
  | fuel + 1, cfg, lvl, xs =>
    let flag := cfg.inline_simple_arrays
    let validCount := if flag then (xs.filter (fun x => ¬ should_skip_value x)).length else 0
    let simple := flag && ¬ xs.any (fun x => ¬ should_skip_value x &&
      (match x with | .jarray _ => true | .jobject _ => true | _ => false))
    let le := cfg.line_end.getD []
    let inner := if simple then lvl else lvl + 1
    match format_array_items fuel cfg inner simple validCount 0 xs with
    | .nofuel => .nofuel
    | .fail e => .fail e
    | .ok body =>
      .ok ([91] ++ (if simple then [] else le) ++ body ++
        (if simple then [] else le ++ indentBytes cfg lvl) ++ [93])
termination_by structural fuel _cfg _lvl _xs => fuel

/-- Item loop of format_array (json_format.c:294-328). -/
def format_array_items : Nat → JsonFormatConfig → Nat → Bool → Nat → Nat →
    List JsonValue → FResult
  | 0, _, _, _, _, _, _ => .nofuel
  | fuel + 1, cfg, lvl, simple, validCount, fmtCount, xs =>
    match xs with
    | [] => .ok []
    | x :: rest =>
      if should_skip_value x then
        format_array_items fuel cfg lvl simple validCount fmtCount rest
      else
        let pre := if simple then [] else indentBytes cfg lvl
        match format_value fuel cfg lvl x with
        | .nofuel => .nofuel
        | .fail e => .fail e
        | .ok bs =>
          let fmtCount := fmtCount + 1
          let sep :=
            if fmtCount < validCount then
              [44] ++ (if simple then spacesBytes cfg.spaces_after_comma
                else cfg.line_end.getD [])
            else []
          match format_array_items fuel cfg lvl simple validCount fmtCount rest with
          | .nofuel => .nofuel
          | .fail e => .fail e
          | .ok tail => .ok (pre ++ bs ++ sep ++ tail)
termination_by structural fuel _cfg _lvl _simple _vc _fc _xs => fuel

/-- json_format.c:354 format_object.  The C collects the non-NaN pairs,
sorts the collected array when configured, and then renders the values in
that (possibly sorted) order, stopping at the first failure; here every
remaining pair is rendered in stored order first and the array is sorted
afterwards.  Rendering a pair is independent of its position, so the
produced bytes agree, and the reported error is still the first failure in
the (possibly sorted) processing order, read off by firstFail; the only
difference is that pairs the C would never reach are also rendered, which
has no observable effect.  An object whose pairs all hold NaN still emits
the line ends and indentation around an empty member block. -/
def format_object : Nat → JsonFormatConfig → Nat → List (List Byte × JsonValue) → FResult
  | 0, _, _, _ => .nofuel
  | fuel + 1, cfg, lvl, ps =>
    if ps.isEmpty then .ok [123, 125]
    else
      let le := cfg.line_end.getD []
      match format_pairs fuel cfg (lvl + 1) ps with
      | Option.none => .nofuel
      | some rendered =>
        let ordered := if cfg.sort_object_keys then sortPairsByKey rendered else rendered
        if ordered.any (fun p => fresIsNofuel p.2) then .nofuel
        else
          match firstFail ordered with
          | some e => .fail e
          | Option.none =>
            .ok ([123] ++ le ++ joinPairs cfg (lvl + 1) ordered ++ le ++
              indentBytes cfg lvl ++ [125])
termination_by structural fuel _cfg _lvl _ps => fuel

/-- Collection pass of format_object (json_format.c:383-393): walk the stored
pairs, skip the NaN-valued ones, and render each remaining value. -/
def format_pairs : Nat → JsonFormatConfig → Nat → List (List Byte × JsonValue) →
    Option (List (List Byte × FResult))
  | 0, _, _, _ => Option.none
  | _ + 1, _, _, [] => some []
  | fuel + 1, cfg, lvl, (k, v) :: rest =>
    if should_skip_value v then format_pairs fuel cfg lvl rest
    else
      match format_pairs fuel cfg lvl rest with
      | Option.none => Option.none
      | some tail => some ((k, format_value fuel cfg lvl v) :: tail)
termination_by structural fuel _cfg _lvl _ps => fuel

end

/-- Ample fuel for formatting a value: every call chain from format_value
descends by one per frame and per loop iteration, which triples the size
measure at worst (value frame, container frame, one iteration per member). -/
def formatFuel (v : JsonValue) : Nat := 3 * vsize v + 3

/-- json_format.c:462 json_format_string for a non-NULL value (a NULL config
pointer is the none case and selects the defaults).  When the line end is
nonempty the final line end is appended twice (json_format.c:501-512 append
it once inside the guarded check and once more after it).  The nofuel
outcome cannot occur (formatFuel exceeds any possible recursion) and is
mapped to the generic format error. -/
def json_format_string (value : JsonValue) (config : Option JsonFormatConfig) :
    Except JsonError (List Byte) :=
  let cfg := config.getD JSON_FORMAT_DEFAULT
  if cfg.indent_string = Option.none ∨ cfg.line_end = Option.none ∨
      cfg.spaces_after_colon < 0 ∨ cfg.spaces_after_comma < 0 ∨
      cfg.max_inline_length < 0 ∨ cfg.precision < 0 then
    .error ⟨.formatInvalidConfig, 0, 0⟩
  else
    match format_value (formatFuel value) cfg 0 value with
    | .nofuel => .error ⟨.formatError, 0, 0⟩
    | .fail e =>
      .error (if e.code = .none then ⟨.formatError, 0, 0⟩ else e)
    | .ok bs =>
      let le := cfg.line_end.getD []
      .ok (if le.isEmpty then bs else bs ++ le ++ le)

/-- File writing configuration (json.h:183 JsonFileWriteConfig). -/
structure JsonFileWriteConfig where
  buffer_size : Nat
  temp_suffix : List Byte
  sync_on_close : Bool

/-- Single-directory filesystem: an association of file names to contents. -/
structure FsState where
  files : List (List Byte × List Byte)
deriving DecidableEq, Repr

/-- Contents of a file, when it exists. -/
def fsLookup (fs : FsState) (name : List Byte) : Option (List Byte) :=
  (fs.files.find? (fun p => p.1 = name)).map (·.2)

/-- Existence check (the fopen r probe of json_file.c:264). -/
def fsExists (fs : FsState) (name : List Byte) : Bool :=
  (fsLookup fs name).isSome

/-- Delete a file (remove). -/
def fsRemove (fs : FsState) (name : List Byte) : FsState :=
  ⟨fs.files.filter (fun p => p.1 ≠ name)⟩

/-- Create or overwrite a file (fopen wb plus the written bytes). -/
def fsWrite (fs : FsState) (name : List Byte) (contents : List Byte) : FsState :=
  ⟨(name, contents) :: (fsRemove fs name).files⟩

/-- Failure injection for the fallible OS calls json_write_file_ex makes, in
program order: fopen of the temp file, the fwrite of the payload, the
fflush, the remove of an existing target, and the final rename. -/
structure FsEnv where
  open_temp_fails : Bool
  write_fails : Bool
  flush_fails : Bool
  remove_target_fails : Bool
  rename_fails : Bool

/-- json_file.c:32 json_write_stream restricted to its observable effect: the
bytes it writes are the compact formatting of the value; a formatting error
or a short write yields failure.  Used here for the write into the temp
file. -/
def json_write_stream_bytes (value : JsonValue) (env : FsEnv) :
    Option (List Byte) :=
  match json_format_string value (some JSON_FORMAT_COMPACT) with
  | .error _ => Option.none
  | .ok bytes => if env.write_fails then Option.none else some bytes

/-- json_file.c:204 json_write_file_ex for non-NULL value and filename.
Returns the C result (1 as true) and the filesystem afterwards.  The
buffer_size and setvbuf calls have no observable filesystem effect and are
dropped.  Stage order is that of the source: create the temp file, write
and flush into it, then remove any existing target, then rename the temp
onto the target; on any recorded failure the temp file is removed. -/
def json_write_file_ex (value : JsonValue) (filename : List Byte)
    (config : Option JsonFileWriteConfig) (env : FsEnv) (fs : FsState) :
    Bool × FsState :=
  let cfg := config.getD ⟨8192, strBytes ".tmp", true⟩
  let temp := filename ++ cfg.temp_suffix
  if env.open_temp_fails then (false, fs)
  else
    -- fopen(temp, "wb") truncates or creates the temp file
    let fs := fsWrite fs temp []
    let (success, fs) :=
      match json_write_stream_bytes value env with
      | Option.none => (false, fs)
      | some bytes => (true, fsWrite fs temp bytes)
    let success := if success ∧ cfg.sync_on_close ∧ env.flush_fails then false
      else success
    let (success, fs) :=
      if success then
        if fsExists fs filename then
          if env.remove_target_fails then (false, fs)
          else
            let fs := fsRemove fs filename
            if env.rename_fails then (false, fs)
            else
              (true, fsWrite (fsRemove fs temp) filename ((fsLookup fs temp).getD []))
        else
          -- remove(filename) fails, the fopen r probe shows no file: proceed
          if env.rename_fails then (false, fs)
          else
            (true, fsWrite (fsRemove fs temp) filename ((fsLookup fs temp).getD []))
      else (false, fs)
    if success then (true, fs) else (false, fsRemove fs temp)

/-- json.c:343 json_object_set at the JsonValue level (the C returns 0 when
the first argument is not an object; allocation is modeled as succeeding). -/
def json_object_set (obj : JsonValue) (key : List Byte) (v : JsonValue) :
    Option JsonValue :=
  match obj with
  | .jobject ps => some (.jobject (objectSetPairs ps key v))
  | _ => Option.none

/-- json.c:381 json_object_get on the pair list (linear scan, first match). -/
def lookupPairs : List (List Byte × JsonValue) → List Byte → Option JsonValue
  | [], _ => Option.none
  | (k', v) :: rest, k => if k' = k then some v else lookupPairs rest k

/-- json.c:381 json_object_get at the JsonValue level. -/
def json_object_get (obj : JsonValue) (key : List Byte) : Option JsonValue :=
  match obj with
  | .jobject ps => lookupPairs ps key
  | _ => Option.none

/-- Stored key enumeration of an object pair list. -/
def keysOf (ps : List (List Byte × JsonValue)) : List (List Byte) :=
  ps.map (·.1)

/-- Success test on a parse result. -/
def exceptOk : Except JsonError JsonValue → Bool
  | .ok _ => true
  | .error _ => false

/-- Arrays nested to depth n + 1 (n + 1 bracket pairs, innermost empty). -/
def nestedArrays : Nat → JsonValue
  | 0 => .jarray []
  | n + 1 => .jarray [nestedArrays n]

/-- Objects nested to depth n + 1 under key k, innermost empty. -/
def nestedObjects : Nat → JsonValue
  | 0 => .jobject []
  | n + 1 => .jobject [(strBytes "k", nestedObjects n)]

/-- Key-uniqueness of a stored pair list, as json_object_set maintains it:
no key occurs twice. -/
def keysNodupB : List (List Byte × JsonValue) → Bool
  | [] => true
  | (k, _) :: rest => (lookupPairs rest k).isNone && keysNodupB rest

mutual

/-- Every object anywhere in the tree has pairwise distinct keys. -/
def valueUnique : JsonValue → Bool
  | .jnull => true
  | .jbool _ => true
  | .jnumber _ => true
  | .jstring _ => true
  | .jarray xs => valueUniqueList xs
  | .jobject ps => keysNodupB ps && valueUniquePairs ps

/-- valueUnique on every item of a list. -/
def valueUniqueList : List JsonValue → Bool
  | [] => true
  | x :: rest => valueUnique x && valueUniqueList rest

/-- valueUnique on every value of a pair list. -/
def valueUniquePairs : List (List Byte × JsonValue) → Bool
  | [] => true
  | (_, v) :: rest => valueUnique v && valueUniquePairs rest

end

/-! ### Behaviour of json_object_set on the stored pair list -/

theorem objectScanReplace_eq_none (ps : List (List Byte × JsonValue))
    (k : List Byte) (v : JsonValue) (h : lookupPairs ps k = Option.none) :
    objectScanReplace ps k v = Option.none := by
  induction ps with
  | nil => rfl
  | cons p rest ih =>
    obtain ⟨k', v'⟩ := p
    simp only [lookupPairs] at h
    simp only [objectScanReplace]
    by_cases hk : k' = k
    · simp [hk] at h
    · simp only [if_neg hk] at h ⊢
      rw [ih h]
      rfl

theorem objectSetPairs_new (ps : List (List Byte × JsonValue)) (k : List Byte)
    (v : JsonValue) (h : lookupPairs ps k = Option.none) :
    objectSetPairs ps k v = (k, v) :: ps := by
  unfold objectSetPairs
  rw [objectScanReplace_eq_none ps k v h]

theorem objectScanReplace_eq_some (ps : List (List Byte × JsonValue))
    (k : List Byte) (v w : JsonValue) (h : lookupPairs ps k = some w) :
    ∃ qs, objectScanReplace ps k v = some qs ∧ keysOf qs = keysOf ps ∧
      lookupPairs qs k = some v ∧
      ∀ k', k' ≠ k → lookupPairs qs k' = lookupPairs ps k' := by
  induction ps with
  | nil => simp [lookupPairs] at h
  | cons p rest ih =>
    obtain ⟨k', v'⟩ := p
    by_cases hk : k' = k
    · refine ⟨(k', v) :: rest, ?_, ?_, ?_, ?_⟩
      · simp [objectScanReplace, hk]
      · simp [keysOf]
      · simp [lookupPairs, hk]
      · intro k'' hne
        simp [lookupPairs, hk, Ne.symm hne]
    · simp only [lookupPairs, if_neg hk] at h
      obtain ⟨qs, hq, hkeys, hself, hother⟩ := ih h
      refine ⟨(k', v') :: qs, ?_, ?_, ?_, ?_⟩
      · simp [objectScanReplace, hk, hq]
      · simp [keysOf] at hkeys ⊢; exact hkeys
      · simp [lookupPairs, hk, hself]
      · intro k'' hne
        simp only [lookupPairs]
        by_cases h2 : k' = k''
        · simp [h2]
        · simp [if_neg h2, hother k'' hne]

theorem objectSetPairs_existing (ps : List (List Byte × JsonValue))
    (k : List Byte) (v w : JsonValue) (h : lookupPairs ps k = some w) :
    keysOf (objectSetPairs ps k v) = keysOf ps ∧
      lookupPairs (objectSetPairs ps k v) k = some v ∧
      ∀ k', k' ≠ k →
        lookupPairs (objectSetPairs ps k v) k' = lookupPairs ps k' := by
  obtain ⟨qs, hq, hkeys, hself, hother⟩ := objectScanReplace_eq_some ps k v w h
  unfold objectSetPairs
  rw [hq]
  exact ⟨hkeys, hself, hother⟩

/-- Decidable equality of results, for checking concrete runs. -/
instance {e a : Type} [DecidableEq e] [DecidableEq a] : DecidableEq (Except e a) := fun x y =>
  match x, y with
  | .ok u, .ok v =>
    if h : u = v then .isTrue (by rw [h]) else .isFalse (fun hh => h (by cases hh; rfl))
  | .error u, .error v =>
    if h : u = v then .isTrue (by rw [h]) else .isFalse (fun hh => h (by cases hh; rfl))
  | .ok _, .error _ => .isFalse (fun hh => nomatch hh)
  | .error _, .ok _ => .isFalse (fun hh => nomatch hh)

theorem objectScanReplace_some_lookup (ps : List (List Byte × JsonValue))
    (k : List Byte) (v : JsonValue) (qs : List (List Byte × JsonValue))
    (h : objectScanReplace ps k v = some qs) :
    ∃ w, lookupPairs ps k = some w := by
  cases hl : lookupPairs ps k with
  | some w => exact ⟨w, rfl⟩
  | none =>
    rw [objectScanReplace_eq_none ps k v hl] at h
    cases h

theorem scanReplace_keysNodupB (k : List Byte) (v : JsonValue) :
    ∀ ps qs, objectScanReplace ps k v = some qs → keysNodupB ps = true →
      keysNodupB qs = true := by
  intro ps
  induction ps with
  | nil => intro qs h; simp [objectScanReplace] at h
  | cons p rest ih =>
    intro qs h hnd
    obtain ⟨k', v'⟩ := p
    simp only [objectScanReplace] at h
    by_cases hk : k' = k
    · rw [if_pos hk] at h
      cases h
      simpa [keysNodupB] using hnd
    · rw [if_neg hk] at h
      cases hq : objectScanReplace rest k v with
      | none => rw [hq] at h; exact Option.noConfusion h
      | some qs' =>
        rw [hq] at h
        rw [Option.map] at h
        cases h
        simp only [keysNodupB, Bool.and_eq_true] at hnd ⊢
        obtain ⟨w, hw⟩ := objectScanReplace_some_lookup rest k v qs' hq
        obtain ⟨qs2, hq2, hkeys, hself, hother⟩ :=
          objectScanReplace_eq_some rest k v w hw
        rw [hq] at hq2
        cases hq2
        refine ⟨?_, ih qs' hq hnd.2⟩
        rw [hother k' hk]
        exact hnd.1

theorem scanReplace_valueUniquePairs (k : List Byte) (v : JsonValue)
    (hv : valueUnique v = true) :
    ∀ ps qs, objectScanReplace ps k v = some qs → valueUniquePairs ps = true →
      valueUniquePairs qs = true := by
  intro ps
  induction ps with
  | nil => intro qs h; simp [objectScanReplace] at h
  | cons p rest ih =>
    intro qs h hu
    obtain ⟨k', v'⟩ := p
    simp only [objectScanReplace] at h
    by_cases hk : k' = k
    · rw [if_pos hk] at h
      cases h
      simp only [valueUniquePairs, Bool.and_eq_true] at hu ⊢
      exact ⟨hv, hu.2⟩
    · rw [if_neg hk] at h
      cases hq : objectScanReplace rest k v with
      | none => rw [hq] at h; exact Option.noConfusion h
      | some qs' =>
        rw [hq] at h
        rw [Option.map] at h
        cases h
        simp only [valueUniquePairs, Bool.and_eq_true] at hu ⊢
        exact ⟨hu.1, ih qs' hq hu.2⟩

theorem objectSetPairs_keysNodupB (ps : List (List Byte × JsonValue))
    (k : List Byte) (v : JsonValue) (h : keysNodupB ps = true) :
    keysNodupB (objectSetPairs ps k v) = true := by
  unfold objectSetPairs
  cases hq : objectScanReplace ps k v with
  | none =>
    have hlk : lookupPairs ps k = Option.none := by
      cases hl : lookupPairs ps k with
      | none => rfl
      | some w =>
        obtain ⟨qs, hq2, _, _, _⟩ := objectScanReplace_eq_some ps k v w hl
        rw [hq] at hq2; cases hq2
    simp [keysNodupB, hlk, h]
  | some qs => exact scanReplace_keysNodupB k v ps qs hq h

theorem objectSetPairs_valueUniquePairs (ps : List (List Byte × JsonValue))
    (k : List Byte) (v : JsonValue) (h : valueUniquePairs ps = true)
    (hv : valueUnique v = true) :
    valueUniquePairs (objectSetPairs ps k v) = true := by
  unfold objectSetPairs
  cases hq : objectScanReplace ps k v with
  | none => simp [valueUniquePairs, h, hv]
  | some qs => exact scanReplace_valueUniquePairs k v hv ps qs hq h

theorem valueUniqueList_append (a b : List JsonValue) :
    valueUniqueList (a ++ b) = (valueUniqueList a && valueUniqueList b) := by
  induction a with
  | nil => simp [valueUniqueList]
  | cons x xs ih => simp [valueUniqueList, ih, Bool.and_assoc]

theorem parse_number_ok_unique (i : List Byte) (l c : Nat) (v : JsonValue)
    (rest : List Byte) (c' : Nat) (h : parse_number i l c = .ok (v, rest, c')) :
    valueUnique v = true := by
  rw [parse_number] at h
  split at h
  · cases h
  · cases h; rfl

set_option maxHeartbeats 4000000 in
/-- Every value built by the recursive-descent parser has pairwise distinct
keys in every object, at any fuel: arrays collect recursively unique
elements, and objects grow only through json_object_set. -/
theorem parse_all_unique : ∀ fuel,
    (∀ i l c n v i' l' c' n',
      parse_value fuel i l c n = .ok v i' l' c' n' → valueUnique v = true) ∧
    (∀ i l c n v i' l' c' n',
      parse_array fuel i l c n = .ok v i' l' c' n' → valueUnique v = true) ∧
    (∀ i l c n acc v i' l' c' n', valueUniqueList acc = true →
      parse_array_items fuel i l c n acc = .ok v i' l' c' n' → valueUnique v = true) ∧
    (∀ i l c n v i' l' c' n',
      parse_object fuel i l c n = .ok v i' l' c' n' → valueUnique v = true) ∧
    (∀ i l c n acc v i' l' c' n', keysNodupB acc = true → valueUniquePairs acc = true →
      parse_object_items fuel i l c n acc = .ok v i' l' c' n' → valueUnique v = true) := by
  intro fuel
  induction fuel with
  | zero =>
    refine ⟨?_, ?_, ?_, ?_, ?_⟩ <;> intros <;>
      first
      | (rename_i h; rw [parse_value] at h; cases h)
      | (rename_i h; rw [parse_array] at h; cases h)
      | (rename_i h; rw [parse_array_items] at h; cases h)
      | (rename_i h; rw [parse_object] at h; cases h)
      | (rename_i h; rw [parse_object_items] at h; cases h)
  | succ f ih =>
    obtain ⟨ihv, iha, ihai, iho, ihoi⟩ := ih
    refine ⟨?_, ?_, ?_, ?_, ?_⟩
    · -- parse_value
      intro i l c n v i' l' c' n' h
      rw [parse_value] at h
      split at h
      simp only [] at h
      repeat' split at h
      all_goals try (cases h)
      all_goals try rfl
      all_goals try (exact iha _ _ _ _ _ _ _ _ _ h)
      all_goals try (exact iho _ _ _ _ _ _ _ _ _ h)
      all_goals exact parse_number_ok_unique _ _ _ _ _ _ (by assumption)
    · -- parse_array
      intro i l c n v i' l' c' n' h
      rw [parse_array] at h
      split at h
      · cases h
      · split at h
        · cases h
        · split at h
          split at h
          · cases h; rfl
          · exact ihai _ _ _ _ [] _ _ _ _ _ rfl h
    · -- parse_array_items
      intro i l c n acc v i' l' c' n' hacc h
      rw [parse_array_items] at h
      split at h
      · cases h
      · cases h
      · rename_i v1 i1 l1 c1 n1 hpv
        have hv1 : valueUnique v1 = true := ihv _ _ _ _ _ _ _ _ _ hpv
        have hacc1 : valueUniqueList (acc ++ [v1]) = true := by
          simp [valueUniqueList_append, valueUniqueList, hacc, hv1]
        repeat' split at h
        all_goals try (cases h)
        all_goals try (simpa [valueUnique] using hacc1)
        all_goals exact ihai _ _ _ _ _ _ _ _ _ _ hacc1 h
    · -- parse_object
      intro i l c n v i' l' c' n' h
      rw [parse_object] at h
      split at h
      · cases h
      · split at h
        · cases h
        · split at h
          split at h
          · cases h; rfl
          · exact ihoi _ _ _ _ [] _ _ _ _ _ rfl rfl h
    · -- parse_object_items
      intro i l c n acc v i' l' c' n' hnd hup h
      rw [parse_object_items] at h
      split at h
      split at h
      · cases h
      · rename_i key input1 col1 hps
        split at h
        split at h
        · cases h
        · split at h
          split at h
          · cases h
          · cases h
          · rename_i v1 input4 line4 col4 nest4 hpv
            have hv1 : valueUnique v1 = true := ihv _ _ _ _ _ _ _ _ _ hpv
            have hnd1 := objectSetPairs_keysNodupB acc key v1 hnd
            have hup1 := objectSetPairs_valueUniquePairs acc key v1 hup hv1
            repeat' split at h
            all_goals try (cases h)
            all_goals try (simp [valueUnique, hnd1, hup1])
            all_goals exact ihoi _ _ _ _ _ _ _ _ _ _ hnd1 hup1 h

/-! ### Validator simulation helpers (claim C1) -/

theorem skipWhitespace_input (i : List Byte) (l c l2 c2 : Nat) :
    (skipWhitespace i l2 c2).1 = (skipWhitespace i l c).1 := by
  induction i generalizing l c l2 c2 with
  | nil => rfl
  | cons x r ih =>
    simp only [skipWhitespace]
    split_ifs <;> first | apply ih | rfl

theorem skipWhitespace_peek (i : List Byte) (l c : Nat) :
    isSpaceByte (peek (skipWhitespace i l c).1) = false := by
  induction i generalizing l c with
  | nil => rfl
  | cons x r ih =>
    simp only [skipWhitespace]
    split_ifs with h1 h2
    · apply ih
    · apply ih
    · simpa [peek] using h1

theorem skipWhitespace_nospace (i : List Byte) (l c : Nat)
    (h : isSpaceByte (peek i) = false) : skipWhitespace i l c = (i, l, c) := by
  cases i with
  | nil => rfl
  | cons x r => simp only [peek, List.headD] at h; simp [skipWhitespace, h]

theorem hex_char_isHex (b : Byte) (h : ¬ hex_char_to_int b = -1) :
    isHexByte b = true := by
  rw [hex_char_to_int] at h
  simp only [isHexByte, Bool.or_eq_true, Bool.and_eq_true, decide_eq_true_eq]
  split_ifs at h with h1 h2 h3
  · exact Or.inl (Or.inl h1)
  · exact Or.inl (Or.inr h2)
  · exact Or.inr h3
  · exact absurd rfl h

theorem isHexByte_facts (b : Byte) (h : isHexByte b = true) :
    ¬ b = 34 ∧ ¬ b = 92 ∧ ¬ b < 32 ∧ ¬ b = 0 := by
  simp only [isHexByte, Bool.or_eq_true, Bool.and_eq_true, decide_eq_true_eq] at h
  delta Byte at *
  omega

theorem parse_unicode_escape_shape (a : List Byte) (l c cp : Nat)
    (h : parse_unicode_escape a l c = .ok cp) :
    ∃ x1 x2 x3 x4 r, a = x1 :: x2 :: x3 :: x4 :: r ∧
      isHexByte x1 = true ∧ isHexByte x2 = true ∧
      isHexByte x3 = true ∧ isHexByte x4 = true := by
  rw [parse_unicode_escape] at h
  try simp only [] at h
  split_ifs at h with g1 g2 g3 g4
  cases h
  rcases a with _ | ⟨x1, a⟩
  · exact absurd (hex_char_isHex _ g1) (by decide)
  rcases a with _ | ⟨x2, a⟩
  · exact absurd (hex_char_isHex _ g2) (show ¬ isHexByte 0 = true by decide)
  rcases a with _ | ⟨x3, a⟩
  · exact absurd (hex_char_isHex _ g3) (show ¬ isHexByte 0 = true by decide)
  rcases a with _ | ⟨x4, a⟩
  · exact absurd (hex_char_isHex _ g4) (show ¬ isHexByte 0 = true by decide)
  exact ⟨x1, x2, x3, x4, a, rfl, hex_char_isHex _ g1, hex_char_isHex _ g2,
    hex_char_isHex _ g3, hex_char_isHex _ g4⟩

theorem stringSecondPass_lit (f : Nat) (b : Byte) (r : List Byte) (l c : Nat)
    (acc : List Byte) (h34 : ¬ b = 34) (h92 : ¬ b = 92) :
    stringSecondPass (f + 1) (b :: r) l c acc =
      stringSecondPass f r l (c + 1) (acc ++ [b]) := by
  simp [stringSecondPass, h34, h92]

theorem numberSpan_indep (i : List Byte) (l c l2 c2 : Nat) (tok rest : List Byte)
    (col' : Nat) (h : numberSpan i l c = .ok (tok, rest, col')) :
    ∃ col2, numberSpan i l2 c2 = .ok (tok, rest, col2) := by
  rw [numberSpan] at h ⊢
  try simp only [] at h ⊢
  by_cases g1 : peek i = 45 ∧
      ¬ isDigitByte (peek (i.drop (if peek i = 45 then 1 else 0)))
  · rw [if_pos g1] at h; cases h
  · rw [if_neg g1] at h ⊢
    by_cases g2 : peek (i.drop (if peek i = 45 then 1 else 0)) = 48 ∧
        isDigitByte (peek ((i.drop (if peek i = 45 then 1 else 0)).drop 1))
    · rw [if_pos g2] at h; cases h
    · rw [if_neg g2] at h ⊢
      by_cases g3 : ¬ isDigitByte (peek (i.drop (if peek i = 45 then 1 else 0)))
      · rw [if_pos g3] at h; cases h
      · rw [if_neg g3] at h ⊢
        rcases hds : digitSpan (i.drop (if peek i = 45 then 1 else 0)) with ⟨ds, i2⟩
        simp only [hds] at h ⊢
        by_cases g4 : peek i2 = 46 ∧ ¬ isDigitByte (peek (i2.drop 1))
        · rw [if_pos g4] at h; cases h
        · rw [if_neg g4] at h ⊢
          rcases hfs : (if peek i2 = 46 then digitSpan (i2.drop 1) else ([], i2))
            with ⟨fs, i3⟩
          simp only [hfs] at h ⊢
          by_cases g5 : peek i3 = 101 ∨ peek i3 = 69
          · rw [if_pos g5] at h ⊢
            by_cases g6 : ¬ isDigitByte (peek (i3.drop
                (1 + if peek (i3.drop 1) = 43 ∨ peek (i3.drop 1) = 45 then 1 else 0)))
            · rw [if_pos g6] at h; cases h
            · rw [if_neg g6] at h ⊢
              rcases hes : digitSpan (i3.drop
                  (1 + if peek (i3.drop 1) = 43 ∨ peek (i3.drop 1) = 45 then 1 else 0))
                with ⟨es, i5⟩
              simp only [hes] at h ⊢
              cases h
              exact ⟨_, rfl⟩
          · rw [if_neg g5] at h ⊢
            cases h
            exact ⟨_, rfl⟩

theorem parse_number_validate (i : List Byte) (l c l2 c2 : Nat) (v : JsonValue)
    (rest : List Byte) (col' : Nat)
    (h : parse_number i l c = .ok (v, rest, col')) :
    ∃ col2, validate_number i l2 c2 = .ok (rest, col2) := by
  rw [parse_number] at h
  split at h
  · cases h
  · rename_i heq
    cases h
    obtain ⟨col2, h2⟩ := numberSpan_indep i l c l2 c2 _ _ _ heq
    exact ⟨col2, by simp [validate_number, h2]⟩

theorem drop_one_cons {α : Type} (a : α) (l : List α) : List.drop 1 (a :: l) = l := rfl

theorem drop_two_cons {α : Type} (a b : α) (l : List α) :
    List.drop 2 (a :: b :: l) = l := rfl

theorem drop_four_cons {α : Type} (a b c d : α) (l : List α) :
    List.drop 4 (a :: b :: c :: d :: l) = l := rfl

theorem drop_eleven_cons {α : Type} (a1 a2 a3 a4 a5 a6 a7 a8 a9 a10 a11 : α)
    (l : List α) :
    List.drop 11 (a1 :: a2 :: a3 :: a4 :: a5 :: a6 :: a7 :: a8 :: a9 :: a10 :: a11 :: l) =
      l := rfl

theorem stringFirstPass_escape (e0 : Byte) (r1 : List Byte) (h117 : ¬ e0 = 117)
    (hfp : stringFirstPass (92 :: e0 :: r1) = Option.none) :
    stringFirstPass r1 = Option.none := by
  rw [stringFirstPass.eq_def] at hfp
  simp at hfp
  rw [if_neg h117] at hfp
  exact hfp

theorem stringFirstPass_u (x1 x2 x3 x4 : Byte) (t : List Byte)
    (hfp : stringFirstPass (92 :: 117 :: x1 :: x2 :: x3 :: x4 :: t) = Option.none) :
    stringFirstPass t = Option.none := by
  rw [stringFirstPass.eq_def] at hfp
  simp at hfp
  exact hfp

set_option maxRecDepth 2000 in
/-- Parser acceptance of a string body implies validator acceptance with the
same remaining input: the validator checks exactly the four hex digits whose
hex-ness the parser established, and the parser re-reads the four digits of
a plain unicode escape as literal characters, ending at the same closing
quote. -/
theorem secondPass_sim : ∀ n b f l c acc bs rest col' f2 l2 c2,
    b.length ≤ n → stringFirstPass b = Option.none →
    stringSecondPass f b l c acc = .ok (bs, rest, col') →
    b.length < f2 →
    ∃ col2, validateStringLoop f2 b l2 c2 = .ok (rest, col2) := by
  intro n
  induction n with
  | zero =>
    intro b f l c acc bs rest col' f2 l2 c2 hn hfp h hf2
    have hb : b = [] := List.length_eq_zero.mp (Nat.le_zero.mp hn)
    subst hb
    cases f with
    | zero => simp [stringSecondPass] at h
    | succ f1 => simp [stringSecondPass] at h
  | succ n ih =>
    intro b f l c acc bs rest col' f2 l2 c2 hn hfp h hf2
    rcases b with _ | ⟨c0, r⟩
    · cases f with
      | zero => simp [stringSecondPass] at h
      | succ f1 => simp [stringSecondPass] at h
    rcases f with _ | f1
    · simp [stringSecondPass] at h
    rcases f2 with _ | f21
    · exact absurd hf2 (Nat.not_lt_zero _)
    rw [stringSecondPass] at h
    by_cases h34 : c0 = 34
    · subst h34
      rw [if_pos rfl] at h
      cases h
      exact ⟨c2 + 1, by simp [validateStringLoop]⟩
    · rw [if_neg h34] at h
      by_cases h92 : c0 = 92
      · subst h92
        rw [if_pos rfl] at h
        rcases r with _ | ⟨e0, r1⟩
        · exact absurd hfp (by decide)
        split at h
        · cases h
        · rename_i bs0 consumed colE hpes
          rw [process_escape_sequence] at hpes
          try simp only [] at hpes
          have hpk : peek (e0 :: r1) = e0 := rfl
          rw [hpk] at hpes
          by_cases e1 : e0 = 34
          · subst e1
            rw [if_pos rfl] at hpes
            cases hpes
            replace hfp := stringFirstPass_escape _ _ (by decide) hfp
            rw [drop_one_cons] at h
            have hn' : r1.length ≤ n := by simp at hn; omega
            obtain ⟨col2, hv⟩ := ih r1 f1 l _ _ bs rest col' f21 l2 (c2 + 2)
              hn' hfp h (by simp at hf2; omega)
            exact ⟨col2, by simp [validateStringLoop, peek, hv]⟩
          · rw [if_neg e1] at hpes
            by_cases e2 : e0 = 92
            · subst e2
              rw [if_pos rfl] at hpes
              cases hpes
              replace hfp := stringFirstPass_escape _ _ (by decide) hfp
              rw [drop_one_cons] at h
              have hn' : r1.length ≤ n := by simp at hn; omega
              obtain ⟨col2, hv⟩ := ih r1 f1 l _ _ bs rest col' f21 l2 (c2 + 2)
                hn' hfp h (by simp at hf2; omega)
              exact ⟨col2, by simp [validateStringLoop, peek, hv]⟩
            · rw [if_neg e2] at hpes
              by_cases e3 : e0 = 47
              · subst e3
                rw [if_pos rfl] at hpes
                cases hpes
                replace hfp := stringFirstPass_escape _ _ (by decide) hfp
                rw [drop_one_cons] at h
                have hn' : r1.length ≤ n := by simp at hn; omega
                obtain ⟨col2, hv⟩ := ih r1 f1 l _ _ bs rest col' f21 l2 (c2 + 2)
                  hn' hfp h (by simp at hf2; omega)
                exact ⟨col2, by simp [validateStringLoop, peek, hv]⟩
              · rw [if_neg e3] at hpes
                by_cases e4 : e0 = 98
                · subst e4
                  rw [if_pos rfl] at hpes
                  cases hpes
                  replace hfp := stringFirstPass_escape _ _ (by decide) hfp
                  rw [drop_one_cons] at h
                  have hn' : r1.length ≤ n := by simp at hn; omega
                  obtain ⟨col2, hv⟩ := ih r1 f1 l _ _ bs rest col' f21 l2 (c2 + 2)
                    hn' hfp h (by simp at hf2; omega)
                  exact ⟨col2, by simp [validateStringLoop, peek, hv]⟩
                · rw [if_neg e4] at hpes
                  by_cases e5 : e0 = 102
                  · subst e5
                    rw [if_pos rfl] at hpes
                    cases hpes
                    replace hfp := stringFirstPass_escape _ _ (by decide) hfp
                    rw [drop_one_cons] at h
                    have hn' : r1.length ≤ n := by simp at hn; omega
                    obtain ⟨col2, hv⟩ := ih r1 f1 l _ _ bs rest col' f21 l2 (c2 + 2)
                      hn' hfp h (by simp at hf2; omega)
                    exact ⟨col2, by simp [validateStringLoop, peek, hv]⟩
                  · rw [if_neg e5] at hpes
                    by_cases e6 : e0 = 110
                    · subst e6
                      rw [if_pos rfl] at hpes
                      cases hpes
                      replace hfp := stringFirstPass_escape _ _ (by decide) hfp
                      rw [drop_one_cons] at h
                      have hn' : r1.length ≤ n := by simp at hn; omega
                      obtain ⟨col2, hv⟩ := ih r1 f1 l _ _ bs rest col' f21 l2 (c2 + 2)
                        hn' hfp h (by simp at hf2; omega)
                      exact ⟨col2, by simp [validateStringLoop, peek, hv]⟩
                    · rw [if_neg e6] at hpes
                      by_cases e7 : e0 = 114
                      · subst e7
                        rw [if_pos rfl] at hpes
                        cases hpes
                        replace hfp := stringFirstPass_escape _ _ (by decide) hfp
                        rw [drop_one_cons] at h
                        have hn' : r1.length ≤ n := by simp at hn; omega
                        obtain ⟨col2, hv⟩ := ih r1 f1 l _ _ bs rest col' f21 l2 (c2 + 2)
                          hn' hfp h (by simp at hf2; omega)
                        exact ⟨col2, by simp [validateStringLoop, peek, hv]⟩
                      · rw [if_neg e7] at hpes
                        by_cases e8 : e0 = 116
                        · subst e8
                          rw [if_pos rfl] at hpes
                          cases hpes
                          replace hfp := stringFirstPass_escape _ _ (by decide) hfp
                          rw [drop_one_cons] at h
                          have hn' : r1.length ≤ n := by simp at hn; omega
                          obtain ⟨col2, hv⟩ := ih r1 f1 l _ _ bs rest col' f21 l2 (c2 + 2)
                            hn' hfp h (by simp at hf2; omega)
                          exact ⟨col2, by simp [validateStringLoop, peek, hv]⟩
                        · rw [if_neg e8] at hpes
                          by_cases e9 : e0 = 117
                          · subst e9
                            rw [if_pos rfl] at hpes
                            try simp only [] at hpes
                            rw [drop_one_cons] at hpes
                            split at hpes
                            · cases hpes
                            · rename_i cp hpu
                              obtain ⟨x1, x2, x3, x4, t, rfl, k1, k2, k3, k4⟩ :=
                                parse_unicode_escape_shape _ _ _ _ hpu
                              by_cases hs : 0xD800 ≤ cp ∧ cp ≤ 0xDBFF
                              · rw [if_pos hs] at hpes
                                try simp only [] at hpes
                                rw [drop_four_cons] at hpes
                                by_cases hnx : peek t = 92 ∧ peek (t.drop 1) = 117
                                · rw [if_pos hnx] at hpes
                                  rcases t with _ | ⟨w0, t1⟩
                                  · exact absurd hnx.1 (by decide)
                                  obtain rfl : w0 = 92 := by simpa [peek] using hnx.1
                                  rcases t1 with _ | ⟨w1, t2⟩
                                  · exact absurd hnx.2 (by decide)
                                  obtain rfl : w1 = 117 := by simpa [peek] using hnx.2
                                  rw [drop_two_cons] at hpes
                                  split at hpes
                                  · cases hpes
                                  · rename_i low hpu2
                                    obtain ⟨g1, g2, g3, g4, rr, rfl, m1, m2, m3, m4⟩ :=
                                      parse_unicode_escape_shape _ _ _ _ hpu2
                                    by_cases hlow : low < 0xDC00 ∨ 0xDFFF < low
                                    · rw [if_pos hlow] at hpes; cases hpes
                                    · rw [if_neg hlow] at hpes
                                      try simp only [] at hpes
                                      split at hpes
                                      · cases hpes
                                      · rename_i u0 us hut
                                        rw [Except.ok.injEq, Prod.mk.injEq,
                                          Prod.mk.injEq] at hpes
                                        obtain ⟨rfl, rfl, rfl⟩ := hpes
                                        rw [drop_eleven_cons] at h
                                        replace hfp := stringFirstPass_u _ _ _ _ _ (stringFirstPass_u _ _ _ _ _ hfp)
                                        rcases f21 with _ | f22
                                        · simp at hf2
                                        obtain ⟨col2, hv⟩ := ih rr f1 l _ _ bs rest col'
                                          f22 l2 (c2 + 6 + 6) (by simp at hn; omega) hfp h
                                          (by simp at hf2; omega)
                                        refine ⟨col2, ?_⟩
                                        simp [validateStringLoop, peek, k1, k2, k3, k4,
                                          m1, m2, m3, m4, hv]
                                · rw [if_neg hnx] at hpes; cases hpes
                              · rw [if_neg hs] at hpes
                                by_cases hl2 : 0xDC00 ≤ cp ∧ cp ≤ 0xDFFF
                                · rw [if_pos hl2] at hpes; cases hpes
                                · rw [if_neg hl2] at hpes
                                  split at hpes
                                  · cases hpes
                                  · rename_i u0 us hut
                                    cases hpes
                                    rw [drop_one_cons] at h
                                    obtain ⟨k1a, k1b, _, _⟩ := isHexByte_facts _ k1
                                    obtain ⟨k2a, k2b, _, _⟩ := isHexByte_facts _ k2
                                    obtain ⟨k3a, k3b, _, _⟩ := isHexByte_facts _ k3
                                    obtain ⟨k4a, k4b, _, _⟩ := isHexByte_facts _ k4
                                    rcases f1 with _ | fa
                                    · simp [stringSecondPass] at h
                                    rw [stringSecondPass_lit _ _ _ _ _ _ k1a k1b] at h
                                    rcases fa with _ | fb
                                    · simp [stringSecondPass] at h
                                    rw [stringSecondPass_lit _ _ _ _ _ _ k2a k2b] at h
                                    rcases fb with _ | fc
                                    · simp [stringSecondPass] at h
                                    rw [stringSecondPass_lit _ _ _ _ _ _ k3a k3b] at h
                                    rcases fc with _ | fd
                                    · simp [stringSecondPass] at h
                                    rw [stringSecondPass_lit _ _ _ _ _ _ k4a k4b] at h
                                    replace hfp := stringFirstPass_u _ _ _ _ _ hfp
                                    obtain ⟨col2, hv⟩ := ih t fd l _ _ bs rest col'
                                      f21 l2 (c2 + 6) (by simp at hn; omega) hfp h
                                      (by simp at hf2; omega)
                                    refine ⟨col2, ?_⟩
                                    simp [validateStringLoop, peek, k1, k2, k3, k4, hv]
                          · rw [if_neg e9] at hpes
                            cases hpes
      · rw [if_neg h92] at h
        rw [stringFirstPass.eq_def] at hfp
        simp only [] at hfp
        rw [if_neg h34, if_neg h92] at hfp
        by_cases hlt : c0 < 32
        · rw [if_pos hlt] at hfp; cases hfp
        · rw [if_neg hlt] at hfp
          have hn' : r.length ≤ n := by simp at hn; omega
          obtain ⟨col2, hv⟩ := ih r f1 l _ _ bs rest col' f21 l2 (c2 + 1)
            hn' hfp h (by simp at hf2; omega)
          refine ⟨col2, ?_⟩
          simp only [validateStringLoop]
          rw [if_neg h34, if_neg hlt, if_neg h92]
          exact hv

/-- parse_string acceptance implies validate_string acceptance with the same
remaining input. -/
theorem parse_string_sim (i : List Byte) (l c l2 c2 : Nat) (bs rest : List Byte)
    (col' : Nat) (h : parse_string i l c = .ok (bs, rest, col')) :
    ∃ col2, validate_string i l2 c2 = .ok (rest, col2) := by
  rw [parse_string] at h
  by_cases hq : peek i ≠ 34
  · rw [if_pos hq] at h; cases h
  · rw [if_neg hq] at h
    try simp only [] at h
    split at h
    · cases h
    · rename_i hfp
      obtain ⟨col2, hv⟩ := secondPass_sim (i.drop 1).length (i.drop 1)
        ((i.drop 1).length + 1) l (c + 1) [] bs rest col'
        ((i.drop 1).length + 1) l2 (c2 + 1) le_rfl hfp h (Nat.lt_succ_self _)
      refine ⟨col2, ?_⟩
      rw [validate_string]
      rw [if_neg hq]
      exact hv

set_option maxHeartbeats 4000000 in
/-- Every input the recursive-descent parser accepts, the validator accepts
with the same remaining input, at the same fuel: the validator's nesting
counter stays at or below the parser's (the parser never decrements on
object success exits), so the nesting check can only be laxer. -/
theorem validate_refines_parse : ∀ fuel,
    (∀ i l c pn v i' l' c' pn' vl vc vn, vn ≤ pn →
      parse_value fuel i l c pn = .ok v i' l' c' pn' →
      ∃ l2 c2 vn', validate_value fuel i vl vc vn = .ok () i' l2 c2 vn' ∧ vn' ≤ pn') ∧
    (∀ i l c pn v i' l' c' pn' vl vc vn, vn ≤ pn →
      parse_array fuel i l c pn = .ok v i' l' c' pn' →
      ∃ l2 c2 vn', validate_array fuel i vl vc vn = .ok () i' l2 c2 vn' ∧ vn' ≤ pn') ∧
    (∀ i l c pn acc v i' l' c' pn' vl vc vn, vn ≤ pn →
      parse_array_items fuel i l c pn acc = .ok v i' l' c' pn' →
      ∃ l2 c2 vn', validate_array_items fuel i vl vc vn = .ok () i' l2 c2 vn' ∧
        vn' ≤ pn') ∧
    (∀ i l c pn v i' l' c' pn' vl vc vn, vn ≤ pn →
      parse_object fuel i l c pn = .ok v i' l' c' pn' →
      ∃ l2 c2 vn', validate_object fuel i vl vc vn = .ok () i' l2 c2 vn' ∧ vn' ≤ pn') ∧
    (∀ i l c pn acc v i' l' c' pn' vl vc vn, vn ≤ pn →
      isSpaceByte (peek i) = false →
      parse_object_items fuel i l c pn acc = .ok v i' l' c' pn' →
      ∃ l2 c2 vn', validate_object_items fuel i vl vc vn = .ok () i' l2 c2 vn' ∧
        vn' ≤ pn') := by
  intro fuel
  induction fuel with
  | zero =>
    refine ⟨?_, ?_, ?_, ?_, ?_⟩ <;> intros <;>
      first
      | (rename_i h; rw [parse_value] at h; cases h)
      | (rename_i h; rw [parse_array] at h; cases h)
      | (rename_i h; rw [parse_array_items] at h; cases h)
      | (rename_i h; rw [parse_object] at h; cases h)
      | (rename_i h; rw [parse_object_items] at h; cases h)
  | succ f ih =>
    obtain ⟨ihv, iha, ihai, iho, ihoi⟩ := ih
    refine ⟨?_, ?_, ?_, ?_, ?_⟩
    · -- parse_value
      intro i l c pn v i' l' c' pn' vl vc vn hvn h
      rw [parse_value] at h
      split at h
      rename_i input line col hsw
      simp only [] at h
      rcases hsw2 : skipWhitespace i vl vc with ⟨vi, vl1, vc1⟩
      have hvi : vi = input := by
        have hx := skipWhitespace_input i l c vl vc
        rw [hsw2, hsw] at hx
        exact hx
      rw [hvi] at hsw2
      by_cases b110 : peek input = 110
      · rw [if_pos b110] at h
        by_cases btake : input.take 4 = [110, 117, 108, 108]
        · rw [if_pos btake] at h
          cases h
          refine ⟨vl1, vc1 + 4, vn, ?_, hvn⟩
          simp only [validate_value, hsw2]
          rw [if_pos b110, if_pos btake]
        · rw [if_neg btake] at h; cases h
      · rw [if_neg b110] at h
        by_cases b116 : peek input = 116
        · rw [if_pos b116] at h
          by_cases btake : input.take 4 = [116, 114, 117, 101]
          · rw [if_pos btake] at h
            cases h
            refine ⟨vl1, vc1 + 4, vn, ?_, hvn⟩
            simp only [validate_value, hsw2]
            rw [if_neg b110, if_pos b116, if_pos btake]
          · rw [if_neg btake] at h; cases h
        · rw [if_neg b116] at h
          by_cases b102 : peek input = 102
          · rw [if_pos b102] at h
            by_cases btake : input.take 5 = [102, 97, 108, 115, 101]
            · rw [if_pos btake] at h
              cases h
              refine ⟨vl1, vc1 + 5, vn, ?_, hvn⟩
              simp only [validate_value, hsw2]
              rw [if_neg b110, if_neg b116, if_pos b102, if_pos btake]
            · rw [if_neg btake] at h; cases h
          · rw [if_neg b102] at h
            by_cases b34 : peek input = 34
            · rw [if_pos b34] at h
              split at h
              · cases h
              · rename_i bsv restv colv hps
                obtain ⟨col2, hvs⟩ := parse_string_sim input line col vl1 vc1 _ _ _ hps
                cases h
                refine ⟨vl1, col2, vn, ?_, hvn⟩
                simp only [validate_value, hsw2]
                rw [if_neg b110, if_neg b116, if_neg b102, if_pos b34, hvs]
            · rw [if_neg b34] at h
              by_cases b91 : peek input = 91
              · rw [if_pos b91] at h
                obtain ⟨l2, c2x, vn', hva, hle⟩ :=
                  iha input line col pn v i' l' c' pn' vl1 vc1 vn hvn h
                refine ⟨l2, c2x, vn', ?_, hle⟩
                simp only [validate_value, hsw2]
                rw [if_neg b110, if_neg b116, if_neg b102, if_neg b34, if_pos b91]
                exact hva
              · rw [if_neg b91] at h
                by_cases b123 : peek input = 123
                · rw [if_pos b123] at h
                  obtain ⟨l2, c2x, vn', hvo, hle⟩ :=
                    iho input line col pn v i' l' c' pn' vl1 vc1 vn hvn h
                  refine ⟨l2, c2x, vn', ?_, hle⟩
                  simp only [validate_value, hsw2]
                  rw [if_neg b110, if_neg b116, if_neg b102, if_neg b34, if_neg b91,
                    if_pos b123]
                  exact hvo
                · rw [if_neg b123] at h
                  by_cases bnum : peek input = 45 ∨ isDigitByte (peek input)
                  · rw [if_pos bnum] at h
                    split at h
                    · cases h
                    · rename_i v0 restv colv hpn
                      obtain ⟨col2, hvnm⟩ :=
                        parse_number_validate input line col vl1 vc1 _ _ _ hpn
                      cases h
                      refine ⟨vl1, col2, vn, ?_, hvn⟩
                      simp only [validate_value, hsw2]
                      rw [if_neg b110, if_neg b116, if_neg b102, if_neg b34,
                        if_neg b91, if_neg b123, if_pos bnum, hvnm]
                  · rw [if_neg bnum] at h
                    by_cases b0 : peek input = 0
                    · rw [if_pos b0] at h; cases h
                    · rw [if_neg b0] at h; cases h
    · -- parse_array
      intro i l c pn v i' l' c' pn' vl vc vn hvn h
      rw [parse_array] at h
      by_cases b91 : peek i ≠ 91
      · rw [if_pos b91] at h; cases h
      · rw [if_neg b91] at h
        by_cases bn : JSON_MAX_NESTING_DEPTH ≤ pn
        · rw [if_pos bn] at h; cases h
        · rw [if_neg bn] at h
          split at h
          rename_i i1 l1 c1 hsw
          rcases hsw2 : skipWhitespace (i.drop 1) vl (vc + 1) with ⟨vi1, vl1, vc1⟩
          have hvi : vi1 = i1 := by
            have hx := skipWhitespace_input (i.drop 1) l (c + 1) vl (vc + 1)
            rw [hsw2, hsw] at hx
            exact hx
          rw [hvi] at hsw2
          have bnv : ¬ JSON_MAX_NESTING_DEPTH ≤ vn := by
            simp only [JSON_MAX_NESTING_DEPTH] at bn ⊢
            omega
          by_cases b93 : peek i1 = 93
          · rw [if_pos b93] at h
            cases h
            refine ⟨vl1, vc1 + 1, vn, ?_, hvn⟩
            simp only [validate_array, hsw2]
            rw [if_neg b91, if_neg bnv, if_pos b93]
          · rw [if_neg b93] at h
            obtain ⟨l2, c2x, vn', hv, hle⟩ := ihai i1 l1 c1 (pn + 1) [] v i' l' c' pn'
              vl1 vc1 (vn + 1) (by omega) h
            refine ⟨l2, c2x, vn', ?_, hle⟩
            simp only [validate_array, hsw2]
            rw [if_neg b91, if_neg bnv, if_neg b93]
            exact hv
    · -- parse_array_items
      intro i l c pn acc v i' l' c' pn' vl vc vn hvn h
      rw [parse_array_items] at h
      split at h
      · cases h
      · cases h
      · rename_i v1 i1 l1 c1 pn1 hpv
        obtain ⟨vl1, vc1, vn1, hvv, hle1⟩ :=
          ihv i l c pn v1 i1 l1 c1 pn1 vl vc vn hvn hpv
        split at h
        rename_i i2 l2 c2x hsw
        rcases hsw2 : skipWhitespace i1 vl1 vc1 with ⟨vi2, vl2, vc2⟩
        have hvi : vi2 = i2 := by
          have hx := skipWhitespace_input i1 l1 c1 vl1 vc1
          rw [hsw2, hsw] at hx
          exact hx
        rw [hvi] at hsw2
        by_cases b93 : peek i2 = 93
        · rw [if_pos b93] at h
          cases h
          refine ⟨vl2, vc2 + 1, vn1 - 1, ?_, by omega⟩
          simp only [validate_array_items, hvv, hsw2]
          rw [if_pos b93]
        · rw [if_neg b93] at h
          by_cases b44 : peek i2 ≠ 44
          · rw [if_pos b44] at h; cases h
          · rw [if_neg b44] at h
            split at h
            rename_i i3 l3 c3 hsw3
            rcases hsw3v : skipWhitespace (i2.drop 1) vl2 (vc2 + 1) with ⟨vi3, vl3, vc3⟩
            have hvi : vi3 = i3 := by
              have hx := skipWhitespace_input (i2.drop 1) l2 (c2x + 1) vl2 (vc2 + 1)
              rw [hsw3v, hsw3] at hx
              exact hx
            rw [hvi] at hsw3v
            by_cases b93b : peek i3 = 93
            · rw [if_pos b93b] at h; cases h
            · rw [if_neg b93b] at h
              obtain ⟨l4, c4, vn', hv, hle⟩ := ihai i3 l3 c3 pn1 (acc ++ [v1])
                v i' l' c' pn' vl3 vc3 vn1 hle1 h
              refine ⟨l4, c4, vn', ?_, hle⟩
              simp only [validate_array_items, hvv, hsw2, hsw3v]
              rw [if_neg b93, if_neg b44, if_neg b93b]
              exact hv
    · -- parse_object
      intro i l c pn v i' l' c' pn' vl vc vn hvn h
      rw [parse_object] at h
      by_cases b123 : peek i ≠ 123
      · rw [if_pos b123] at h; cases h
      · rw [if_neg b123] at h
        by_cases bn : JSON_MAX_NESTING_DEPTH ≤ pn
        · rw [if_pos bn] at h; cases h
        · rw [if_neg bn] at h
          split at h
          rename_i i1 l1 c1 hsw
          rcases hsw2 : skipWhitespace (i.drop 1) vl (vc + 1) with ⟨vi1, vl1, vc1⟩
          have hvi : vi1 = i1 := by
            have hx := skipWhitespace_input (i.drop 1) l (c + 1) vl (vc + 1)
            rw [hsw2, hsw] at hx
            exact hx
          rw [hvi] at hsw2
          have bnv : ¬ JSON_MAX_NESTING_DEPTH ≤ vn := by
            simp only [JSON_MAX_NESTING_DEPTH] at bn ⊢
            omega
          by_cases b125 : peek i1 = 125
          · rw [if_pos b125] at h
            cases h
            refine ⟨vl1, vc1 + 1, vn, ?_, by omega⟩
            simp only [validate_object, hsw2]
            rw [if_neg b123, if_neg bnv, if_pos b125]
          · rw [if_neg b125] at h
            have hns : isSpaceByte (peek i1) = false := by
              have hx := skipWhitespace_peek (i.drop 1) l (c + 1)
              rw [hsw] at hx
              exact hx
            obtain ⟨l2, c2x, vn', hv, hle⟩ := ihoi i1 l1 c1 (pn + 1) [] v i' l' c' pn'
              vl1 vc1 (vn + 1) (by omega) hns h
            refine ⟨l2, c2x, vn', ?_, hle⟩
            simp only [validate_object, hsw2]
            rw [if_neg b123, if_neg bnv, if_neg b125]
            exact hv
    · -- parse_object_items
      intro i l c pn acc v i' l' c' pn' vl vc vn hvn hns h
      rw [parse_object_items] at h
      split at h
      rename_i i0 l0 c0 hsw0
      rw [skipWhitespace_nospace i l c hns] at hsw0
      simp only [Prod.mk.injEq] at hsw0
      obtain ⟨rfl, rfl, rfl⟩ := hsw0
      split at h
      · cases h
      · rename_i key i1 c1k hps
        obtain ⟨vc1, hvs⟩ := parse_string_sim i l c vl vc _ _ _ hps
        split at h
        rename_i i2 l2 c2x hsw2p
        rcases hsw2v : skipWhitespace i1 vl vc1 with ⟨vi2, vl2, vc2⟩
        have hvi : vi2 = i2 := by
          have hx := skipWhitespace_input i1 l c1k vl vc1
          rw [hsw2v, hsw2p] at hx
          exact hx
        rw [hvi] at hsw2v
        by_cases b58 : peek i2 ≠ 58
        · rw [if_pos b58] at h; cases h
        · rw [if_neg b58] at h
          split at h
          rename_i i3 l3 c3 hsw3p
          rcases hsw3v : skipWhitespace (i2.drop 1) vl2 (vc2 + 1) with ⟨vi3, vl3, vc3⟩
          have hvi : vi3 = i3 := by
            have hx := skipWhitespace_input (i2.drop 1) l2 (c2x + 1) vl2 (vc2 + 1)
            rw [hsw3v, hsw3p] at hx
            exact hx
          rw [hvi] at hsw3v
          split at h
          · cases h
          · cases h
          · rename_i v1 i4 l4 c4 pn4 hpv
            obtain ⟨vl4, vc4, vn4, hvv, hle4⟩ :=
              ihv i3 l3 c3 pn v1 i4 l4 c4 pn4 vl3 vc3 vn hvn hpv
            split at h
            rename_i i5 l5 c5 hsw5p
            rcases hsw5v : skipWhitespace i4 vl4 vc4 with ⟨vi5, vl5, vc5⟩
            have hvi : vi5 = i5 := by
              have hx := skipWhitespace_input i4 l4 c4 vl4 vc4
              rw [hsw5v, hsw5p] at hx
              exact hx
            rw [hvi] at hsw5v
            by_cases b125 : peek i5 = 125
            · rw [if_pos b125] at h
              cases h
              refine ⟨vl5, vc5 + 1, vn4 - 1, ?_, by omega⟩
              simp only [validate_object_items, hvs, hsw2v, hsw3v, hvv, hsw5v]
              rw [if_neg b58, if_pos b125]
            · rw [if_neg b125] at h
              by_cases b44 : peek i5 ≠ 44
              · rw [if_pos b44] at h; cases h
              · rw [if_neg b44] at h
                split at h
                rename_i i6 l6 c6 hsw6p
                rcases hsw6v : skipWhitespace (i5.drop 1) vl5 (vc5 + 1)
                  with ⟨vi6, vl6, vc6⟩
                have hvi : vi6 = i6 := by
                  have hx := skipWhitespace_input (i5.drop 1) l5 (c5 + 1) vl5 (vc5 + 1)
                  rw [hsw6v, hsw6p] at hx
                  exact hx
                rw [hvi] at hsw6v
                by_cases b125b : peek i6 = 125
                · rw [if_pos b125b] at h; cases h
                · rw [if_neg b125b] at h
                  have hns6 : isSpaceByte (peek i6) = false := by
                    have hx := skipWhitespace_peek (i5.drop 1) l5 (c5 + 1)
                    rw [hsw6p] at hx
                    exact hx
                  obtain ⟨l7, c7, vn', hv, hle⟩ := ihoi i6 l6 c6 pn4
                    (objectSetPairs acc key v1) v i' l' c' pn' vl6 vc6 vn4 hle4 hns6 h
                  refine ⟨l7, c7, vn', ?_, hle⟩
                  simp only [validate_object_items, hvs, hsw2v, hsw3v, hvv, hsw5v,
                    hsw6v]
                  rw [if_neg b58, if_neg b125, if_neg b44, if_neg b125b]
                  exact hv

/-! ### Restricted roundtrip (claim C2) -/

/-- Bytes that legitimately follow a complete JSON value in a document:
comma, closing bracket, closing brace, or the NUL terminator.  None of them
can extend a number token or any other value token. -/
def delimByte (b : Byte) : Bool := b == 44 || b == 93 || b == 125 || b == 0

/-- Numbers that survive the compact formatter exactly: magnitude within the
auto-notation fixed range (json_format.c:155-158) and exactly representable
with six fractional digits, so the %.6f conversion loses nothing. -/
def numOK (q : ℚ) : Bool :=
  !(decide (qAbs q < mkRat 1 10000) || decide (mkRat 100000 1 < qAbs q)) &&
    (q * mkRat ((10 : Int) ^ 6) 1).den == 1

/-- String bytes that survive format-then-parse: printable bytes are emitted
raw or with a short escape, and the five control characters with short
escapes decode back; other control bytes are emitted as a unicode escape,
which the parser mis-reads (json_parser.c:176-227). -/
def strOKb (b : Byte) : Bool :=
  (32 ≤ b : Bool) || b == 8 || b == 9 || b == 10 || b == 12 || b == 13

/-- All bytes of a string survive the roundtrip. -/
def strOK (s : List Byte) : Bool := s.all strOKb

mutual

/-- Trees whose scalars all survive the compact format-then-parse roundtrip:
no NaN or infinity, numbers exactly representable, strings and keys without
long-escape control bytes, and object keys pairwise distinct. -/
def valOK : JsonValue → Bool
  | .jnull => true
  | .jbool _ => true
  | .jnumber (.fin q) => numOK q
  | .jnumber _ => false
  | .jstring s => strOK s
  | .jarray xs => listOK xs
  | .jobject ps => keysNodupB ps && pairsOK ps

/-- All array items survive. -/
def listOK : List JsonValue → Bool
  | [] => true
  | x :: rest => valOK x && listOK rest

/-- All keys and member values survive. -/
def pairsOK : List (List Byte × JsonValue) → Bool
  | [] => true
  | (k, v) :: rest => strOK k && valOK v && pairsOK rest

end

mutual

/-- Net growth of the parser nesting counter across a value: parse_object
never gives its increment back (json_parser.c:538-541, 602-605), so every
object in the tree leaks one level, while arrays restore theirs. -/
def vleak : JsonValue → Nat
  | .jarray xs => lleak xs
  | .jobject ps => 1 + pleak ps
  | _ => 0

/-- Accumulated leak of an item list. -/
def lleak : List JsonValue → Nat
  | [] => 0
  | x :: rest => vleak x + lleak rest

/-- Accumulated leak of a member list. -/
def pleak : List (List Byte × JsonValue) → Nat
  | [] => 0
  | (_, v) :: rest => vleak v + pleak rest

end

mutual

/-- Nesting margin a value needs: parsing at nesting level n succeeds as far
as the depth check goes whenever n + vneed v is at most 32 (the containers
are entered one level deeper, shifted further by the leaks of the earlier
siblings). -/
def vneed : JsonValue → Nat
  | .jarray xs => 1 + lneed xs
  | .jobject ps => 1 + pneed ps
  | _ => 0

/-- Margin needed by an item list. -/
def lneed : List JsonValue → Nat
  | [] => 0
  | x :: rest => max (vneed x) (vleak x + lneed rest)

/-- Margin needed by a member list. -/
def pneed : List (List Byte × JsonValue) → Nat
  | [] => 0
  | (_, v) :: rest => max (vneed v) (vleak v + pneed rest)

end

mutual

/-- The tree json_parse_string reconstructs from the compact rendering:
identical except that every object member list is reversed, because
json_object_set prepends each first-seen key (json.c:373-377). -/
def objRev : JsonValue → JsonValue
  | .jnull => .jnull
  | .jbool b => .jbool b
  | .jnumber n => .jnumber n
  | .jstring s => .jstring s
  | .jarray xs => .jarray (objRevList xs)
  | .jobject ps => .jobject (objRevPairs ps)

/-- Item-wise reconstruction. -/
def objRevList : List JsonValue → List JsonValue
  | [] => []
  | x :: rest => objRev x :: objRevList rest

/-- Member-wise reconstruction, reversing the stored order. -/
def objRevPairs : List (List Byte × JsonValue) → List (List Byte × JsonValue)
  | [] => []
  | (k, v) :: rest => objRevPairs rest ++ [(k, objRev v)]

end

mutual

/-- Structural equality in the sense of the specification: same variant and
scalar at every node, same array element order, and for objects the same
key set with structurally equal per-key values (enumeration order free). -/
def structEq : JsonValue → JsonValue → Bool
  | .jnull, .jnull => true
  | .jbool a, .jbool b => a == b
  | .jnumber a, .jnumber b => a == b
  | .jstring a, .jstring b => a == b
  | .jarray xs, .jarray ys => structEqList xs ys
  | .jobject ps, .jobject qs =>
    (keysOf qs).all (fun k => k ∈ keysOf ps) && structEqPairs ps qs
  | _, _ => false

/-- Element-wise structural equality. -/
def structEqList : List JsonValue → List JsonValue → Bool
  | [], [] => true
  | x :: xs, y :: ys => structEq x y && structEqList xs ys
  | _, _ => false

/-- Every left member key is present on the right with a structurally equal
value. -/
def structEqPairs : List (List Byte × JsonValue) →
    List (List Byte × JsonValue) → Bool
  | [], _ => true
  | (k, v) :: rest, qs =>
    (match lookupPairs qs k with
      | some w => structEq v w
      | Option.none => false) && structEqPairs rest qs

end

theorem peek_append (a b : List Byte) (h : a ≠ []) : peek (a ++ b) = peek a := by
  cases a with
  | nil => exact absurd rfl h
  | cons x r => rfl

theorem digitsToNat_shift (b : List Byte) (acc : Nat) :
    List.foldl (fun a c => 10 * a + (c - 48)) acc b =
      acc * 10 ^ b.length + digitsToNat b := by
  induction b generalizing acc with
  | nil => simp [digitsToNat]
  | cons x r ih =>
    simp only [List.foldl_cons, List.length_cons, digitsToNat]
    rw [ih, ih (10 * 0 + (x - 48))]
    ring

theorem digitsToNat_append (a b : List Byte) :
    digitsToNat (a ++ b) = digitsToNat a * 10 ^ b.length + digitsToNat b := by
  unfold digitsToNat
  rw [List.foldl_append]
  exact digitsToNat_shift b _

theorem natDigitsAux_spec : ∀ fuel n, n < 10 ^ fuel →
    (∀ b ∈ natDigitsAux fuel n, isDigitByte b = true) ∧
    digitsToNat (natDigitsAux fuel n) = n ∧
    (natDigitsAux fuel n).length ≤ fuel ∧
    (1 ≤ n → natDigitsAux fuel n ≠ [] ∧ ¬ peek (natDigitsAux fuel n) = 48) := by
  intro fuel
  induction fuel with
  | zero =>
    intro n hn
    interval_cases n
    refine ⟨by simp [natDigitsAux], by simp [natDigitsAux, digitsToNat], by simp [natDigitsAux], by omega⟩
  | succ f ih =>
    intro n hn
    by_cases h10 : n < 10
    · rw [natDigitsAux, if_pos h10]
      refine ⟨?_, ?_, by simp, ?_⟩
      · intro b hb
        simp only [List.mem_singleton] at hb
        subst hb
        simp only [isDigitByte, Bool.and_eq_true, decide_eq_true_eq]
        delta Byte at *
        omega
      · simp [digitsToNat]
      · intro h1
        refine ⟨by simp, ?_⟩
        simp only [peek, List.headD_cons]
        delta Byte at *
        omega
    · rw [natDigitsAux, if_neg h10]
      have hdiv : n / 10 < 10 ^ f := by
        rw [Nat.div_lt_iff_lt_mul (by norm_num)]
        calc n < 10 ^ (f + 1) := hn
        _ = 10 ^ f * 10 := by ring
      obtain ⟨ihd, ihv, ihl, ihp⟩ := ih (n / 10) hdiv
      have hne : natDigitsAux f (n / 10) ≠ [] := (ihp (by omega)).1
      refine ⟨?_, ?_, ?_, ?_⟩
      · intro b hb
        rw [List.mem_append] at hb
        rcases hb with hb | hb
        · exact ihd b hb
        · simp only [List.mem_singleton] at hb
          subst hb
          simp only [isDigitByte, Bool.and_eq_true, decide_eq_true_eq]
          delta Byte at *
          omega
      · rw [digitsToNat_append, ihv]
        simp [digitsToNat, pow_one]
        delta Byte at *
        omega
      · rw [List.length_append, List.length_singleton]
        omega
      · intro h1
        refine ⟨by simp, ?_⟩
        rw [peek_append _ _ hne]
        exact (ihp (by omega)).2

theorem lt_ten_pow_succ (n : Nat) : n < 10 ^ (n + 1) :=
  lt_of_lt_of_le (Nat.lt_pow_self (by norm_num) n)
    (Nat.pow_le_pow_right (by norm_num) (Nat.le_succ n))

theorem natDigits_spec (n : Nat) :
    (∀ b ∈ natDigits n, isDigitByte b = true) ∧
    digitsToNat (natDigits n) = n ∧ natDigits n ≠ [] ∧
    (1 ≤ n → ¬ peek (natDigits n) = 48) := by
  obtain ⟨hd, hv, _, hp⟩ := natDigitsAux_spec (n + 1) n (lt_ten_pow_succ n)
  unfold natDigits
  by_cases h1 : 1 ≤ n
  · exact ⟨hd, hv, (hp h1).1, fun _ => (hp h1).2⟩
  · have hn0 : n = 0 := by omega
    subst hn0
    exact ⟨hd, hv, by simp [natDigitsAux], by omega⟩

theorem natDigitsAux_fuel (f : Nat) : ∀ n g, 1 ≤ f → n < 10 ^ f → f ≤ g →
    natDigitsAux g n = natDigitsAux f n := by
  induction f with
  | zero => intro n g h1; omega
  | succ f ih =>
    intro n g _ hn hg
    rcases g with _ | g'
    · omega
    by_cases h10 : n < 10
    · rw [natDigitsAux, natDigitsAux, if_pos h10, if_pos h10]
    · rw [natDigitsAux, natDigitsAux, if_neg h10, if_neg h10]
      have hf1 : 1 ≤ f := by
        by_contra hc
        have : f = 0 := by omega
        subst this
        simp at hn
        omega
      have hdiv : n / 10 < 10 ^ f := by
        rw [Nat.div_lt_iff_lt_mul (by norm_num)]
        calc n < 10 ^ (f + 1) := hn
        _ = 10 ^ f * 10 := by ring
      rw [ih (n / 10) g' hf1 hdiv (by omega)]

theorem natDigits_length (n k : Nat) (h : n < 10 ^ k) (hk : 1 ≤ k) :
    (natDigits n).length ≤ k := by
  unfold natDigits
  by_cases hc : k ≤ n + 1
  · rw [natDigitsAux_fuel k n (n + 1) hk h hc]
    exact (natDigitsAux_spec k n h).2.2.1
  · have := (natDigitsAux_spec (n + 1) n (lt_ten_pow_succ n)).2.2.1
    omega

theorem digitSpan_loop (ds rest rs : List Byte)
    (h1 : ∀ b ∈ ds, isDigitByte b = true)
    (h2 : isDigitByte (peek rest) = false) :
    List.span.loop isDigitByte (ds ++ rest) rs = (rs.reverse ++ ds, rest) := by
  induction ds generalizing rs with
  | nil =>
    cases rest with
    | nil => simp [List.span.loop]
    | cons r t =>
      simp only [peek, List.headD_cons] at h2
      simp [List.span.loop, h2]
  | cons d t ih =>
    rw [List.cons_append, List.span.loop, h1 d (by simp)]
    rw [ih (d :: rs) (fun b hb => h1 b (by simp [hb]))]
    simp

theorem digitSpan_append (ds rest : List Byte)
    (h1 : ∀ b ∈ ds, isDigitByte b = true)
    (h2 : isDigitByte (peek rest) = false) :
    digitSpan (ds ++ rest) = (ds, rest) := by
  rw [digitSpan, List.span, digitSpan_loop ds rest [] h1 h2]
  simp

theorem digitsToNat_replicate_zero (k : Nat) :
    digitsToNat (List.replicate k 48) = 0 := by
  induction k with
  | zero => rfl
  | succ m ih =>
    rw [List.replicate_succ]
    unfold digitsToNat at ih ⊢
    simpa using ih

theorem padZeros_spec (ds : List Byte) (p : Nat)
    (h1 : ∀ b ∈ ds, isDigitByte b = true) (h2 : ds.length ≤ p) :
    (∀ b ∈ padZeros ds p, isDigitByte b = true) ∧
    (padZeros ds p).length = p ∧
    digitsToNat (padZeros ds p) = digitsToNat ds := by
  refine ⟨?_, ?_, ?_⟩
  · intro b hb
    rw [padZeros, List.mem_append] at hb
    rcases hb with hb | hb
    · rw [List.mem_replicate] at hb
      rw [hb.2]
      decide
    · exact h1 b hb
  · rw [padZeros, List.length_append, List.length_replicate]
    omega
  · rw [padZeros, digitsToNat_append, digitsToNat_replicate_zero]
    simp
theorem delim_facts (b : Byte) (h : delimByte b = true) :
    isDigitByte b = false ∧ ¬ (b = 101 ∨ b = 69) ∧ isSpaceByte b = false := by
  simp only [delimByte, Bool.or_eq_true, beq_iff_eq] at h
  rcases h with ((h | h) | h) | h <;> subst h <;>
    exact ⟨by decide, by decide, by decide⟩

theorem isDigit_bounds (b : Byte) (h : isDigitByte b = true) :
    48 ≤ b ∧ b ≤ 57 := by
  simp only [isDigitByte, Bool.and_eq_true, decide_eq_true_eq] at h
  exact h

theorem no_leading_zero (ds R : List Byte) (hds0 : ds ≠ [])
    (hR : isDigitByte (peek R) = false)
    (hlead : ¬ peek ds = 48 ∨ ds = [48]) :
    ¬ (peek (ds ++ R) = 48 ∧ isDigitByte (peek ((ds ++ R).drop 1)) = true) := by
  cases ds with
  | nil => exact absurd rfl hds0
  | cons d t =>
    cases t with
    | nil =>
      rintro ⟨h1, h2⟩
      have he : ((d :: ([] : List Byte)) ++ R).drop 1 = R := rfl
      rw [he] at h2
      rw [h2] at hR
      cases hR
    | cons d2 t2 =>
      rintro ⟨h1, h2⟩
      rcases hlead with hl | hl
      · exact hl h1
      · cases hl

/-- Grammar walk of the shared number scan over a printed fixed-notation
token followed by a delimiter. -/
theorem numberSpan_fixed (sgn : Bool) (ds fs rest : List Byte) (l c : Nat)
    (hds : ∀ b ∈ ds, isDigitByte b = true) (hds0 : ds ≠ [])
    (hfs : ∀ b ∈ fs, isDigitByte b = true) (hfs0 : fs ≠ [])
    (hlead : ¬ peek ds = 48 ∨ ds = [48])
    (hrest : delimByte (peek rest) = true) :
    ∃ col2, numberSpan ((if sgn then [45] else []) ++ (ds ++ ([46] ++ (fs ++ rest))))
        l c =
      .ok ((if sgn then [45] else []) ++ (ds ++ ([46] ++ fs)), rest, col2) := by
  obtain ⟨hrd, hre, hrs⟩ := delim_facts _ hrest
  have hpd : isDigitByte (peek ds) = true := by
    cases ds with
    | nil => exact absurd rfl hds0
    | cons d t => exact hds d (by simp)
  have hpf : isDigitByte (peek fs) = true := by
    cases fs with
    | nil => exact absurd rfl hfs0
    | cons d t => exact hfs d (by simp)
  have hd45 : ¬ peek ds = 45 := by
    intro hcon
    rw [hcon] at hpd
    exact absurd hpd (by decide)
  have hspan1 : digitSpan (ds ++ ([46] ++ (fs ++ rest))) =
      (ds, [46] ++ (fs ++ rest)) := by
    refine digitSpan_append ds _ hds ?_
    rw [peek_append _ _ (by simp)]
    decide
  have hspan2 : digitSpan (fs ++ rest) = (fs, rest) :=
    digitSpan_append fs rest hfs hrd
  have hnlz := no_leading_zero ds ([46] ++ (fs ++ rest)) hds0 (by
    rw [peek_append _ _ (by simp)]; decide) hlead
  have hpds := peek_append ds ([46] ++ (fs ++ rest)) hds0
  have hp46 : peek ([46] ++ (fs ++ rest)) = 46 := rfl
  have hdrop2 : ([46] ++ (fs ++ rest)).drop 1 = fs ++ rest := rfl
  have hpfs := peek_append fs rest hfs0
  cases sgn with
  | true =>
    rw [if_pos rfl]
    have hi1 : ([45] ++ (ds ++ ([46] ++ (fs ++ rest)))).drop
        (if peek ([45] ++ (ds ++ ([46] ++ (fs ++ rest)))) = 45 then 1 else 0) =
        ds ++ ([46] ++ (fs ++ rest)) := rfl
    have hlen : ([45] ++ (ds ++ ([46] ++ (fs ++ rest)))).length - rest.length =
        ([45] ++ (ds ++ ([46] ++ fs))).length := by
      simp [List.length_append]
      omega
    have htake : ([45] ++ (ds ++ ([46] ++ (fs ++ rest)))).take
        (([45] ++ (ds ++ ([46] ++ fs))).length) =
        [45] ++ (ds ++ ([46] ++ fs)) := by
      have he : ([45] : List Byte) ++ (ds ++ ([46] ++ (fs ++ rest))) =
          ([45] ++ (ds ++ ([46] ++ fs))) ++ rest := by simp [List.append_assoc]
      rw [he, List.take_left]
    rw [numberSpan]
    try simp only []
    rw [hi1]
    have hpk45 : peek ([45] ++ (ds ++ ([46] ++ (fs ++ rest)))) = 45 := rfl
    rw [hpk45]
    rw [if_neg (fun hand => (hand.2 : ¬ _) (by rw [hpds]; exact hpd))]
    rw [if_neg hnlz]
    rw [if_neg (not_not_intro (by rw [hpds]; exact hpd))]
    simp only [hspan1]
    rw [hp46, hdrop2, hpfs]
    rw [if_neg (fun hand => hand.2 hpf)]
    rw [if_pos (rfl : (46 : Byte) = 46)]
    simp only [hspan2]
    rw [if_neg hre, hlen, htake]
    exact ⟨_, rfl⟩
  | false =>
    rw [if_neg (by simp)]
    simp only [List.nil_append]
    have hi1 : (ds ++ ([46] ++ (fs ++ rest))).drop
        (if peek (ds ++ ([46] ++ (fs ++ rest))) = 45 then 1 else 0) =
        ds ++ ([46] ++ (fs ++ rest)) := by
      rw [hpds, if_neg hd45, List.drop_zero]
    have hlen : (ds ++ ([46] ++ (fs ++ rest))).length - rest.length =
        (ds ++ ([46] ++ fs)).length := by
      simp [List.length_append]
      omega
    have htake : (ds ++ ([46] ++ (fs ++ rest))).take
        ((ds ++ ([46] ++ fs)).length) = ds ++ ([46] ++ fs) := by
      have he : ds ++ ([46] ++ (fs ++ rest)) =
          (ds ++ ([46] ++ fs)) ++ rest := by simp [List.append_assoc]
      rw [he, List.take_left]
    rw [numberSpan]
    try simp only []
    rw [hi1]
    rw [if_neg (fun hand => hd45 (by rw [hpds] at hand; exact hand.1))]
    rw [if_neg hnlz]
    rw [if_neg (not_not_intro (by rw [hpds]; exact hpd))]
    simp only [hspan1]
    rw [hp46, hdrop2, hpfs]
    rw [if_neg (fun hand => hand.2 hpf)]
    rw [if_pos (rfl : (46 : Byte) = 46)]
    simp only [hspan2]
    rw [if_neg hre, hlen, htake]
    exact ⟨_, rfl⟩

/-- Value the parser's atof model reconstructs from a printed
fixed-notation token. -/
theorem atofQ_fixed (sgn : Bool) (ds fs : List Byte)
    (hds : ∀ b ∈ ds, isDigitByte b = true) (hds0 : ds ≠ [])
    (hfs : ∀ b ∈ fs, isDigitByte b = true) (hfs0 : fs ≠ []) :
    atofQ ((if sgn then [45] else []) ++ (ds ++ ([46] ++ fs))) =
      mkRat ((if sgn then -1 else 1) * (digitsToNat (ds ++ fs) : Int))
        ((10 : Nat) ^ fs.length) := by
  have hpd : isDigitByte (peek ds) = true := by
    cases ds with
    | nil => exact absurd rfl hds0
    | cons d t => exact hds d (by simp)
  have hd45 : ¬ peek ds = 45 := by
    intro hcon
    rw [hcon] at hpd
    exact absurd hpd (by decide)
  have hspan1 : digitSpan (ds ++ ([46] ++ fs)) = (ds, [46] ++ fs) := by
    refine digitSpan_append ds _ hds ?_
    rw [peek_append _ _ (by simp)]
    decide
  have hspan2 : digitSpan fs = (fs, []) := by
    have h := digitSpan_append fs [] hfs (by decide)
    rwa [List.append_nil] at h
  have hp46 : peek ([46] ++ fs) = 46 := rfl
  have hdrop1 : ([46] ++ fs).drop 1 = fs := rfl
  have hfs1 : 1 ≤ fs.length := by
    cases fs with
    | nil => exact absurd rfl hfs0
    | cons a t => simp
  have hsc : (-((0 : Int) - (fs.length : Int))).toNat = fs.length := by omega
  have hee : ¬ (peek ([] : List Byte) = 101 ∨ peek ([] : List Byte) = 69) := by decide
  cases sgn with
  | true =>
    rw [if_pos rfl]
    rw [atofQ]
    try simp only []
    have hift : (if peek ([45] ++ (ds ++ ([46] ++ fs))) = 45 then
        ((true : Bool), ([45] ++ (ds ++ ([46] ++ fs))).drop 1)
        else (false, [45] ++ (ds ++ ([46] ++ fs)))) =
        (true, ds ++ ([46] ++ fs)) := rfl
    rw [hift]
    try simp only []
    simp only [hspan1]
    rw [hp46, if_pos (rfl : (46 : Byte) = 46), hdrop1]
    simp only [hspan2]
    rw [if_neg hee]
    rw [if_neg (by omega : ¬ (0 : Int) ≤ 0 - (fs.length : Int))]
    rw [hsc]
  | false =>
    rw [if_neg (by simp)]
    simp only [List.nil_append]
    rw [atofQ]
    try simp only []
    have hiff : (if peek (ds ++ ([46] ++ fs)) = 45 then
        ((true : Bool), (ds ++ ([46] ++ fs)).drop 1)
        else (false, ds ++ ([46] ++ fs))) =
        (false, ds ++ ([46] ++ fs)) := by
      rw [peek_append ds ([46] ++ fs) hds0, if_neg hd45]
    rw [hiff]
    try simp only []
    simp only [hspan1]
    rw [hp46, if_pos (rfl : (46 : Byte) = 46), hdrop1]
    simp only [hspan2]
    rw [if_neg hee]
    rw [if_neg (by omega : ¬ (0 : Int) ≤ 0 - (fs.length : Int))]
    rw [hsc]

theorem num_eq_of_den_one (r : ℚ) (h : r.den = 1) : (r.num : ℚ) = r := by
  conv_rhs => rw [← Rat.num_div_den r, h]
  simp

theorem roundHalfEven_den_one (r : ℚ) (h : r.den = 1) :
    roundHalfEven r = r.num := by
  have hq : mkRat (qFloor r) 1 = r := by
    rw [qFloor, h]
    simp only [Nat.cast_one, Int.fdiv_one]
    rw [Rat.mkRat_eq_div]
    simp only [Nat.cast_one, div_one]
    exact num_eq_of_den_one r h
  rw [roundHalfEven]
  try simp only []
  rw [hq, sub_self]
  rw [if_pos (by norm_num [Rat.mkRat_eq_div] : (0 : ℚ) < mkRat 1 2)]
  rw [qFloor, h]
  simp only [Nat.cast_one, Int.fdiv_one]

/-- The compact formatter's fixed-notation output of an in-range exactly
representable number, and what the parser reads back from it. -/
theorem formatFixed_roundtrip (q : ℚ) (hok : numOK q = true) :
    ∃ out, formatFixed q 6 = out ∧
      out.length ≤ 14 ∧ 1 ≤ out.length ∧
      (peek out = 45 ∨ isDigitByte (peek out) = true) ∧
      atofQ out = q ∧
      ∀ rest l c, delimByte (peek rest) = true →
        ∃ col2, numberSpan (out ++ rest) l c = .ok (out, rest, col2) := by
  simp only [numOK, Bool.and_eq_true, Bool.not_eq_true', Bool.or_eq_false_iff,
    decide_eq_false_iff_not, beq_iff_eq] at hok
  obtain ⟨⟨hr1, hr2⟩, hden⟩ := hok
  have h10v : (mkRat ((10 : Int) ^ 6) 1 : ℚ) = (1000000 : ℚ) := by
    rw [Rat.mkRat_eq_div]; norm_num
  have h1e5 : (mkRat 100000 1 : ℚ) = (100000 : ℚ) := by
    rw [Rat.mkRat_eq_div]; norm_num
  have h1em4 : (mkRat 1 10000 : ℚ) = (1 / 10000 : ℚ) := by
    rw [Rat.mkRat_eq_div]; norm_num
  have hq0 : 0 ≤ qAbs q := by
    unfold qAbs
    split_ifs with h
    · linarith
    · exact not_lt.mp h
  have hra_den : (qAbs q * mkRat ((10 : Int) ^ 6) 1).den = 1 := by
    unfold qAbs
    split_ifs with h
    · rw [show (-q) * mkRat ((10 : Int) ^ 6) 1 = -(q * mkRat ((10 : Int) ^ 6) 1)
        by ring]
      rw [Rat.neg_den]
      exact hden
    · exact hden
  have hround := roundHalfEven_den_one _ hra_den
  have hnum0 : 0 ≤ (qAbs q * mkRat ((10 : Int) ^ 6) 1).num :=
    Rat.num_nonneg.mpr (mul_nonneg hq0 (by rw [h10v]; norm_num))
  set N := (qAbs q * mkRat ((10 : Int) ^ 6) 1).num.toNat with hNdef
  have hNcast : ((N : Int)) = (qAbs q * mkRat ((10 : Int) ^ 6) 1).num :=
    Int.toNat_of_nonneg hnum0
  have hNval : ((N : ℚ)) = qAbs q * 1000000 := by
    have h1 := num_eq_of_den_one _ hra_den
    rw [show ((N : ℚ)) = (((N : Int)) : ℚ) by push_cast; ring, hNcast, h1, h10v]
  have hub : qAbs q ≤ 100000 := by
    have := not_lt.mp hr2
    rw [h1e5] at this
    exact this
  have hlb : (1 : ℚ) / 10000 ≤ qAbs q := by
    have := not_lt.mp hr1
    rw [h1em4] at this
    exact this
  have hNub : N ≤ 10 ^ 11 := by
    have hqq : (N : ℚ) ≤ 10 ^ 11 := by
      rw [hNval]
      calc qAbs q * 1000000 ≤ 100000 * 1000000 :=
        mul_le_mul_of_nonneg_right hub (by norm_num)
      _ = 10 ^ 11 := by norm_num
    exact_mod_cast hqq
  have hNlb : 100 ≤ N := by
    have hqq : (100 : ℚ) ≤ (N : ℚ) := by
      rw [hNval]
      calc (100 : ℚ) = (1 / 10000) * 1000000 := by norm_num
      _ ≤ qAbs q * 1000000 := mul_le_mul_of_nonneg_right hlb (by norm_num)
    exact_mod_cast hqq
  have hip : N / 10 ^ 6 < 10 ^ 6 := by
    rw [Nat.div_lt_iff_lt_mul (by norm_num)]
    calc N ≤ 10 ^ 11 := hNub
    _ < 10 ^ 6 * 10 ^ 6 := by norm_num
  have hfp : N % 10 ^ 6 < 10 ^ 6 := Nat.mod_lt _ (by norm_num)
  obtain ⟨hdsd, hdsv, hds0, hdsl⟩ := natDigits_spec (N / 10 ^ 6)
  have hdslen : (natDigits (N / 10 ^ 6)).length ≤ 6 :=
    natDigits_length _ 6 hip (by norm_num)
  obtain ⟨hfsd0, hfsv0, hfs00, _⟩ := natDigits_spec (N % 10 ^ 6)
  have hfslen0 : (natDigits (N % 10 ^ 6)).length ≤ 6 :=
    natDigits_length _ 6 hfp (by norm_num)
  obtain ⟨hfsd, hfslen, hfsv⟩ := padZeros_spec (natDigits (N % 10 ^ 6)) 6
    hfsd0 hfslen0
  have hfs0 : padZeros (natDigits (N % 10 ^ 6)) 6 ≠ [] := by
    intro hcon
    rw [hcon] at hfslen
    simp at hfslen
  have hlead : ¬ peek (natDigits (N / 10 ^ 6)) = 48 ∨
      natDigits (N / 10 ^ 6) = [48] := by
    by_cases hz : N / 10 ^ 6 = 0
    · right
      rw [hz]
      rfl
    · exact Or.inl (hdsl (by omega))
  have hdsfs : digitsToNat (natDigits (N / 10 ^ 6) ++
      padZeros (natDigits (N % 10 ^ 6)) 6) = N := by
    rw [digitsToNat_append, hdsv, hfsv, hfsv0, hfslen]
    have hNdm := Nat.div_add_mod N (10 ^ 6)
    omega
  have hpd : isDigitByte (peek (natDigits (N / 10 ^ 6))) = true := by
    cases hh : natDigits (N / 10 ^ 6) with
    | nil => exact absurd hh hds0
    | cons d t =>
      have := hdsd d (by rw [hh]; simp)
      simpa [peek] using this
  have hform : formatFixed q 6 = (if q < 0 then [45] else []) ++
      (natDigits (N / 10 ^ 6) ++ ([46] ++ padZeros (natDigits (N % 10 ^ 6)) 6)) := by
    rw [formatFixed]
    try simp only []
    rw [hround, ← hNdef]
    rw [if_neg (by decide : ¬ (6 : Nat) = 0)]
    simp [List.append_assoc]
  by_cases hq : q < 0
  · rw [if_pos hq] at hform
    refine ⟨_, hform, ?_, ?_, ?_, ?_, ?_⟩
    · simp only [List.length_append, List.length_cons, List.length_nil, hfslen]
      omega
    · simp
    · left
      rfl
    · have hato := atofQ_fixed true (natDigits (N / 10 ^ 6))
        (padZeros (natDigits (N % 10 ^ 6)) 6) hdsd hds0 hfsd hfs0
      rw [if_pos rfl, if_pos rfl] at hato
      rw [hato, hdsfs, hfslen]
      have hNq : (N : ℚ) = -q * 1000000 := by
        rw [hNval]
        unfold qAbs
        rw [if_pos hq]
      rw [Rat.mkRat_eq_div]
      push_cast [hNq]
      field_simp
    · intro rest l c hrest
      obtain ⟨col2, hns⟩ := numberSpan_fixed true (natDigits (N / 10 ^ 6))
        (padZeros (natDigits (N % 10 ^ 6)) 6) rest l c hdsd hds0 hfsd hfs0
        hlead hrest
      rw [if_pos rfl] at hns
      refine ⟨col2, ?_⟩
      have hassoc : ([45] ++ (natDigits (N / 10 ^ 6) ++
          ([46] ++ padZeros (natDigits (N % 10 ^ 6)) 6))) ++ rest =
          [45] ++ (natDigits (N / 10 ^ 6) ++
          ([46] ++ (padZeros (natDigits (N % 10 ^ 6)) 6 ++ rest))) := by
        simp [List.append_assoc]
      rw [hassoc]
      exact hns
  · rw [if_neg hq] at hform
    rw [List.nil_append] at hform
    refine ⟨_, hform, ?_, ?_, ?_, ?_, ?_⟩
    · simp only [List.length_append, List.length_cons, List.length_nil, hfslen]
      omega
    · cases hh : natDigits (N / 10 ^ 6) with
      | nil => exact absurd hh hds0
      | cons d t => simp
    · right
      rw [peek_append _ _ hds0]
      exact hpd
    · have hato := atofQ_fixed false (natDigits (N / 10 ^ 6))
        (padZeros (natDigits (N % 10 ^ 6)) 6) hdsd hds0 hfsd hfs0
      rw [if_neg (by simp), List.nil_append] at hato
      rw [if_neg (by simp)] at hato
      rw [hato, hdsfs, hfslen]
      have hNq : (N : ℚ) = q * 1000000 := by
        rw [hNval]
        unfold qAbs
        rw [if_neg hq]
      rw [Rat.mkRat_eq_div]
      push_cast [hNq]
      field_simp
    · intro rest l c hrest
      obtain ⟨col2, hns⟩ := numberSpan_fixed false (natDigits (N / 10 ^ 6))
        (padZeros (natDigits (N % 10 ^ 6)) 6) rest l c hdsd hds0 hfsd hfs0
        hlead hrest
      rw [if_neg (by simp), List.nil_append, List.nil_append] at hns
      refine ⟨col2, ?_⟩
      have hassoc : (natDigits (N / 10 ^ 6) ++
          ([46] ++ padZeros (natDigits (N % 10 ^ 6)) 6)) ++ rest =
          natDigits (N / 10 ^ 6) ++
          ([46] ++ (padZeros (natDigits (N % 10 ^ 6)) 6 ++ rest)) := by
        simp [List.append_assoc]
      rw [hassoc]
      exact hns

/-! ### Rendered strings re-parse (claim C2, string scalars) -/

theorem stringFirstPass_quote (r : List Byte) :
    stringFirstPass (34 :: r) = Option.none := by
  rw [stringFirstPass.eq_def]
  simp

theorem stringFirstPass_raw (b : Byte) (r : List Byte) (h34 : ¬ b = 34)
    (h92 : ¬ b = 92) (h32 : ¬ b < 32) :
    stringFirstPass (b :: r) = stringFirstPass r := by
  rw [stringFirstPass.eq_def]
  simp only []
  rw [if_neg h34, if_neg h92, if_neg h32]

theorem stringFirstPass_esc2 (e : Byte) (r : List Byte) (h : ¬ e = 117) :
    stringFirstPass (92 :: e :: r) = stringFirstPass r := by
  rw [stringFirstPass.eq_def]
  simp
  intro he
  exact absurd he h

theorem stringSecondPass_quote (f : Nat) (r : List Byte) (l c : Nat)
    (acc : List Byte) :
    stringSecondPass (f + 1) (34 :: r) l c acc = .ok (acc, r, c + 1) := by
  simp [stringSecondPass]

theorem stringSecondPass_esc (f : Nat) (t : List Byte) (l c : Nat)
    (acc bs : List Byte) (consumed col' : Nat)
    (hpes : process_escape_sequence t l (c + 1) = .ok (bs, consumed, col')) :
    stringSecondPass (f + 1) (92 :: t) l c acc =
      stringSecondPass f (t.drop consumed) l col' (acc ++ bs) := by
  simp [stringSecondPass, hpes]

theorem escapeChar_raw (b : Byte) (h34 : ¬ b = 34) (h92 : ¬ b = 92)
    (h32 : ¬ b < 32) : escapeChar b = [b] := by
  unfold escapeChar
  rw [if_neg h34, if_neg h92, if_neg (by delta Byte at *; omega : ¬ b = 8),
    if_neg (by delta Byte at *; omega : ¬ b = 12),
    if_neg (by delta Byte at *; omega : ¬ b = 10),
    if_neg (by delta Byte at *; omega : ¬ b = 13),
    if_neg (by delta Byte at *; omega : ¬ b = 9), if_neg h32]

theorem stringFirstPass_escaped (s : List Byte) (rest : List Byte)
    (hs : strOK s = true) :
    stringFirstPass ((s.map escapeChar).flatten ++ (34 :: rest)) =
      Option.none := by
  induction s with
  | nil => simpa using stringFirstPass_quote rest
  | cons b t ih =>
    simp only [strOK, List.all_cons, Bool.and_eq_true] at hs
    have ih' := ih hs.2
    simp only [List.map_cons, List.flatten_cons, List.append_assoc]
    by_cases h34 : b = 34
    · subst h34
      have he : escapeChar 34 = [92, 34] := by decide
      rw [he]
      simp only [List.cons_append, List.nil_append]
      rw [stringFirstPass_esc2 34 _ (by decide)]
      exact ih'
    · by_cases h92 : b = 92
      · subst h92
        have he : escapeChar 92 = [92, 92] := by decide
        rw [he]
        simp only [List.cons_append, List.nil_append]
        rw [stringFirstPass_esc2 92 _ (by decide)]
        exact ih'
      · by_cases h8 : b = 8
        · subst h8
          have he : escapeChar 8 = [92, 98] := by decide
          rw [he]
          simp only [List.cons_append, List.nil_append]
          rw [stringFirstPass_esc2 98 _ (by decide)]
          exact ih'
        · by_cases h12 : b = 12
          · subst h12
            have he : escapeChar 12 = [92, 102] := by decide
            rw [he]
            simp only [List.cons_append, List.nil_append]
            rw [stringFirstPass_esc2 102 _ (by decide)]
            exact ih'
          · by_cases h10 : b = 10
            · subst h10
              have he : escapeChar 10 = [92, 110] := by decide
              rw [he]
              simp only [List.cons_append, List.nil_append]
              rw [stringFirstPass_esc2 110 _ (by decide)]
              exact ih'
            · by_cases h13 : b = 13
              · subst h13
                have he : escapeChar 13 = [92, 114] := by decide
                rw [he]
                simp only [List.cons_append, List.nil_append]
                rw [stringFirstPass_esc2 114 _ (by decide)]
                exact ih'
              · by_cases h9 : b = 9
                · subst h9
                  have he : escapeChar 9 = [92, 116] := by decide
                  rw [he]
                  simp only [List.cons_append, List.nil_append]
                  rw [stringFirstPass_esc2 116 _ (by decide)]
                  exact ih'
                · have hge : 32 ≤ b := by
                    have hok := hs.1
                    simp only [strOKb, Bool.or_eq_true, beq_iff_eq,
                      decide_eq_true_eq] at hok
                    rcases hok with ((((h | h) | h) | h) | h) | h
                    · exact h
                    · exact absurd h h8
                    · exact absurd h h9
                    · exact absurd h h10
                    · exact absurd h h12
                    · exact absurd h h13
                  have he : escapeChar b = [b] :=
                    escapeChar_raw b h34 h92 (Nat.not_lt.mpr hge)
                  rw [he]
                  simp only [List.cons_append, List.nil_append]
                  rw [stringFirstPass_raw b _ h34 h92 (Nat.not_lt.mpr hge)]
                  exact ih'

theorem stringSecondPass_escaped (s : List Byte) (hs : strOK s = true) :
    ∀ fuel rest l c acc, ((s.map escapeChar).flatten).length < fuel →
    ∃ col', stringSecondPass fuel ((s.map escapeChar).flatten ++ (34 :: rest))
      l c acc = .ok (acc ++ s, rest, col') := by
  induction s with
  | nil =>
    intro fuel rest l c acc hlen
    cases fuel with
    | zero => omega
    | succ f =>
      refine ⟨c + 1, ?_⟩
      simpa using stringSecondPass_quote f rest l c acc
  | cons b t ih =>
    intro fuel rest l c acc hlen
    simp only [strOK, List.all_cons, Bool.and_eq_true] at hs
    have ih' := ih hs.2
    simp only [List.map_cons, List.flatten_cons, List.append_assoc] at hlen ⊢
    cases fuel with
    | zero => omega
    | succ f =>
      by_cases h34 : b = 34
      · subst h34
        have he : escapeChar 34 = [92, 34] := by decide
        rw [he] at hlen ⊢
        simp only [List.cons_append, List.nil_append] at hlen ⊢
        rw [stringSecondPass_esc f _ l c acc [34] 1 (c + 1 + 1)
          (by simp [process_escape_sequence, peek]), drop_one_cons]
        obtain ⟨col', hc⟩ := ih' f rest l (c + 1 + 1) (acc ++ [34])
          (by simp only [List.length_cons, List.length_append] at hlen; omega)
        refine ⟨col', ?_⟩
        rw [hc]
        simp
      · by_cases h92 : b = 92
        · subst h92
          have he : escapeChar 92 = [92, 92] := by decide
          rw [he] at hlen ⊢
          simp only [List.cons_append, List.nil_append] at hlen ⊢
          rw [stringSecondPass_esc f _ l c acc [92] 1 (c + 1 + 1)
            (by simp [process_escape_sequence, peek]), drop_one_cons]
          obtain ⟨col', hc⟩ := ih' f rest l (c + 1 + 1) (acc ++ [92])
            (by simp only [List.length_cons, List.length_append] at hlen; omega)
          refine ⟨col', ?_⟩
          rw [hc]
          simp
        · by_cases h8 : b = 8
          · subst h8
            have he : escapeChar 8 = [92, 98] := by decide
            rw [he] at hlen ⊢
            simp only [List.cons_append, List.nil_append] at hlen ⊢
            rw [stringSecondPass_esc f _ l c acc [8] 1 (c + 1 + 1)
              (by simp [process_escape_sequence, peek]), drop_one_cons]
            obtain ⟨col', hc⟩ := ih' f rest l (c + 1 + 1) (acc ++ [8])
              (by simp only [List.length_cons, List.length_append] at hlen; omega)
            refine ⟨col', ?_⟩
            rw [hc]
            simp
          · by_cases h12 : b = 12
            · subst h12
              have he : escapeChar 12 = [92, 102] := by decide
              rw [he] at hlen ⊢
              simp only [List.cons_append, List.nil_append] at hlen ⊢
              rw [stringSecondPass_esc f _ l c acc [12] 1 (c + 1 + 1)
                (by simp [process_escape_sequence, peek]), drop_one_cons]
              obtain ⟨col', hc⟩ := ih' f rest l (c + 1 + 1) (acc ++ [12])
                (by simp only [List.length_cons, List.length_append] at hlen; omega)
              refine ⟨col', ?_⟩
              rw [hc]
              simp
            · by_cases h10 : b = 10
              · subst h10
                have he : escapeChar 10 = [92, 110] := by decide
                rw [he] at hlen ⊢
                simp only [List.cons_append, List.nil_append] at hlen ⊢
                rw [stringSecondPass_esc f _ l c acc [10] 1 (c + 1 + 1)
                  (by simp [process_escape_sequence, peek]), drop_one_cons]
                obtain ⟨col', hc⟩ := ih' f rest l (c + 1 + 1) (acc ++ [10])
                  (by simp only [List.length_cons, List.length_append] at hlen; omega)
                refine ⟨col', ?_⟩
                rw [hc]
                simp
              · by_cases h13 : b = 13
                · subst h13
                  have he : escapeChar 13 = [92, 114] := by decide
                  rw [he] at hlen ⊢
                  simp only [List.cons_append, List.nil_append] at hlen ⊢
                  rw [stringSecondPass_esc f _ l c acc [13] 1 (c + 1 + 1)
                    (by simp [process_escape_sequence, peek]), drop_one_cons]
                  obtain ⟨col', hc⟩ := ih' f rest l (c + 1 + 1) (acc ++ [13])
                    (by simp only [List.length_cons, List.length_append] at hlen; omega)
                  refine ⟨col', ?_⟩
                  rw [hc]
                  simp
                · by_cases h9 : b = 9
                  · subst h9
                    have he : escapeChar 9 = [92, 116] := by decide
                    rw [he] at hlen ⊢
                    simp only [List.cons_append, List.nil_append] at hlen ⊢
                    rw [stringSecondPass_esc f _ l c acc [9] 1 (c + 1 + 1)
                      (by simp [process_escape_sequence, peek]), drop_one_cons]
                    obtain ⟨col', hc⟩ := ih' f rest l (c + 1 + 1) (acc ++ [9])
                      (by simp only [List.length_cons, List.length_append] at hlen; omega)
                    refine ⟨col', ?_⟩
                    rw [hc]
                    simp
                  · have hge : 32 ≤ b := by
                      have hok := hs.1
                      simp only [strOKb, Bool.or_eq_true, beq_iff_eq,
                        decide_eq_true_eq] at hok
                      rcases hok with ((((h | h) | h) | h) | h) | h
                      · exact h
                      · exact absurd h h8
                      · exact absurd h h9
                      · exact absurd h h10
                      · exact absurd h h12
                      · exact absurd h h13
                    have he : escapeChar b = [b] :=
                      escapeChar_raw b h34 h92 (Nat.not_lt.mpr hge)
                    rw [he] at hlen ⊢
                    simp only [List.cons_append, List.nil_append] at hlen ⊢
                    rw [stringSecondPass_lit f b _ l c acc h34 h92]
                    obtain ⟨col', hc⟩ := ih' f rest l (c + 1) (acc ++ [b])
                      (by simp only [List.length_cons, List.length_append] at hlen; omega)
                    refine ⟨col', ?_⟩
                    rw [hc]
                    simp

theorem parse_string_escaped (s rest : List Byte) (l c : Nat)
    (hs : strOK s = true) :
    ∃ col', parse_string (string_builder_append_escaped_string s ++ rest) l c =
      .ok (s, rest, col') := by
  have hinp : string_builder_append_escaped_string s ++ rest =
      34 :: ((s.map escapeChar).flatten ++ (34 :: rest)) := by
    simp [string_builder_append_escaped_string]
  rw [hinp]
  simp only [parse_string]
  rw [if_neg (by simp [peek])]
  rw [drop_one_cons]
  rw [stringFirstPass_escaped s rest hs]
  obtain ⟨col', hc⟩ := stringSecondPass_escaped s hs
    (((s.map escapeChar).flatten ++ (34 :: rest)).length + 1) rest l (c + 1) []
    (by simp [List.length_append]; omega)
  refine ⟨col', ?_⟩
  rw [hc]
  simp

/-! ### The compact rendering, in closed form (claim C2) -/

mutual

/-- The byte string the compact profile produces for a NaN-free tree: no
indentation, no line ends, no spaces, members joined by bare commas. -/
def compactRender : JsonValue → List Byte
  | .jnull => [110, 117, 108, 108]
  | .jbool b => if b then [116, 114, 117, 101] else [102, 97, 108, 115, 101]
  | .jnumber (.fin q) => formatFixed q 6
  | .jnumber _ => []
  | .jstring s => string_builder_append_escaped_string s
  | .jarray xs => [91] ++ (compactRenderList xs ++ [93])
  | .jobject ps =>
    if ps.isEmpty then [123, 125] else [123] ++ (compactRenderPairs ps ++ [125])

/-- Compact rendering of the items of an array, comma separated. -/
def compactRenderList : List JsonValue → List Byte
  | [] => []
  | x :: rest =>
    compactRender x ++
      ((if rest.isEmpty then [] else [44]) ++ compactRenderList rest)

/-- Compact rendering of the members of an object, comma separated. -/
def compactRenderPairs : List (List Byte × JsonValue) → List Byte
  | [] => []
  | (k, v) :: rest =>
    string_builder_append_escaped_string k ++ ([58] ++ (compactRender v ++
      ((if rest.isEmpty then [] else [44]) ++ compactRenderPairs rest)))

end

theorem flatten_replicate_nil (n : Nat) :
    (List.replicate n ([] : List Byte)).flatten = [] := by
  induction n with
  | zero => rfl
  | succ k ih => simp [List.replicate_succ, ih]

theorem indentBytes_compact (lvl : Nat) :
    indentBytes JSON_FORMAT_COMPACT lvl = [] := by
  simp [indentBytes, JSON_FORMAT_COMPACT, flatten_replicate_nil]

theorem should_skip_of_valOK (v : JsonValue) (h : valOK v = true) :
    should_skip_value v = false := by
  cases v with
  | jnumber n =>
    cases n with
    | fin q => rfl
    | nan => simp [valOK] at h
    | inf => rfl
    | neginf => rfl
  | jnull => rfl
  | jbool b => rfl
  | jstring s => rfl
  | jarray xs => rfl
  | jobject ps => rfl

theorem listOK_mem (xs : List JsonValue) (h : listOK xs = true) :
    ∀ x ∈ xs, valOK x = true := by
  induction xs with
  | nil =>
    intro x hx
    simp at hx
  | cons y r ih =>
    intro x hx
    simp only [listOK, Bool.and_eq_true] at h
    rcases List.mem_cons.mp hx with rfl | hx'
    · exact h.1
    · exact ih h.2 x hx'

theorem listOK_filter (xs : List JsonValue) (h : listOK xs = true) :
    xs.filter (fun x => ¬ should_skip_value x) = xs := by
  rw [List.filter_eq_self]
  intro a ha
  simp [should_skip_of_valOK a (listOK_mem xs h a ha)]

theorem firstFail_map_ok (ps : List (List Byte × JsonValue)) :
    firstFail (ps.map (fun p => (p.1, FResult.ok (compactRender p.2)))) =
      Option.none := by
  induction ps with
  | nil => rfl
  | cons p r ih => simpa [firstFail] using ih

theorem anyNofuel_map_ok (ps : List (List Byte × JsonValue)) :
    (ps.map (fun p => (p.1, FResult.ok (compactRender p.2)))).any
      (fun p => fresIsNofuel p.2) = false := by
  induction ps with
  | nil => rfl
  | cons p r ih => simpa [fresIsNofuel] using ih

theorem joinPairs_compact (ps : List (List Byte × JsonValue)) (lvl : Nat) :
    joinPairs JSON_FORMAT_COMPACT lvl
      (ps.map (fun p => (p.1, FResult.ok (compactRender p.2)))) =
      compactRenderPairs ps := by
  induction ps with
  | nil => rfl
  | cons p r ih =>
    obtain ⟨k, v⟩ := p
    simp only [List.map_cons, joinPairs]
    rw [indentBytes_compact]
    have hsp : spacesBytes JSON_FORMAT_COMPACT.spaces_after_colon = [] := rfl
    have hle : JSON_FORMAT_COMPACT.line_end.getD [] = [] := rfl
    rw [hsp, hle, ih]
    cases r with
    | nil => simp [compactRenderPairs]
    | cons q r' => simp [compactRenderPairs]

theorem sban_compact (q : ℚ) (hok : numOK q = true) :
    string_builder_append_number JSON_FORMAT_COMPACT (.fin q) =
      .ok (formatFixed q 6) := by
  obtain ⟨out, hff, hlen, _, _, _, _⟩ := formatFixed_roundtrip q hok
  have hrange : ¬ (qAbs q < mkRat 1 10000 ∨ mkRat 100000 1 < qAbs q) := by
    simp only [numOK, Bool.and_eq_true, Bool.not_eq_true', Bool.or_eq_false_iff,
      decide_eq_false_iff_not] at hok
    exact not_or.mpr ⟨hok.1.1, hok.1.2⟩
  simp only [string_builder_append_number, JSON_FORMAT_COMPACT]
  rw [if_neg hrange]
  rw [if_neg (by rw [show ((6 : Int).toNat) = 6 from rfl, hff]; omega)]
  rw [show ((6 : Int).toNat) = 6 from rfl]

set_option maxHeartbeats 1000000 in
/-- Under the compact profile, every routine of the formatter produces
exactly the closed-form compact rendering on trees whose scalars survive
(claim C2, format side). -/
theorem format_compact : ∀ fuel,
    (∀ v lvl, valOK v = true → 3 * vsize v ≤ fuel →
      format_value fuel JSON_FORMAT_COMPACT lvl v = .ok (compactRender v)) ∧
    (∀ xs lvl, listOK xs = true → 3 * lsize xs + 2 ≤ fuel →
      format_array fuel JSON_FORMAT_COMPACT lvl xs =
        .ok ([91] ++ (compactRenderList xs ++ [93]))) ∧
    (∀ xs lvl simple fc vc, listOK xs = true → vc = fc + xs.length →
      3 * lsize xs + 1 ≤ fuel →
      format_array_items fuel JSON_FORMAT_COMPACT lvl simple vc fc xs =
        .ok (compactRenderList xs)) ∧
    (∀ ps lvl, pairsOK ps = true → 3 * psize ps + 2 ≤ fuel →
      format_object fuel JSON_FORMAT_COMPACT lvl ps =
        .ok (if ps.isEmpty then [123, 125]
          else [123] ++ (compactRenderPairs ps ++ [125]))) ∧
    (∀ ps lvl, pairsOK ps = true → 3 * psize ps + 1 ≤ fuel →
      format_pairs fuel JSON_FORMAT_COMPACT lvl ps =
        some (ps.map (fun p => (p.1, FResult.ok (compactRender p.2))))) := by
  intro fuel
  induction fuel with
  | zero =>
    refine ⟨?_, ?_, ?_, ?_, ?_⟩
    · intro v lvl _ hf
      have := vsize_pos v
      omega
    · intro xs lvl _ hf
      omega
    · intro xs lvl simple fc vc _ _ hf
      omega
    · intro ps lvl _ hf
      omega
    · intro ps lvl _ hf
      omega
  | succ fuel ih =>
    obtain ⟨ihv, iha, ihai, iho, ihp⟩ := ih
    refine ⟨?_, ?_, ?_, ?_, ?_⟩
    · -- format_value
      intro v lvl hok hf
      cases v with
      | jnull => simp [format_value, compactRender]
      | jbool b => cases b <;> simp [format_value, compactRender]
      | jnumber n =>
        cases n with
        | fin q =>
          have hq : numOK q = true := by simpa [valOK] using hok
          simp only [format_value]
          rw [sban_compact q hq]
          simp [compactRender]
        | nan => simp [valOK] at hok
        | inf => simp [valOK] at hok
        | neginf => simp [valOK] at hok
      | jstring s => simp [format_value, compactRender]
      | jarray xs =>
        have hl : listOK xs = true := by simpa [valOK] using hok
        have hcr : compactRender (.jarray xs) =
            [91] ++ (compactRenderList xs ++ [93]) := by
          simp [compactRender]
        simp only [format_value]
        rw [hcr]
        refine iha xs lvl hl ?_
        simp only [vsize] at hf
        omega
      | jobject ps =>
        have hp : pairsOK ps = true ∧ keysNodupB ps = true := by
          have hx := hok
          simp only [valOK, Bool.and_eq_true] at hx
          exact ⟨hx.2, hx.1⟩
        have hcr : compactRender (.jobject ps) =
            if ps.isEmpty then [123, 125]
            else [123] ++ (compactRenderPairs ps ++ [125]) := by
          simp [compactRender]
        simp only [format_value]
        rw [hcr]
        refine iho ps lvl hp.1 ?_
        simp only [vsize] at hf
        omega
    · -- format_array
      intro xs lvl hok hf
      have hitems : ∀ lvl' simple',
          format_array_items fuel JSON_FORMAT_COMPACT lvl' simple' xs.length 0
            xs = .ok (compactRenderList xs) := by
        intro lvl' simple'
        exact ihai xs lvl' simple' 0 xs.length hok (by omega) (by omega)
      have hvc : (if JSON_FORMAT_COMPACT.inline_simple_arrays
          then (xs.filter (fun x => ¬ should_skip_value x)).length else 0) =
          xs.length := by
        rw [listOK_filter xs hok]
        rfl
      simp only [format_array]
      rw [hvc, hitems]
      have hle : JSON_FORMAT_COMPACT.line_end.getD [] = [] := rfl
      rw [hle, indentBytes_compact]
      simp
    · -- format_array_items
      intro xs lvl simple fc vc hok hvc hf
      cases xs with
      | nil => simp [format_array_items, compactRenderList]
      | cons x r =>
        simp only [listOK, Bool.and_eq_true] at hok
        simp only [lsize] at hf
        have hvpos := vsize_pos x
        simp only [format_array_items]
        rw [if_neg (by simp [should_skip_of_valOK x hok.1])]
        rw [ihv x lvl hok.1 (by omega)]
        cases r with
        | nil =>
          rw [if_neg (by simp at hvc; omega : ¬ fc + 1 < vc)]
          rw [ihai [] lvl simple (fc + 1) vc (by rfl)
            (by simp at hvc ⊢; omega) (by simp [lsize]; omega)]
          rw [indentBytes_compact]
          simp [compactRenderList]
        | cons y r' =>
          rw [if_pos (by simp at hvc; omega : fc + 1 < vc)]
          rw [ihai (y :: r') lvl simple (fc + 1) vc hok.2
            (by simp at hvc ⊢; omega) (by simp only [lsize] at hf ⊢; omega)]
          rw [indentBytes_compact]
          have hsp : spacesBytes JSON_FORMAT_COMPACT.spaces_after_comma = [] := rfl
          have hle : JSON_FORMAT_COMPACT.line_end.getD [] = [] := rfl
          rw [hsp, hle]
          simp [compactRenderList]
    · -- format_object
      intro ps lvl hok hf
      cases ps with
      | nil => simp [format_object]
      | cons p r =>
        simp only [format_object]
        rw [if_neg (by simp)]
        rw [ihp (p :: r) (lvl + 1) hok (by omega)]
        have hsort : JSON_FORMAT_COMPACT.sort_object_keys = false := rfl
        rw [hsort]
        simp only [Bool.false_eq_true, if_false]
        rw [if_neg (by rw [anyNofuel_map_ok]; simp)]
        rw [firstFail_map_ok]
        rw [joinPairs_compact, indentBytes_compact]
        have hle : JSON_FORMAT_COMPACT.line_end.getD [] = [] := rfl
        rw [hle]
        simp
    · -- format_pairs
      intro ps lvl hok hf
      cases ps with
      | nil => simp [format_pairs]
      | cons p r =>
        obtain ⟨k, v⟩ := p
        simp only [pairsOK, Bool.and_eq_true] at hok
        simp only [psize] at hf
        simp only [format_pairs]
        rw [if_neg (by simp [should_skip_of_valOK v hok.1.2])]
        rw [ihp r lvl hok.2 (by have := vsize_pos v; omega)]
        rw [ihv v lvl hok.1.2 (by omega)]
        simp

/-! ### Parse side of the compact roundtrip (claim C2) -/

theorem presult_ok_nest {a : Type} (v : a) (i : List Byte) (l c : Nat)
    (n1 n2 : Nat) (h : n1 = n2) :
    (PResult.ok v i l c n1) = (PResult.ok v i l c n2) := by
  rw [h]

theorem lookupPairs_mem_isSome (ps : List (List Byte × JsonValue))
    (p : List Byte × JsonValue) (hp : p ∈ ps) :
    (lookupPairs ps p.1).isSome = true := by
  induction ps with
  | nil => simp at hp
  | cons a as ih =>
    obtain ⟨a1, a2⟩ := a
    rcases List.mem_cons.mp hp with rfl | hp'
    · simp [lookupPairs]
    · by_cases h : a1 = p.1
      · simp [lookupPairs, h]
      · simp only [lookupPairs]
        rw [if_neg h]
        exact ih hp'

/-- The first byte of a surviving value's compact rendering: a letter of a
literal, a quote, a minus or digit, or an opening bracket. -/
theorem compactRender_head (v : JsonValue) (h : valOK v = true) :
    compactRender v ≠ [] ∧
      (isSpaceByte (peek (compactRender v)) = false ∧
        ¬ peek (compactRender v) = 93 ∧ ¬ peek (compactRender v) = 125 ∧
        ¬ peek (compactRender v) = 58 ∧ ¬ peek (compactRender v) = 44) := by
  cases v with
  | jnull =>
    exact ⟨by simp [compactRender], by simp [compactRender, peek, isSpaceByte]⟩
  | jbool b =>
    cases b <;>
      exact ⟨by simp [compactRender], by simp [compactRender, peek, isSpaceByte]⟩
  | jnumber n =>
    cases n with
    | fin q =>
      have hq : numOK q = true := by simpa [valOK] using h
      obtain ⟨out, hff, _, hlen, hpk, _, _⟩ := formatFixed_roundtrip q hq
      have hcr : compactRender (.jnumber (.fin q)) = out := by
        simp [compactRender, hff]
      rw [hcr]
      refine ⟨by intro hc; rw [hc] at hlen; simp at hlen, ?_⟩
      rcases hpk with h1 | h1
      · rw [h1]
        exact ⟨by decide, by decide, by decide, by decide, by decide⟩
      · obtain ⟨hb1, hb2⟩ := isDigit_bounds _ h1
        refine ⟨?_, ?_, ?_, ?_, ?_⟩
        · simp only [isSpaceByte, Bool.or_eq_false_iff, decide_eq_false_iff_not]
          delta Byte at hb1 hb2 ⊢
          omega
        · delta Byte at hb1 hb2 ⊢
          omega
        · delta Byte at hb1 hb2 ⊢
          omega
        · delta Byte at hb1 hb2 ⊢
          omega
        · delta Byte at hb1 hb2 ⊢
          omega
    | nan => simp [valOK] at h
    | inf => simp [valOK] at h
    | neginf => simp [valOK] at h
  | jstring s =>
    refine ⟨?_, ?_⟩
    · simp [compactRender, string_builder_append_escaped_string]
    · have hpk : peek (compactRender (.jstring s)) = 34 := by
        simp [compactRender, string_builder_append_escaped_string, peek]
      rw [hpk]
      exact ⟨by decide, by decide, by decide, by decide, by decide⟩
  | jarray xs =>
    refine ⟨?_, ?_⟩
    · simp [compactRender]
    · have hpk : peek (compactRender (.jarray xs)) = 91 := by
        simp [compactRender, peek]
      rw [hpk]
      exact ⟨by decide, by decide, by decide, by decide, by decide⟩
  | jobject ps =>
    cases ps with
    | nil =>
      refine ⟨by simp [compactRender], ?_⟩
      have hpk : peek (compactRender (.jobject [])) = 123 := by
        simp [compactRender, peek]
      rw [hpk]
      exact ⟨by decide, by decide, by decide, by decide, by decide⟩
    | cons p r =>
      refine ⟨by simp [compactRender], ?_⟩
      have hpk : peek (compactRender (.jobject (p :: r))) = 123 := by
        simp [compactRender, peek]
      rw [hpk]
      exact ⟨by decide, by decide, by decide, by decide, by decide⟩

/-- Same head facts read through an appended continuation. -/
theorem compactRender_head2 (v : JsonValue) (h : valOK v = true)
    (z : List Byte) :
    isSpaceByte (peek (compactRender v ++ z)) = false ∧
      ¬ peek (compactRender v ++ z) = 93 ∧
      ¬ peek (compactRender v ++ z) = 125 ∧
      ¬ peek (compactRender v ++ z) = 58 ∧
      ¬ peek (compactRender v ++ z) = 44 := by
  obtain ⟨hne, hf⟩ := compactRender_head v h
  rw [peek_append _ _ hne]
  exact hf

theorem compactRenderPairs_head (k : List Byte) (v : JsonValue)
    (r : List (List Byte × JsonValue)) (z : List Byte) :
    peek (compactRenderPairs ((k, v) :: r) ++ z) = 34 := by
  simp [compactRenderPairs, string_builder_append_escaped_string, peek]

set_option maxHeartbeats 4000000 in
/-- The parser reconstructs every surviving tree from its compact rendering,
leaving exactly the appended continuation, with the nesting counter grown by
the object leaks (claim C2, parse side). -/
theorem parse_compact : ∀ fuel,
    (∀ v l c n rest, valOK v = true → n + vneed v ≤ 32 → 4 * vsize v ≤ fuel →
      delimByte (peek rest) = true →
      ∃ l2 c2, parse_value fuel (compactRender v ++ rest) l c n =
        .ok (objRev v) rest l2 c2 (n + vleak v)) ∧
    (∀ xs l c n rest, listOK xs = true → n + 1 + lneed xs ≤ 32 →
      4 * lsize xs + 3 ≤ fuel → delimByte (peek rest) = true →
      ∃ l2 c2, parse_array fuel
        (([91] ++ (compactRenderList xs ++ [93])) ++ rest) l c n =
        .ok (.jarray (objRevList xs)) rest l2 c2 (n + lleak xs)) ∧
    (∀ xs l c n rest acc, listOK xs = true → xs ≠ [] → n + lneed xs ≤ 32 →
      1 ≤ n → 4 * lsize xs + 2 ≤ fuel → delimByte (peek rest) = true →
      ∃ l2 c2, parse_array_items fuel
        (compactRenderList xs ++ ([93] ++ rest)) l c n acc =
        .ok (.jarray (acc ++ objRevList xs)) rest l2 c2 (n - 1 + lleak xs)) ∧
    (∀ ps l c n rest, pairsOK ps = true → keysNodupB ps = true →
      n + 1 + pneed ps ≤ 32 → 4 * psize ps + 3 ≤ fuel →
      delimByte (peek rest) = true →
      ∃ l2 c2, parse_object fuel
        ((if ps.isEmpty then [123, 125]
          else [123] ++ (compactRenderPairs ps ++ [125])) ++ rest) l c n =
        .ok (.jobject (objRevPairs ps)) rest l2 c2 (n + 1 + pleak ps)) ∧
    (∀ ps l c n rest acc, pairsOK ps = true → keysNodupB ps = true →
      (∀ p ∈ ps, lookupPairs acc p.1 = Option.none) → ps ≠ [] →
      n + pneed ps ≤ 32 → 4 * psize ps + 2 ≤ fuel →
      delimByte (peek rest) = true →
      ∃ l2 c2, parse_object_items fuel
        (compactRenderPairs ps ++ ([125] ++ rest)) l c n acc =
        .ok (.jobject (objRevPairs ps ++ acc)) rest l2 c2 (n + pleak ps)) := by
  intro fuel
  induction fuel with
  | zero =>
    refine ⟨?_, ?_, ?_, ?_, ?_⟩
    · intro v l c n rest _ _ hfl _
      have := vsize_pos v
      omega
    · intro xs l c n rest _ _ hfl _
      omega
    · intro xs l c n rest acc _ _ _ _ hfl _
      omega
    · intro ps l c n rest _ _ _ hfl _
      omega
    · intro ps l c n rest acc _ _ _ _ _ hfl _
      omega
  | succ fuel ih =>
    obtain ⟨ihv, iha, ihai, iho, ihoi⟩ := ih
    refine ⟨?_, ?_, ?_, ?_, ?_⟩
    · -- parse_value
      intro v l c n rest hok hneed hfl hdelim
      cases v with
      | jnull =>
        refine ⟨l, c + 4, ?_⟩
        have hcr : compactRender .jnull ++ rest =
            110 :: (117 :: (108 :: (108 :: rest))) := by simp [compactRender]
        rw [hcr]
        simp only [parse_value]
        rw [skipWhitespace_nospace _ _ _ (by simp [peek, isSpaceByte])]
        simp only []
        have hpk : peek (110 :: (117 :: (108 :: (108 :: rest)))) = 110 := rfl
        have htk : (110 :: (117 :: (108 :: (108 :: rest)))).take 4 =
            [110, 117, 108, 108] := rfl
        have hdp : (110 :: (117 :: (108 :: (108 :: rest)))).drop 4 = rest := rfl
        rw [hpk, htk, hdp]
        simp [objRev, vleak]
      | jbool b =>
        cases b with
        | true =>
          refine ⟨l, c + 4, ?_⟩
          have hcr : compactRender (.jbool true) ++ rest =
              116 :: (114 :: (117 :: (101 :: rest))) := by simp [compactRender]
          rw [hcr]
          simp only [parse_value]
          rw [skipWhitespace_nospace _ _ _ (by simp [peek, isSpaceByte])]
          simp only []
          have hpk : peek (116 :: (114 :: (117 :: (101 :: rest)))) = 116 := rfl
          have htk : (116 :: (114 :: (117 :: (101 :: rest)))).take 4 =
              [116, 114, 117, 101] := rfl
          have hdp : (116 :: (114 :: (117 :: (101 :: rest)))).drop 4 = rest := rfl
          rw [hpk, htk, hdp]
          simp [objRev, vleak]
        | false =>
          refine ⟨l, c + 5, ?_⟩
          have hcr : compactRender (.jbool false) ++ rest =
              102 :: (97 :: (108 :: (115 :: (101 :: rest)))) := by
            simp [compactRender]
          rw [hcr]
          simp only [parse_value]
          rw [skipWhitespace_nospace _ _ _ (by simp [peek, isSpaceByte])]
          simp only []
          have hpk : peek (102 :: (97 :: (108 :: (115 :: (101 :: rest))))) =
              102 := rfl
          have htk : (102 :: (97 :: (108 :: (115 :: (101 :: rest))))).take 5 =
              [102, 97, 108, 115, 101] := rfl
          have hdp : (102 :: (97 :: (108 :: (115 :: (101 :: rest))))).drop 5 =
              rest := rfl
          rw [hpk, htk, hdp]
          simp [objRev, vleak]
      | jnumber m =>
        cases m with
        | fin q =>
          have hq : numOK q = true := by simpa [valOK] using hok
          obtain ⟨out, hff, hlen14, hlen1, hpkor, hatof, hspan⟩ :=
            formatFixed_roundtrip q hq
          have hcr : compactRender (.jnumber (.fin q)) = out := by
            simp [compactRender, hff]
          rw [hcr]
          have hone : out ≠ [] := by
            intro hc
            rw [hc] at hlen1
            simp at hlen1
          have hpk : peek (out ++ rest) = peek out := peek_append _ _ hone
          have hns : isSpaceByte (peek (out ++ rest)) = false := by
            rw [hpk]
            rcases hpkor with h1 | h1
            · rw [h1]
              decide
            · obtain ⟨hb1, hb2⟩ := isDigit_bounds _ h1
              simp only [isSpaceByte, Bool.or_eq_false_iff,
                decide_eq_false_iff_not]
              delta Byte at hb1 hb2 ⊢
              omega
          have h110 : ¬ peek (out ++ rest) = 110 := by
            rw [hpk]
            rcases hpkor with h1 | h1
            · rw [h1]
              decide
            · intro hc
              rw [hc] at h1
              exact absurd h1 (by decide)
          have h116 : ¬ peek (out ++ rest) = 116 := by
            rw [hpk]
            rcases hpkor with h1 | h1
            · rw [h1]
              decide
            · intro hc
              rw [hc] at h1
              exact absurd h1 (by decide)
          have h102 : ¬ peek (out ++ rest) = 102 := by
            rw [hpk]
            rcases hpkor with h1 | h1
            · rw [h1]
              decide
            · intro hc
              rw [hc] at h1
              exact absurd h1 (by decide)
          have h34 : ¬ peek (out ++ rest) = 34 := by
            rw [hpk]
            rcases hpkor with h1 | h1
            · rw [h1]
              decide
            · intro hc
              rw [hc] at h1
              exact absurd h1 (by decide)
          have h91 : ¬ peek (out ++ rest) = 91 := by
            rw [hpk]
            rcases hpkor with h1 | h1
            · rw [h1]
              decide
            · intro hc
              rw [hc] at h1
              exact absurd h1 (by decide)
          have h123 : ¬ peek (out ++ rest) = 123 := by
            rw [hpk]
            rcases hpkor with h1 | h1
            · rw [h1]
              decide
            · intro hc
              rw [hc] at h1
              exact absurd h1 (by decide)
          have hcond : peek (out ++ rest) = 45 ∨
              isDigitByte (peek (out ++ rest)) = true := by
            rw [hpk]
            exact hpkor
          obtain ⟨col2, hns2⟩ := hspan rest l c hdelim
          refine ⟨l, col2, ?_⟩
          simp only [parse_value]
          rw [skipWhitespace_nospace _ _ _ hns]
          simp only []
          rw [if_neg h110, if_neg h116, if_neg h102, if_neg h34, if_neg h91,
            if_neg h123, if_pos hcond]
          simp only [parse_number]
          rw [hns2]
          simp only []
          rw [hatof]
          simp [objRev, vleak]
        | nan => simp [valOK] at hok
        | inf => simp [valOK] at hok
        | neginf => simp [valOK] at hok
      | jstring s =>
        have hs : strOK s = true := by simpa [valOK] using hok
        have hcr : compactRender (.jstring s) =
            string_builder_append_escaped_string s := by simp [compactRender]
        rw [hcr]
        have hin : string_builder_append_escaped_string s ++ rest =
            34 :: ((s.map escapeChar).flatten ++ (34 :: rest)) := by
          simp [string_builder_append_escaped_string]
        obtain ⟨col1, hps⟩ := parse_string_escaped s rest l c hs
        rw [hin] at hps
        refine ⟨l, col1, ?_⟩
        rw [hin]
        simp only [parse_value]
        rw [skipWhitespace_nospace _ _ _ (by simp [peek, isSpaceByte])]
        simp only []
        have hpk : peek (34 :: ((s.map escapeChar).flatten ++ (34 :: rest))) =
            34 := rfl
        rw [hpk]
        rw [if_neg (by decide : ¬ (34 : Byte) = 110),
          if_neg (by decide : ¬ (34 : Byte) = 116),
          if_neg (by decide : ¬ (34 : Byte) = 102),
          if_pos (rfl : (34 : Byte) = 34)]
        rw [hps]
        simp [objRev, vleak]
      | jarray xs =>
        have hl : listOK xs = true := by simpa [valOK] using hok
        have hcr : compactRender (.jarray xs) =
            [91] ++ (compactRenderList xs ++ [93]) := by simp [compactRender]
        rw [hcr]
        have hneed2 : n + 1 + lneed xs ≤ 32 := by
          simp only [vneed] at hneed
          omega
        have hfl2 : 4 * lsize xs + 3 ≤ fuel := by
          simp only [vsize] at hfl
          omega
        obtain ⟨l2, c2, hpa⟩ := iha xs l c n rest hl hneed2 hfl2 hdelim
        refine ⟨l2, c2, ?_⟩
        have hpk : peek (([91] ++ (compactRenderList xs ++ [93])) ++ rest) =
            91 := by simp [peek]
        simp only [parse_value]
        rw [skipWhitespace_nospace _ _ _ (by rw [hpk]; decide)]
        simp only []
        rw [hpk]
        rw [if_neg (by decide : ¬ (91 : Byte) = 110),
          if_neg (by decide : ¬ (91 : Byte) = 116),
          if_neg (by decide : ¬ (91 : Byte) = 102),
          if_neg (by decide : ¬ (91 : Byte) = 34),
          if_pos (rfl : (91 : Byte) = 91)]
        rw [hpa]
        simp [objRev, vleak]
      | jobject ps =>
        have hx := hok
        simp only [valOK, Bool.and_eq_true] at hx
        have hcr : compactRender (.jobject ps) =
            (if ps.isEmpty then [123, 125]
              else [123] ++ (compactRenderPairs ps ++ [125])) := by
          simp [compactRender]
        rw [hcr]
        have hneed2 : n + 1 + pneed ps ≤ 32 := by
          simp only [vneed] at hneed
          omega
        have hfl2 : 4 * psize ps + 3 ≤ fuel := by
          simp only [vsize] at hfl
          omega
        obtain ⟨l2, c2, hpo⟩ := iho ps l c n rest hx.2 hx.1 hneed2 hfl2 hdelim
        refine ⟨l2, c2, ?_⟩
        have hpk : peek ((if ps.isEmpty then [123, 125]
            else [123] ++ (compactRenderPairs ps ++ [125])) ++ rest) = 123 := by
          cases ps <;> simp [peek]
        simp only [parse_value]
        rw [skipWhitespace_nospace _ _ _ (by rw [hpk]; decide)]
        simp only []
        rw [hpk]
        rw [if_neg (by decide : ¬ (123 : Byte) = 110),
          if_neg (by decide : ¬ (123 : Byte) = 116),
          if_neg (by decide : ¬ (123 : Byte) = 102),
          if_neg (by decide : ¬ (123 : Byte) = 34),
          if_neg (by decide : ¬ (123 : Byte) = 91),
          if_pos (rfl : (123 : Byte) = 123)]
        rw [hpo]
        simp only [objRev, vleak]
        exact presult_ok_nest _ _ _ _ _ _ (by omega)
    · -- parse_array
      intro xs l c n rest hok hneed hfl hdelim
      have hin : ([91] ++ (compactRenderList xs ++ [93])) ++ rest =
          91 :: (compactRenderList xs ++ ([93] ++ rest)) := by simp
      rw [hin]
      simp only [parse_array]
      rw [if_neg (by simp [peek])]
      simp only [JSON_MAX_NESTING_DEPTH]
      rw [if_neg (by omega : ¬ 32 ≤ n)]
      rw [drop_one_cons]
      cases xs with
      | nil =>
        have hy : compactRenderList [] ++ ([93] ++ rest) = 93 :: rest := by
          simp [compactRenderList]
        rw [hy]
        rw [skipWhitespace_nospace _ _ _ (by simp [peek, isSpaceByte])]
        simp only []
        have hpk : peek (93 :: rest) = 93 := rfl
        rw [if_pos hpk]
        refine ⟨l, c + 1 + 1, ?_⟩
        rw [drop_one_cons]
        simp [objRevList, lleak]
      | cons x r =>
        simp only [listOK, Bool.and_eq_true] at hok
        simp only [lneed] at hneed
        simp only [lsize] at hfl
        have hw : compactRenderList (x :: r) ++ ([93] ++ rest) =
            compactRender x ++ ((if r.isEmpty then [] else [44]) ++
              (compactRenderList r ++ (93 :: rest))) := by
          simp [compactRenderList]
        obtain ⟨hsf, h93, _, _, _⟩ := compactRender_head2 x hok.1
          ((if r.isEmpty then [] else [44]) ++
            (compactRenderList r ++ (93 :: rest)))
        obtain ⟨l2, c2, hpai⟩ := ihai (x :: r) l (c + 1) (n + 1) rest []
          (by simp only [listOK, Bool.and_eq_true]; exact hok) (by simp)
          (by simp only [lneed]; omega) (by omega)
          (by simp only [lsize]; omega) hdelim
        rw [hw] at hpai ⊢
        rw [skipWhitespace_nospace _ _ _ hsf]
        simp only []
        rw [if_neg h93]
        refine ⟨l2, c2, ?_⟩
        rw [hpai]
        simp
    · -- parse_array_items
      intro xs l c n rest acc hok hne hneed h1n hfl hdelim
      cases xs with
      | nil => exact absurd rfl hne
      | cons x r =>
        simp only [listOK, Bool.and_eq_true] at hok
        have hvx := vsize_pos x
        simp only [lsize] at hfl
        simp only [lneed] at hneed
        cases r with
        | nil =>
          have hw : compactRenderList [x] ++ ([93] ++ rest) =
              compactRender x ++ (93 :: rest) := by simp [compactRenderList]
          rw [hw]
          obtain ⟨l2, c2, hpv⟩ := ihv x l c n (93 :: rest) hok.1 (by omega)
            (by simp only [lsize] at hfl; omega) (by simp [peek, delimByte])
          simp only [parse_array_items]
          rw [hpv]
          simp only []
          rw [skipWhitespace_nospace _ _ _ (by simp [peek, isSpaceByte])]
          simp only []
          have hpk : peek (93 :: rest) = 93 := rfl
          rw [if_pos hpk]
          refine ⟨l2, c2 + 1, ?_⟩
          rw [drop_one_cons]
          have hlist : acc ++ objRevList [x] = acc ++ [objRev x] := by
            simp [objRevList]
          have hnest : n + vleak x - 1 = n - 1 + lleak [x] := by
            simp only [lleak]
            omega
          rw [hlist, hnest]
        | cons y r' =>
          have hy : valOK y = true := by
            have hz := hok.2
            simp only [listOK, Bool.and_eq_true] at hz
            exact hz.1
          have hw : compactRenderList (x :: y :: r') ++ ([93] ++ rest) =
              compactRender x ++ (44 :: (compactRenderList (y :: r') ++
                (93 :: rest))) := by simp [compactRenderList]
          rw [hw]
          obtain ⟨l2, c2, hpv⟩ := ihv x l c n
            (44 :: (compactRenderList (y :: r') ++ (93 :: rest))) hok.1
            (by omega) (by omega) (by simp [peek, delimByte])
          simp only [parse_array_items]
          rw [hpv]
          simp only []
          rw [skipWhitespace_nospace _ _ _ (by simp [peek, isSpaceByte])]
          simp only []
          rw [if_neg (by simp [peek] : ¬ peek (44 :: (compactRenderList
            (y :: r') ++ (93 :: rest))) = 93)]
          rw [if_neg (by simp [peek])]
          rw [drop_one_cons]
          have hg : compactRenderList (y :: r') ++ (93 :: rest) =
              compactRender y ++ ((if r'.isEmpty then [] else [44]) ++
                (compactRenderList r' ++ (93 :: rest))) := by
            simp [compactRenderList]
          obtain ⟨hsf, h93, _, _, _⟩ := compactRender_head2 y hy
            ((if r'.isEmpty then [] else [44]) ++
              (compactRenderList r' ++ (93 :: rest)))
          obtain ⟨l3, c3, hpai⟩ := ihai (y :: r') l2 (c2 + 1) (n + vleak x)
            rest (acc ++ [objRev x]) hok.2 (by simp) (by omega) (by omega)
            (by have := vsize_pos y; omega) hdelim
          have hb : compactRenderList (y :: r') ++ ([93] ++ rest) =
              compactRender y ++ ((if r'.isEmpty then [] else [44]) ++
                (compactRenderList r' ++ (93 :: rest))) := by
            simp [compactRenderList]
          rw [hb] at hpai
          rw [hg]
          rw [skipWhitespace_nospace _ _ _ hsf]
          simp only []
          rw [if_neg h93]
          refine ⟨l3, c3, ?_⟩
          rw [hpai]
          have hlist : (acc ++ [objRev x]) ++ objRevList (y :: r') =
              acc ++ objRevList (x :: y :: r') := by simp [objRevList]
          have hnest : n + vleak x - 1 + lleak (y :: r') =
              n - 1 + lleak (x :: y :: r') := by
            simp only [lleak]
            omega
          rw [hlist, hnest]
    · -- parse_object
      intro ps l c n rest hpair hnodup hneed hfl hdelim
      cases ps with
      | nil =>
        have hin : ((if (List.isEmpty
            ([] : List (List Byte × JsonValue))) then [123, 125]
            else [123] ++ (compactRenderPairs [] ++ [125])) ++ rest) =
            123 :: (125 :: rest) := by simp
        rw [hin]
        simp only [parse_object]
        rw [if_neg (by simp [peek])]
        simp only [JSON_MAX_NESTING_DEPTH]
        rw [if_neg (by omega : ¬ 32 ≤ n)]
        rw [drop_one_cons]
        rw [skipWhitespace_nospace _ _ _ (by simp [peek, isSpaceByte])]
        simp only []
        have hpk : peek (125 :: rest) = 125 := rfl
        rw [if_pos hpk]
        refine ⟨l, c + 1 + 1, ?_⟩
        rw [drop_one_cons]
        simp [objRevPairs, pleak]
      | cons p r =>
        obtain ⟨k, v⟩ := p
        have hin : ((if (List.isEmpty ((k, v) :: r)) then [123, 125]
            else [123] ++ (compactRenderPairs ((k, v) :: r) ++ [125])) ++
            rest) =
            123 :: (compactRenderPairs ((k, v) :: r) ++ ([125] ++ rest)) := by
          simp
        rw [hin]
        simp only [parse_object]
        rw [if_neg (by simp [peek])]
        simp only [JSON_MAX_NESTING_DEPTH]
        rw [if_neg (by omega : ¬ 32 ≤ n)]
        rw [drop_one_cons]
        have hpk := compactRenderPairs_head k v r ([125] ++ rest)
        rw [skipWhitespace_nospace _ _ _ (by rw [hpk]; decide)]
        simp only []
        rw [if_neg (by rw [hpk]; decide)]
        obtain ⟨l2, c2, hpoi⟩ := ihoi ((k, v) :: r) l (c + 1) (n + 1) rest []
          hpair hnodup (fun p hp => rfl) (by simp) (by omega) (by omega)
          hdelim
        refine ⟨l2, c2, ?_⟩
        rw [hpoi]
        simp
    · -- parse_object_items
      intro ps l c n rest acc hpair hnodup hdisj hne hneed hfl hdelim
      cases ps with
      | nil => exact absurd rfl hne
      | cons p r =>
        obtain ⟨k, v⟩ := p
        simp only [pairsOK, Bool.and_eq_true] at hpair
        simp only [keysNodupB, Bool.and_eq_true, Option.isNone_iff_eq_none]
          at hnodup
        simp only [psize] at hfl
        have hvv := vsize_pos v
        simp only [pneed] at hneed
        have hset : objectSetPairs acc k (objRev v) = (k, objRev v) :: acc :=
          objectSetPairs_new acc k (objRev v) (hdisj (k, v) (by simp))
        cases r with
        | nil =>
          have hw : compactRenderPairs [(k, v)] ++ ([125] ++ rest) =
              string_builder_append_escaped_string k ++
                (58 :: (compactRender v ++ (125 :: rest))) := by
            simp [compactRenderPairs]
          rw [hw]
          simp only [parse_object_items]
          rw [skipWhitespace_nospace _ _ _
            (by simp [string_builder_append_escaped_string, peek, isSpaceByte])]
          simp only []
          obtain ⟨col1, hps⟩ := parse_string_escaped k
            (58 :: (compactRender v ++ (125 :: rest))) l c hpair.1.1
          rw [hps]
          simp only []
          rw [skipWhitespace_nospace _ _ _ (by simp [peek, isSpaceByte])]
          simp only []
          rw [if_neg (by simp [peek])]
          rw [drop_one_cons]
          obtain ⟨hsf, _, h125v, _, _⟩ := compactRender_head2 v hpair.1.2
            (125 :: rest)
          rw [skipWhitespace_nospace _ _ _ hsf]
          simp only []
          obtain ⟨l4, c4, hpv⟩ := ihv v l (col1 + 1) n (125 :: rest)
            hpair.1.2 (by omega) (by simp only [psize] at hfl; omega)
            (by simp [peek, delimByte])
          rw [hpv]
          simp only []
          rw [skipWhitespace_nospace _ _ _ (by simp [peek, isSpaceByte])]
          simp only []
          have hpk : peek (125 :: rest) = 125 := rfl
          rw [if_pos hpk]
          refine ⟨l4, c4 + 1, ?_⟩
          rw [drop_one_cons, hset]
          have hlist : objRevPairs [(k, v)] ++ acc = (k, objRev v) :: acc := by
            simp [objRevPairs]
          have hnest : n + pleak [(k, v)] = n + vleak v := by
            simp only [pleak]
            omega
          rw [hlist, hnest]
        | cons qq r' =>
          obtain ⟨q1, q2⟩ := qq
          have hw : compactRenderPairs ((k, v) :: (q1, q2) :: r') ++
              ([125] ++ rest) =
              string_builder_append_escaped_string k ++
                (58 :: (compactRender v ++ (44 ::
                  (compactRenderPairs ((q1, q2) :: r') ++ (125 :: rest))))) := by
            simp [compactRenderPairs]
          rw [hw]
          simp only [parse_object_items]
          rw [skipWhitespace_nospace _ _ _
            (by simp [string_builder_append_escaped_string, peek, isSpaceByte])]
          simp only []
          obtain ⟨col1, hps⟩ := parse_string_escaped k
            (58 :: (compactRender v ++ (44 ::
              (compactRenderPairs ((q1, q2) :: r') ++ (125 :: rest))))) l c
            hpair.1.1
          rw [hps]
          simp only []
          rw [skipWhitespace_nospace _ _ _ (by simp [peek, isSpaceByte])]
          simp only []
          rw [if_neg (by simp [peek])]
          rw [drop_one_cons]
          obtain ⟨hsf, _, h125v, _, _⟩ := compactRender_head2 v hpair.1.2
            (44 :: (compactRenderPairs ((q1, q2) :: r') ++ (125 :: rest)))
          rw [skipWhitespace_nospace _ _ _ hsf]
          simp only []
          obtain ⟨l4, c4, hpv⟩ := ihv v l (col1 + 1) n
            (44 :: (compactRenderPairs ((q1, q2) :: r') ++ (125 :: rest)))
            hpair.1.2 (by omega) (by omega) (by simp [peek, delimByte])
          rw [hpv]
          simp only []
          rw [skipWhitespace_nospace _ _ _ (by simp [peek, isSpaceByte])]
          simp only []
          rw [if_neg (by simp [peek] : ¬ peek (44 ::
            (compactRenderPairs ((q1, q2) :: r') ++ (125 :: rest))) = 125)]
          rw [if_neg (by simp [peek])]
          rw [drop_one_cons]
          have hpkq := compactRenderPairs_head q1 q2 r' (125 :: rest)
          rw [skipWhitespace_nospace _ _ _ (by rw [hpkq]; decide)]
          simp only []
          rw [if_neg (by rw [hpkq]; decide)]
          rw [hset]
          have hdisj2 : ∀ p ∈ (q1, q2) :: r',
              lookupPairs ((k, objRev v) :: acc) p.1 = Option.none := by
            intro p hp
            have hkne : ¬ k = p.1 := by
              intro hkeq
              have hsm := lookupPairs_mem_isSome ((q1, q2) :: r') p hp
              rw [← hkeq, hnodup.1] at hsm
              simp at hsm
            simp only [lookupPairs]
            rw [if_neg hkne]
            exact hdisj p (List.mem_cons_of_mem _ hp)
          obtain ⟨l5, c5, hpoi⟩ := ihoi ((q1, q2) :: r') l4 (c4 + 1)
            (n + vleak v) rest ((k, objRev v) :: acc) hpair.2 hnodup.2 hdisj2
            (by simp) (by omega) (by omega) hdelim
          have hb : compactRenderPairs ((q1, q2) :: r') ++ ([125] ++ rest) =
              compactRenderPairs ((q1, q2) :: r') ++ (125 :: rest) := by simp
          rw [hb] at hpoi
          refine ⟨l5, c5, ?_⟩
          rw [hpoi]
          have hlist : objRevPairs ((k, v) :: (q1, q2) :: r') ++ acc =
              objRevPairs ((q1, q2) :: r') ++ ((k, objRev v) :: acc) := by
            simp [objRevPairs]
          have hnest : n + pleak ((k, v) :: (q1, q2) :: r') =
              n + vleak v + pleak ((q1, q2) :: r') := by
            simp only [pleak]
            omega
          rw [hlist, hnest]

/-! ### Structural equality of the reconstruction (claim C2) -/

theorem mem_keys_objRevPairs (ps : List (List Byte × JsonValue))
    (k : List Byte) : k ∈ keysOf (objRevPairs ps) ↔ k ∈ keysOf ps := by
  induction ps with
  | nil => simp [objRevPairs]
  | cons p r ih =>
    obtain ⟨k1, v1⟩ := p
    simp [objRevPairs, keysOf] at ih ⊢
    tauto

theorem lookupPairs_none_iff (ps : List (List Byte × JsonValue))
    (k : List Byte) :
    lookupPairs ps k = Option.none ↔ ¬ k ∈ keysOf ps := by
  induction ps with
  | nil => simp [lookupPairs, keysOf]
  | cons a as ih =>
    obtain ⟨a1, a2⟩ := a
    simp only [lookupPairs, keysOf, List.map_cons, List.mem_cons]
    by_cases he : a1 = k
    · rw [if_pos he]
      subst he
      simp
    · rw [if_neg he, ih]
      simp only [keysOf]
      constructor
      · intro h1 h2
        rcases h2 with h2 | h2
        · exact he h2.symm
        · exact h1 h2
      · intro h1 h2
        exact h1 (Or.inr h2)

theorem lookupPairs_append_left (A B : List (List Byte × JsonValue))
    (k : List Byte) (w : JsonValue) (h : lookupPairs A k = some w) :
    lookupPairs (A ++ B) k = some w := by
  induction A with
  | nil => simp [lookupPairs] at h
  | cons a as ih =>
    obtain ⟨a1, a2⟩ := a
    simp only [lookupPairs, List.cons_append] at h ⊢
    by_cases he : a1 = k
    · rw [if_pos he] at h ⊢
      exact h
    · rw [if_neg he] at h ⊢
      exact ih h

theorem lookupPairs_append_right (A B : List (List Byte × JsonValue))
    (k : List Byte) (h : lookupPairs A k = Option.none) :
    lookupPairs (A ++ B) k = lookupPairs B k := by
  induction A with
  | nil => simp
  | cons a as ih =>
    obtain ⟨a1, a2⟩ := a
    simp only [lookupPairs, List.cons_append] at h ⊢
    by_cases he : a1 = k
    · rw [if_pos he] at h
      cases h
    · rw [if_neg he] at h ⊢
      exact ih h

theorem lookupPairs_objRev (ps : List (List Byte × JsonValue)) (k : List Byte)
    (v : JsonValue) (hnd : keysNodupB ps = true)
    (h : lookupPairs ps k = some v) :
    lookupPairs (objRevPairs ps) k = some (objRev v) := by
  induction ps with
  | nil => simp [lookupPairs] at h
  | cons p r ih =>
    obtain ⟨k1, v1⟩ := p
    simp only [keysNodupB, Bool.and_eq_true, Option.isNone_iff_eq_none] at hnd
    simp only [lookupPairs] at h
    by_cases he : k1 = k
    · rw [if_pos he] at h
      rw [Option.some.injEq] at h
      subst he
      subst h
      have hnoneRev : lookupPairs (objRevPairs r) k1 = Option.none := by
        rw [lookupPairs_none_iff]
        rw [mem_keys_objRevPairs]
        rw [← lookupPairs_none_iff]
        exact hnd.1
      simp only [objRevPairs]
      rw [lookupPairs_append_right _ _ _ hnoneRev]
      simp [lookupPairs]
    · rw [if_neg he] at h
      simp only [objRevPairs]
      exact lookupPairs_append_left _ _ _ _ (ih hnd.2 h)

theorem lookupPairs_of_mem_nodup (ps : List (List Byte × JsonValue))
    (k : List Byte) (v : JsonValue) (hnd : keysNodupB ps = true)
    (h : (k, v) ∈ ps) : lookupPairs ps k = some v := by
  induction ps with
  | nil => simp at h
  | cons p r ih =>
    obtain ⟨k1, v1⟩ := p
    simp only [keysNodupB, Bool.and_eq_true, Option.isNone_iff_eq_none] at hnd
    rcases List.mem_cons.mp h with heq | hmem
    · rw [Prod.mk.injEq] at heq
      obtain ⟨rfl, rfl⟩ := heq
      simp [lookupPairs]
    · simp only [lookupPairs]
      by_cases he : k1 = k
      · exfalso
        have hsm := lookupPairs_mem_isSome r (k, v) hmem
        rw [← he] at hsm
        rw [hnd.1] at hsm
        simp at hsm
      · rw [if_neg he]
        exact ih hnd.2 hmem

theorem vsize_mem_pairs (ps : List (List Byte × JsonValue)) (k : List Byte)
    (v : JsonValue) (h : (k, v) ∈ ps) : vsize v ≤ psize ps := by
  induction ps with
  | nil => simp at h
  | cons p r ih =>
    obtain ⟨k1, v1⟩ := p
    simp only [psize]
    rcases List.mem_cons.mp h with heq | hmem
    · rw [Prod.mk.injEq] at heq
      obtain ⟨rfl, rfl⟩ := heq
      omega
    · have := ih hmem
      omega

set_option maxHeartbeats 1000000 in
/-- The reconstructed tree is structurally equal to the original in the
claim's sense: same variant and scalars everywhere, same array order, same
object key set with equal per-key values. -/
theorem structEq_objRev : ∀ sz v, vsize v ≤ sz → valOK v = true →
    structEq v (objRev v) = true := by
  intro sz
  induction sz with
  | zero =>
    intro v hsz _
    have := vsize_pos v
    omega
  | succ sz ih =>
    intro v hsz hok
    cases v with
    | jnull => simp [objRev, structEq]
    | jbool b => simp [objRev, structEq]
    | jnumber m => simp [objRev, structEq]
    | jstring s => simp [objRev, structEq]
    | jarray xs =>
      have hl : listOK xs = true := by simpa [valOK] using hok
      simp only [vsize] at hsz
      simp only [objRev, structEq]
      have claim : ∀ ys, listOK ys = true → lsize ys ≤ sz →
          structEqList ys (objRevList ys) = true := by
        intro ys
        induction ys with
        | nil =>
          intro _ _
          simp [objRevList, structEqList]
        | cons y t iht =>
          intro hly hsy
          simp only [listOK, Bool.and_eq_true] at hly
          simp only [lsize] at hsy
          have hvy := vsize_pos y
          simp only [objRevList, structEqList, Bool.and_eq_true]
          exact ⟨ih y (by omega) hly.1, iht hly.2 (by omega)⟩
      exact claim xs hl (by omega)
    | jobject ps =>
      have hx := hok
      simp only [valOK, Bool.and_eq_true] at hx
      simp only [vsize] at hsz
      simp only [objRev, structEq, Bool.and_eq_true]
      constructor
      · rw [List.all_eq_true]
        intro k hk
        simpa using (mem_keys_objRevPairs ps k).mp hk
      · have claim : ∀ qs, pairsOK qs = true → (∀ p ∈ qs, p ∈ ps) →
            structEqPairs qs (objRevPairs ps) = true := by
          intro qs
          induction qs with
          | nil =>
            intro _ _
            simp [structEqPairs]
          | cons p t iht =>
            intro hpq hsub
            obtain ⟨k, v⟩ := p
            simp only [pairsOK, Bool.and_eq_true] at hpq
            have hmem : (k, v) ∈ ps := hsub (k, v) (by simp)
            have hlk := lookupPairs_of_mem_nodup ps k v hx.1 hmem
            have hlkr := lookupPairs_objRev ps k v hx.1 hlk
            simp only [structEqPairs, Bool.and_eq_true]
            constructor
            · rw [hlkr]
              have hvsz : vsize v ≤ sz := by
                have := vsize_mem_pairs ps k v hmem
                omega
              exact ih v hvsz hpq.1.2
            · exact iht hpq.2 (fun p hp => hsub p (List.mem_cons_of_mem _ hp))
        exact claim ps hx.2 (fun p hp => hp)

set_option maxHeartbeats 1000000 in
/-- The compact rendering never shrinks below the tree size, so the public
entry points always supply ample fuel for the reparse. -/
theorem compactRender_length : ∀ sz v, vsize v ≤ sz → valOK v = true →
    vsize v ≤ (compactRender v).length := by
  intro sz
  induction sz with
  | zero =>
    intro v hsz _
    have := vsize_pos v
    omega
  | succ sz ih =>
    intro v hsz hok
    cases v with
    | jnull => simp [compactRender, vsize]
    | jbool b => cases b <;> simp [compactRender, vsize]
    | jnumber m =>
      cases m with
      | fin q =>
        have hq : numOK q = true := by simpa [valOK] using hok
        obtain ⟨out, hff, _, hlen1, _, _, _⟩ := formatFixed_roundtrip q hq
        have hcr : compactRender (.jnumber (.fin q)) = out := by
          simp [compactRender, hff]
        rw [hcr]
        simp only [vsize]
        omega
      | nan => simp [valOK] at hok
      | inf => simp [valOK] at hok
      | neginf => simp [valOK] at hok
    | jstring s =>
      simp [compactRender, vsize, string_builder_append_escaped_string]
    | jarray xs =>
      have hl : listOK xs = true := by simpa [valOK] using hok
      simp only [vsize] at hsz ⊢
      have hcr : compactRender (.jarray xs) =
          [91] ++ (compactRenderList xs ++ [93]) := by simp [compactRender]
      rw [hcr]
      have claim : ∀ ys, listOK ys = true → lsize ys ≤ sz →
          lsize ys ≤ (compactRenderList ys).length := by
        intro ys
        induction ys with
        | nil =>
          intro _ _
          simp [compactRenderList, lsize]
        | cons y t iht =>
          intro hly hsy
          simp only [listOK, Bool.and_eq_true] at hly
          simp only [lsize] at hsy
          have hvy := vsize_pos y
          have h1 := ih y (by omega) hly.1
          have h2 := iht hly.2 (by omega)
          simp only [compactRenderList, lsize, List.length_append]
          omega
      have := claim xs hl (by omega)
      simp only [List.length_append, List.length_cons, List.length_nil]
      omega
    | jobject ps =>
      have hx := hok
      simp only [valOK, Bool.and_eq_true] at hx
      simp only [vsize] at hsz ⊢
      have claim : ∀ qs, pairsOK qs = true → psize qs ≤ sz →
          psize qs ≤ (compactRenderPairs qs).length := by
        intro qs
        induction qs with
        | nil =>
          intro _ _
          simp [compactRenderPairs, psize]
        | cons p t iht =>
          intro hpq hsq
          obtain ⟨k, v⟩ := p
          simp only [pairsOK, Bool.and_eq_true] at hpq
          simp only [psize] at hsq
          have hvv := vsize_pos v
          have h1 := ih v (by omega) hpq.1.2
          have h2 := iht hpq.2 (by omega)
          simp only [compactRenderPairs, psize, List.length_append]
          omega
      have hps := claim ps hx.2 (by omega)
      cases ps with
      | nil => simp [compactRender, psize] at hps ⊢
      | cons p r =>
        have hcr : compactRender (.jobject (p :: r)) =
            [123] ++ (compactRenderPairs (p :: r) ++ [125]) := by
          simp [compactRender]
        rw [hcr]
        simp only [List.length_append, List.length_cons, List.length_nil]
        omega

/-! ### Claim theorems -/

/-- C1 counterexample: the claim that the validator and the parser accept
exactly the same inputs fails on the lone high surrogate escape.  The
document consisting of the string literal with escape uD800 validates
(json_validate.c only checks four hex digits per escape) but does not parse
(json_parser.c demands a following low surrogate). -/
theorem c1_validator_parser_disagree_on_lone_surrogate :
    json_validate_string (strBytes "\"\\uD800\"") = true ∧
    exceptOk (json_parse_string (strBytes "\"\\uD800\"")) = false := by
  exact ⟨rfl, rfl⟩

/-- C3: the claim that a failing json_write_file_ex leaves the target file
with its prior contents is violated by the code.  With an existing target
holding some bytes, a run in which every step succeeds except the final
rename first removes the target (json_file.c:263) and then deletes the temp
file (json_file.c:279): the call reports failure, and afterwards neither the
target nor the temp file exists, so the prior contents are lost. -/
theorem c3_rename_failure_loses_target :
    json_write_file_ex .jnull (strBytes "data.json") Option.none
        ⟨false, false, false, false, true⟩
        ⟨[(strBytes "data.json", strBytes "old")]⟩ =
      (false, ⟨[]⟩) ∧
    fsLookup (json_write_file_ex .jnull (strBytes "data.json") Option.none
        ⟨false, false, false, false, true⟩
        ⟨[(strBytes "data.json", strBytes "old")]⟩).2
      (strBytes "data.json") ≠ some (strBytes "old") := by
  exact ⟨rfl, by decide⟩

set_option maxRecDepth 8000 in
/-- C4: arrays or objects nested to depth 32 parse; nested to depth 33 the
parse fails with the maximum-nesting error positioned at the innermost
opening bracket (column 33 for the bracket chain, column 161 for the brace
chain whose innermost brace follows thirty-two five-byte prefixes). -/
theorem c4_nesting_boundary :
    json_parse_string (List.replicate 32 (91 : Byte) ++ List.replicate 32 (93 : Byte)) =
      .ok (nestedArrays 31) ∧
    json_parse_string (List.replicate 33 (91 : Byte) ++ List.replicate 33 (93 : Byte)) =
      .error ⟨.maximumNestingReached, 1, 33⟩ ∧
    json_parse_string ((List.replicate 31 (strBytes "\x7b\"k\":")).flatten ++
        strBytes "\x7b\x7d" ++ List.replicate 31 (125 : Byte)) =
      .ok (nestedObjects 31) ∧
    json_parse_string ((List.replicate 32 (strBytes "\x7b\"k\":")).flatten ++
        strBytes "\x7b\x7d" ++ List.replicate 32 (125 : Byte)) =
      .error ⟨.maximumNestingReached, 1, 161⟩ := by
  refine ⟨by with_unfolding_all rfl, by with_unfolding_all rfl, by with_unfolding_all rfl, by with_unfolding_all rfl⟩

/-- C5: upsert semantics of json_object_set.  Setting a twice, b once, a
again yields stored enumeration b then a with the value of a replaced in its
original slot; in general a new key is prepended to the stored list while an
existing key keeps every key position and only its value changes. -/
theorem c5_object_set_upsert :
    ((json_object_set (.jobject []) (strBytes "a") (.jnumber (.fin 1))).bind
      (fun o => json_object_set o (strBytes "b") (.jnumber (.fin 2)))).bind
      (fun o => json_object_set o (strBytes "a") (.jnumber (.fin 3))) =
      some (.jobject [(strBytes "b", .jnumber (.fin 2)),
        (strBytes "a", .jnumber (.fin 3))]) ∧
    (∀ ps k v, lookupPairs ps k = Option.none →
      objectSetPairs ps k v = (k, v) :: ps) ∧
    (∀ ps k v w, lookupPairs ps k = some w →
      keysOf (objectSetPairs ps k v) = keysOf ps ∧
        lookupPairs (objectSetPairs ps k v) k = some v ∧
        ∀ k', k' ≠ k →
          lookupPairs (objectSetPairs ps k v) k' = lookupPairs ps k') := by
  refine ⟨by with_unfolding_all rfl, objectSetPairs_new, objectSetPairs_existing⟩

/-- Witness for c5_object_set_upsert at concrete inputs: inserting a fresh
key prepends it, and updating key x of a two-pair list keeps the stored key
order while replacing the value. -/
theorem c5_object_set_upsert_witness :
    objectSetPairs [] (strBytes "x") .jnull = [(strBytes "x", .jnull)] ∧
    keysOf (objectSetPairs [(strBytes "x", .jnull), (strBytes "y", .jnull)]
        (strBytes "x") (.jbool true)) = [strBytes "x", strBytes "y"] := by
  refine ⟨c5_object_set_upsert.2.1 [] (strBytes "x") .jnull rfl, ?_⟩
  exact (c5_object_set_upsert.2.2 [(strBytes "x", .jnull), (strBytes "y", .jnull)]
    (strBytes "x") (.jbool true) .jnull rfl).1

/-- C6: the surrogate-pair escape uD83D uDE00 parses to the four UTF-8 bytes
of code point U+1F600, and formatting that string emits those bytes raw
(no escaping), between quotes. -/
theorem c6_surrogate_pair_roundtrip :
    json_parse_string (strBytes "\"\\uD83D\\uDE00\"") =
      .ok (.jstring [0xF0, 0x9F, 0x98, 0x80]) ∧
    unicode_to_utf8 0x1F600 = [0xF0, 0x9F, 0x98, 0x80] ∧
    json_format_string (.jstring [0xF0, 0x9F, 0x98, 0x80])
        (some JSON_FORMAT_COMPACT) =
      .ok ([34, 0xF0, 0x9F, 0x98, 0x80, 34]) := by
  exact ⟨by with_unfolding_all rfl, rfl, by with_unfolding_all rfl⟩

/-- C7: a configuration with a NULL indent or line-end string or any negative
numeric field makes json_format_string fail with the configuration error
code, for every value. -/
theorem c7_invalid_config_rejected (v : JsonValue) (cfg : JsonFormatConfig)
    (h : cfg.indent_string = Option.none ∨ cfg.line_end = Option.none ∨
      cfg.spaces_after_colon < 0 ∨ cfg.spaces_after_comma < 0 ∨
      cfg.max_inline_length < 0 ∨ cfg.precision < 0) :
    json_format_string v (some cfg) = .error ⟨.formatInvalidConfig, 0, 0⟩ := by
  unfold json_format_string
  simp only [Option.getD_some]
  rw [if_pos h]

/-- Witness for c7_invalid_config_rejected: the compact configuration with
precision set to minus one is rejected. -/
theorem c7_invalid_config_rejected_witness :
    json_format_string .jnull
        (some { JSON_FORMAT_COMPACT with precision := -1 }) =
      .error ⟨.formatInvalidConfig, 0, 0⟩ :=
  c7_invalid_config_rejected .jnull _ (by right; right; right; right; right; decide)

/-- C2 counterexample: the compact round trip does not reconstruct every
NaN-and-infinity-free tree.  Three independent failures: the number 1/1024
(an exactly representable double) formats at the default six-digit precision
as 0.000977 and parses back as 977/1000000, a different number; the string
holding the single control byte 1 formats as the escape u0001 whose decoding
leaves the four hex digits behind (json_parser.c:176-227 never consumes
them), yielding a five-byte string; and the array of thirty-two empty
objects formats fine but fails to parse back, because parse_object never
releases its nesting level and the thirty-second brace exhausts the depth
budget. -/
theorem c2_roundtrip_counterexample :
    json_format_string (.jnumber (.fin (mkRat 1 1024))) (some JSON_FORMAT_COMPACT) =
      .ok (strBytes "0.000977") ∧
    json_parse_string (strBytes "0.000977") =
      .ok (.jnumber (.fin (mkRat 977 1000000))) ∧
    mkRat 977 1000000 ≠ mkRat 1 1024 ∧
    json_format_string (.jstring [1]) (some JSON_FORMAT_COMPACT) =
      .ok (strBytes "\"\\u0001\"") ∧
    json_parse_string (strBytes "\"\\u0001\"") = .ok (.jstring [1, 48, 48, 48, 49]) ∧
    ([1, 48, 48, 48, 49] : List Byte) ≠ [1] ∧
    json_format_string (.jarray (List.replicate 32 (.jobject []))) (some JSON_FORMAT_COMPACT) =
      .ok (91 :: strBytes "\x7b\x7d" ++ (List.replicate 31 (strBytes ",\x7b\x7d")).flatten ++ [93]) ∧
    json_parse_string
        (91 :: strBytes "\x7b\x7d" ++ (List.replicate 31 (strBytes ",\x7b\x7d")).flatten ++ [93]) =
      .error ⟨.maximumNestingReached, 1, 95⟩ := by
  refine ⟨by with_unfolding_all rfl, by with_unfolding_all rfl, by decide,
    by with_unfolding_all rfl, by with_unfolding_all rfl, by decide,
    by with_unfolding_all rfl, by with_unfolding_all rfl⟩

/-- C8: both trailing-comma documents fail to parse with a syntax error
(unexpected character) on line 1 column 8, the position of the closing
bracket and brace that follows the offending comma. -/
theorem c8_trailing_comma_rejected :
    json_parse_string (strBytes "[1,2,3,]") = .error ⟨.unexpectedChar, 1, 8⟩ ∧
    json_parse_string (strBytes "\x7b\"a\":1,\x7d") =
      .error ⟨.unexpectedChar, 1, 8⟩ := by
  exact ⟨rfl, rfl⟩

/-- C10: json_parse_string accepts object documents with duplicate keys.
In every parsed value the object keys are pairwise distinct (first
conjunct, a consequence of all object entries being made through
json_object_set), and on the document with key a bound twice the resulting
object holds one entry per distinct key, with a's value taken from the
last occurrence (3) and a's enumeration slot the one established by its
first occurrence (after b, since json_object_set prepends new keys and
replaces existing ones in place). -/
theorem c10_duplicate_keys :
    (∀ s v, json_parse_string s = .ok v → valueUnique v = true) ∧
    json_parse_string (strBytes "\x7b\"a\":1,\"b\":2,\"a\":3\x7d") =
      .ok (.jobject [(strBytes "b", .jnumber (.fin 2)),
        (strBytes "a", .jnumber (.fin 3))]) := by
  constructor
  · intro s v h
    unfold json_parse_string at h
    split at h
    · cases h
    · cases h
    · rename_i v0 rest line col n0 hpv
      split at h
      split at h
      · cases h
      · cases h
        exact (parse_all_unique (parseFuel s)).1 _ _ _ _ _ _ _ _ _ hpv
  · with_unfolding_all rfl

theorem c10_duplicate_keys_witness :
    valueUnique (.jobject [(strBytes "b", .jnumber (.fin 2)),
      (strBytes "a", .jnumber (.fin 3))]) = true :=
  c10_duplicate_keys.1 _ _ c10_duplicate_keys.2

/-- C1 amended: the two accept sets are not equal (see the lone-surrogate
counterexample), but one inclusion holds: every input json_parse_string
accepts, json_validate_string accepts. -/
theorem c1_parse_accept_implies_validate_accept (s : List Byte) (v : JsonValue)
    (h : json_parse_string s = .ok v) : json_validate_string s = true := by
  unfold json_parse_string at h
  split at h
  · cases h
  · cases h
  · rename_i v0 rest line col pn' hpv
    split at h
    rename_i rest1 l1 c1 hsw
    by_cases hz : peek rest1 ≠ 0
    · rw [if_pos hz] at h; cases h
    · rw [if_neg hz] at h
      cases h
      obtain ⟨l2, c2, vn', hvv, _⟩ := (validate_refines_parse (parseFuel s)).1
        s 1 1 0 v rest line col pn' 1 1 0 le_rfl hpv
      rcases hswv : skipWhitespace rest l2 c2 with ⟨r2, l3, c3⟩
      have hvi : r2 = rest1 := by
        have hx := skipWhitespace_input rest line col l2 c2
        rw [hswv, hsw] at hx
        exact hx
      rw [hvi] at hswv
      simp only [json_validate_string, hvv, hswv]
      simp [not_not.mp hz]

theorem c1_parse_accept_implies_validate_accept_witness :
    json_validate_string (strBytes "true") = true :=
  c1_parse_accept_implies_validate_accept (strBytes "true") (.jbool true)
    (by with_unfolding_all rfl)

/-- C9 counterexample: an Infinity in the tree does not always produce the
infinity error code.  With decimal notation the huge first element
overflows the 32-byte number buffer, whose failure carries no error code,
so json_format_string reports the generic format error before the infinity
in the second slot is ever reached. -/
theorem c9_overflow_masks_infinity_error :
    json_format_string
      (.jarray [.jnumber (.fin (mkRat (10 ^ 40) 1)), .jnumber .inf])
      (some { JSON_FORMAT_COMPACT with number_format := .decimal }) =
    .error ⟨.formatError, 0, 0⟩ := by
  with_unfolding_all rfl

/-- C9 amended: a NaN value in an array slot or an object member is skipped
(with its key, no separator emitted for it), a NaN at the root fails with
the NaN error code under every valid configuration, and a root Infinity
fails with the infinity error code; but an Infinity deeper in the tree is
only reported if formatting reaches it (see the counterexample). -/
theorem c9_nan_skipped_root_errors :
    (∀ cfg : JsonFormatConfig, ¬ cfg.indent_string = Option.none →
      ¬ cfg.line_end = Option.none → ¬ cfg.spaces_after_colon < 0 →
      ¬ cfg.spaces_after_comma < 0 → ¬ cfg.max_inline_length < 0 →
      ¬ cfg.precision < 0 →
      json_format_string (.jnumber .nan) (some cfg) =
        .error ⟨.invalidNumberNaN, 0, 0⟩) ∧
    (∀ f cfg lvl simple vc fc rest,
      format_array_items (f + 1) cfg lvl simple vc fc (.jnumber .nan :: rest) =
        format_array_items f cfg lvl simple vc fc rest) ∧
    (∀ f cfg lvl k rest,
      format_pairs (f + 1) cfg lvl ((k, .jnumber .nan) :: rest) =
        format_pairs f cfg lvl rest) ∧
    json_format_string (.jarray [.jnumber (.fin 1), .jnumber .nan,
        .jnumber (.fin 2)]) (some JSON_FORMAT_COMPACT) =
      .ok (strBytes "[1.000000,2.000000]") ∧
    json_format_string (.jobject [(strBytes "a", .jnumber .nan),
        (strBytes "b", .jnumber (.fin 2))]) (some JSON_FORMAT_COMPACT) =
      .ok (strBytes "\x7b\"b\":2.000000\x7d") ∧
    json_format_string (.jnumber .inf) (some JSON_FORMAT_COMPACT) =
      .error ⟨.invalidNumberInfinity, 0, 0⟩ := by
  refine ⟨?_, fun f cfg lvl simple vc fc rest => rfl, fun f cfg lvl k rest => rfl,
    by with_unfolding_all rfl, by with_unfolding_all rfl, by with_unfolding_all rfl⟩
  intro cfg h1 h2 h3 h4 h5 h6
  have hOr : ¬ (cfg.indent_string = Option.none ∨ cfg.line_end = Option.none ∨
      cfg.spaces_after_colon < 0 ∨ cfg.spaces_after_comma < 0 ∨
      cfg.max_inline_length < 0 ∨ cfg.precision < 0) := by
    simp only [not_or]
    exact ⟨h1, h2, h3, h4, h5, h6⟩
  simp only [json_format_string, Option.getD_some]
  rw [if_neg hOr]
  rfl

theorem c9_nan_skipped_root_errors_witness :
    json_format_string (.jnumber .nan) (some JSON_FORMAT_COMPACT) =
      .error ⟨.invalidNumberNaN, 0, 0⟩ :=
  c9_nan_skipped_root_errors.1 JSON_FORMAT_COMPACT (by decide) (by decide)
    (by decide) (by decide) (by decide) (by decide)

/-- C2, amended: the compact round trip does reconstruct every tree whose
scalars survive the rendering — no NaN or infinity, every number within the
fixed-notation range and exactly representable at six fractional digits,
every string and key free of control bytes without short escapes, object
keys pairwise distinct (all captured by valOK) — provided the nesting
margin vneed stays within the depth budget of 32.  The parsed tree is the
original with every object member list reversed (json_object_set prepends
first-seen keys), which is structurally equal to the original in the
claim's sense: same variant and scalars at every node, same array order,
same object key set with equal per-key values. -/
theorem c2_compact_roundtrip (v : JsonValue) (hok : valOK v = true)
    (hneed : vneed v ≤ 32) :
    ∃ out, json_format_string v (some JSON_FORMAT_COMPACT) = .ok out ∧
      json_parse_string out = .ok (objRev v) ∧
      structEq v (objRev v) = true := by
  refine ⟨compactRender v, ?_, ?_, ?_⟩
  · have hOr : ¬ (JSON_FORMAT_COMPACT.indent_string = Option.none ∨
        JSON_FORMAT_COMPACT.line_end = Option.none ∨
        JSON_FORMAT_COMPACT.spaces_after_colon < 0 ∨
        JSON_FORMAT_COMPACT.spaces_after_comma < 0 ∨
        JSON_FORMAT_COMPACT.max_inline_length < 0 ∨
        JSON_FORMAT_COMPACT.precision < 0) := by decide
    simp only [json_format_string, Option.getD_some]
    rw [if_neg hOr]
    rw [(format_compact (formatFuel v)).1 v 0 hok
      (by simp only [formatFuel]; omega)]
    rfl
  · have hlen := compactRender_length (vsize v) v le_rfl hok
    obtain ⟨l2, c2, hpv⟩ :=
      (parse_compact (parseFuel (compactRender v))).1 v 1 1 0 [] hok
        (by omega) (by simp only [parseFuel]; omega) (by decide)
    rw [List.append_nil] at hpv
    simp only [json_parse_string]
    rw [hpv]
    have hsw : skipWhitespace [] l2 c2 = ([], l2, c2) := rfl
    simp only [hsw]
    rw [if_neg (by simp [peek])]
  · exact structEq_objRev (vsize v) v le_rfl hok

/-- Witness for c2_compact_roundtrip: a two-member object holding an array
of all four scalar kinds and a number round-trips, with the reconstruction
reversing the stored member order. -/
theorem c2_compact_roundtrip_witness :
    valOK (.jobject [(strBytes "a",
        .jarray [.jnull, .jbool true, .jnumber (.fin 1),
          .jstring (strBytes "hi")]),
      (strBytes "b", .jnumber (.fin (mkRat 1 2)))]) = true ∧
    vneed (.jobject [(strBytes "a",
        .jarray [.jnull, .jbool true, .jnumber (.fin 1),
          .jstring (strBytes "hi")]),
      (strBytes "b", .jnumber (.fin (mkRat 1 2)))]) ≤ 32 ∧
    (∃ out, json_format_string (.jobject [(strBytes "a",
        .jarray [.jnull, .jbool true, .jnumber (.fin 1),
          .jstring (strBytes "hi")]),
      (strBytes "b", .jnumber (.fin (mkRat 1 2)))])
        (some JSON_FORMAT_COMPACT) = .ok out ∧
      json_parse_string out = .ok (objRev (.jobject [(strBytes "a",
        .jarray [.jnull, .jbool true, .jnumber (.fin 1),
          .jstring (strBytes "hi")]),
      (strBytes "b", .jnumber (.fin (mkRat 1 2)))])) ∧
      structEq (.jobject [(strBytes "a",
        .jarray [.jnull, .jbool true, .jnumber (.fin 1),
          .jstring (strBytes "hi")]),
      (strBytes "b", .jnumber (.fin (mkRat 1 2)))])
        (objRev (.jobject [(strBytes "a",
        .jarray [.jnull, .jbool true, .jnumber (.fin 1),
          .jstring (strBytes "hi")]),
      (strBytes "b", .jnumber (.fin (mkRat 1 2)))])) = true) := by
  have hval : valOK (.jobject [(strBytes "a",
      .jarray [.jnull, .jbool true, .jnumber (.fin 1),
        .jstring (strBytes "hi")]),
    (strBytes "b", .jnumber (.fin (mkRat 1 2)))]) = true := by
    simp [valOK, listOK, pairsOK, keysNodupB, lookupPairs, strOK, strOKb,
      strBytes]
    constructor
    · with_unfolding_all rfl
    · with_unfolding_all rfl
  have hneed : vneed (.jobject [(strBytes "a",
      .jarray [.jnull, .jbool true, .jnumber (.fin 1),
        .jstring (strBytes "hi")]),
    (strBytes "b", .jnumber (.fin (mkRat 1 2)))]) ≤ 32 := by
    simp [vneed, lneed, pneed, vleak, lleak, pleak]
  exact ⟨hval, hneed, c2_compact_roundtrip _ hval hneed⟩

end JsonSpec
